import Mathlib

/-!
# go-slim: the template parser and renderer of `slim.go`

A shallow embedding of `Parse`, `printNode` and `Template.Execute`.

* Go pointers into the node tree are access paths from the root (`Ptr`): the
  tree built by `Parse` is only ever extended through `NewChild`, so every
  node has exactly one path and pointer equality is path equality.
* Run-time aborts of the Go program (index or slice out of range, nil
  dereference) are the `Fault.panic` results; Go `error` values are
  `Fault.error`.
* The expression evaluator (package `vm`) is a parameter of the renderer.
* `unicode.IsLetter` and `strconv.IsPrint` are table driven above Latin-1;
  those tables are parameters (`UnicodeTables`), the Latin-1 part is exact.
-/

namespace Slim

/-! ## Data model -/

/-- Lexer states of the per-line state machine (`state` in slim.go). -/
inductive state where
  | sNeutral | sTag | sId | sClass | sAttrKey | sAttrValue | sEq | sText | sExpr
deriving DecidableEq, Repr

/-- An attribute: `type Attr struct { Name, Value string }`. -/
structure Attr where
  Name : String
  Value : String
deriving DecidableEq, Repr

/-- A node of the tree: `type Node struct`. -/
structure Node where
  Name : String
  Id : String
  Class : List String
  Attr : List Attr
  Text : String
  Expr : String
  Children : List Node
deriving Repr

mutual
/-- Equality of trees is decidable. -/
def Node.decEq : (a b : Node) → Decidable (a = b)
  | ⟨n1, i1, c1, a1, t1, e1, k1⟩, ⟨n2, i2, c2, a2, t2, e2, k2⟩ =>
    if h : n1 = n2 ∧ i1 = i2 ∧ c1 = c2 ∧ a1 = a2 ∧ t1 = t2 ∧ e1 = e2 then
      match Node.decEqList k1 k2 with
      | isTrue hk =>
        isTrue (by obtain ⟨h1, h2, h3, h4, h5, h6⟩ := h; subst h1 h2 h3 h4 h5 h6 hk; rfl)
      | isFalse hk => isFalse (by intro heq; injection heq with _ _ _ _ _ _ h7; exact hk h7)
    else isFalse (by
      intro heq; injection heq with h1 h2 h3 h4 h5 h6 _; exact h ⟨h1, h2, h3, h4, h5, h6⟩)
/-- Equality of lists of trees is decidable. -/
def Node.decEqList : (as bs : List Node) → Decidable (as = bs)
  | [], [] => isTrue rfl
  | [], _ :: _ => isFalse (by simp)
  | _ :: _, [] => isFalse (by simp)
  | a :: as, b :: bs =>
    match Node.decEq a b with
    | isTrue h1 =>
      match Node.decEqList as bs with
      | isTrue h2 => isTrue (by rw [h1, h2])
      | isFalse h2 => isFalse (by intro heq; injection heq with _ h4; exact h2 h4)
    | isFalse h1 => isFalse (by intro heq; injection heq with h3 _; exact h1 h3)
end

instance : DecidableEq Node := Node.decEq

deriving instance DecidableEq for Except

/-- The zero value `new(Node)`. -/
def Node.empty : Node := ⟨"", "", [], [], "", "", []⟩

/-- A pointer to a node of the tree under construction: the child indices
leading to it from the root. -/
abbrev Ptr := List Nat

/-- Ways in which a call can end without a result: a Go run-time panic, a
returned `error`, or (renderer model only) exhausted recursion fuel. -/
inductive Fault where
  | panic (msg : String)
  | error (msg : String)
  | exhausted
deriving DecidableEq, Repr

/-- The parts of the Unicode tables that the embedding does not spell out:
`unicode.IsLetter` and `strconv.IsPrint` for code points above U+00FF. -/
structure UnicodeTables where
  isLetter : Char → Bool
  isPrint : Char → Bool

/-- An entry of the indentation stack: `type stack struct { n int; node *Node }`. -/
structure stack where
  n : Nat
  node : Ptr
deriving DecidableEq, Repr

/-! ## Library functions used by the parser -/

/-- Go `unicode.IsSpace`: the Latin-1 switch, then the White_Space table. -/
def isSpace (r : Char) : Bool :=
  let c := r.toNat
  if c ≤ 0xFF then
    c == 0x09 || c == 0x0A || c == 0x0B || c == 0x0C || c == 0x0D || c == 0x20
      || c == 0x85 || c == 0xA0
  else
    c == 0x1680 || (0x2000 ≤ c && c ≤ 0x200A) || c == 0x2028 || c == 0x2029
      || c == 0x202F || c == 0x205F || c == 0x3000

/-- Go `unicode.IsLetter`: the Latin-1 property table, then the `L` tables. -/
def isLetter (U : UnicodeTables) (r : Char) : Bool :=
  let c := r.toNat
  if c ≤ 0xFF then
    (0x41 ≤ c && c ≤ 0x5A) || (0x61 ≤ c && c ≤ 0x7A) || c == 0xAA || c == 0xB5
      || c == 0xBA || (0xC0 ≤ c && c ≤ 0xD6) || (0xD8 ≤ c && c ≤ 0xF6)
      || (0xF8 ≤ c && c ≤ 0xFF)
  else
    U.isLetter r

/-- Go `strings.TrimSpace`. -/
def trimSpace (s : String) : String :=
  ⟨((s.data.dropWhile isSpace).reverse.dropWhile isSpace).reverse⟩

/-- The string `s += string(r)`. -/
def addRune (s : String) (r : Char) : String := s ++ String.singleton r

/-- The test `name != "" && name[len(name)-1] == ':'`. -/
def endsColon (name : String) : Bool := name.data.getLast? == some ':'

/-! ## Pointer operations on the tree -/

/-- The node a pointer refers to, if the pointer is valid. -/
def Node.get? : Node → Ptr → Option Node
  | n, [] => some n
  | n, i :: p =>
    match n.Children[i]? with
    | some c => c.get? p
    | none => none

/-- The tree after the node at `p` is replaced by its image under `f`. -/
def Node.update (f : Node → Node) : Ptr → Node → Node
  | [], n => f n
  | i :: p, n => { n with Children := n.Children.modify (Node.update f p) i }

/-- Read through a pointer. -/
def load (root : Node) (p : Ptr) : Except Fault Node :=
  match root.get? p with
  | some n => pure n
  | none => throw (.panic "invalid memory address or nil pointer dereference")

/-- Write through a pointer. -/
def store (root : Node) (p : Ptr) (f : Node → Node) : Except Fault Node :=
  match root.get? p with
  | some _ => pure (root.update f p)
  | none => throw (.panic "invalid memory address or nil pointer dereference")

/-- The method `(n *Node) NewChild()`: appends `new(Node)` to the children of
the node at `p` and returns the tree and the pointer to the new child. -/
def NewChild (root : Node) (p : Ptr) : Except Fault (Node × Ptr) :=
  match root.get? p with
  | some n =>
    pure (root.update (fun x => { x with Children := x.Children ++ [Node.empty] }) p,
      p ++ [n.Children.length])
  | none => throw (.panic "invalid memory address or nil pointer dereference")

mutual
/-- The loop of the `n == last` branch (slim.go 282-293): starting at `cur`,
follow last children until the last child is `node` or there is none. -/
def findCur (node : Ptr) : Node → Ptr → Ptr
  | ⟨_, _, _, _, _, _, cs⟩, cur => findCurLast node cs cur 0
/-- Walks to the last element `tmp` of the children of `cur` (at index `i`
plus the remaining length) and continues `findCur` from there. -/
def findCurLast (node : Ptr) : List Node → Ptr → Nat → Ptr
  | [], cur, _ => cur
  | [tmp], cur, i => if cur ++ [i] = node then cur else findCur node tmp (cur ++ [i])
  | _ :: c :: cs, cur, i => findCurLast node (c :: cs) cur (i + 1)
end

/-! ## The parser -/

/-- All mutable variables of `Parse`: those that live for the whole parse
(`root`, `node`, `stk`, `last`) and those reset for every line. -/
structure Lex where
  root : Node
  node : Ptr
  stk : List stack
  last : Int
  st : state
  tag : String
  id : String
  class_ : String
  aname : String
  avalue : String
deriving DecidableEq, Repr

/-- The variables before the first line. -/
def Lex.init : Lex :=
  { root := Node.empty, node := [], stk := [], last := -1, st := .sNeutral,
    tag := "", id := "", class_ := "", aname := "", avalue := "" }

/-- The raw-block exit `node.Text = tag; st = sText; break break_st`. -/
def rawText (s : Lex) : Except Fault Lex := do
  let root ← store s.root s.node (fun x => { x with Text := s.tag })
  pure { s with root := root, st := .sText }

/-- The assignment `node.Name = tag` that ends the `sNeutral` case (line 323). -/
def nameNode (s : Lex) : Except Fault Lex := do
  let root ← store s.root s.node (fun x => { x with Name := s.tag })
  pure { s with root := root }

/-- The loop of the `n < last` branch (slim.go 304-310) from index `i` on:
the index of the first entry whose column is at least `n`. -/
def firstAtLeast (n : Nat) : List stack → Nat → Option Nat
  | [], _ => none
  | e :: es, i => if e.n ≥ n then some i else firstAtLeast n es (i + 1)

/-- The indentation resolver (slim.go 271-323) for a tag that starts at
column `n`; `s.tag` already holds the first character.

In the `n < last` branch the loop stops at the first entry `stk[i]` with
`stk[i].n >= n` and reads `stk[i-1]`, which is out of range at `i = 0`. When
no entry is found, `stk = stk[:1]` follows: the stack is only ever changed by
`append`, `stk[:i]` with `i >= 1` and `stk[:1]`, so it has length 0 only while
it still is the empty literal of capacity 0, on which `stk[:1]` is out of
range; on a longer stack it keeps the first entry. -/
def resolve (n : Nat) (s : Lex) : Except Fault Lex :=
  if (n : Int) > s.last then do
    let s := { s with last := n }
    let cur ← load s.root s.node
    if endsColon cur.Name then rawText s
    else do
      let (root, node) ← NewChild s.root s.node
      nameNode { s with root := root, node := node, stk := s.stk ++ [⟨n, node⟩] }
  else if (n : Int) = s.last then do
    let s := { s with last := n }
    let cur := findCur s.node s.root []
    let c ← load s.root cur
    if endsColon c.Name then rawText s
    else do
      let (root, node) ← NewChild s.root cur
      match s.stk.getLast? with
      | none => throw (.panic "index out of range [-1]")
      | some e =>
        nameNode { s with root := root, node := node,
                          stk := s.stk.dropLast ++ [{ e with node := node }] }
  else do
    let s := { s with last := n }
    match firstAtLeast n s.stk 0 with
    | some 0 => throw (.panic "index out of range [-1]")
    | some (i + 1) =>
      match s.stk[i]? with
      | none => throw (.panic "index out of range")
      | some e =>
        let s := { s with node := e.node, stk := s.stk.take (i + 1) }
        let nd ← load s.root s.node
        if endsColon nd.Name then rawText s
        else do
          let (root, node) ← NewChild s.root s.node
          nameNode { s with root := root, node := node }
    | none =>
      let (root, node) ← NewChild s.root []
      match s.stk with
      | [] => throw (.panic "slice bounds out of range [:1] with capacity 0")
      | e :: _ => nameNode { s with root := root, node := node, stk := [e] }

/-- The body of the character loop (slim.go 233-465) for the rune `r` at
index `n`; `eol` is `n == len(rs)-1`. -/
def step (U : UnicodeTables) (eol : Bool) (n : Nat) (r : Char) (s : Lex) : Except Fault Lex :=
  match s.st with
  | .sNeutral =>
    if isSpace r then pure s
    else if r = '=' then pure { s with st := .sExpr }
    else if r = '|' then pure { s with st := .sText }
    else if r = '-' then pure { s with st := .sExpr }
    else if r = '#' then do
      let root ← store s.root s.node (fun x => { x with Name := "div" })
      pure { s with root := root, st := .sId, last := n }
    else if r = '.' then do
      let root ← store s.root s.node (fun x => { x with Name := "div" })
      pure { s with root := root, st := .sClass, last := n }
    else if r.toNat > 255 then do
      let root ← store s.root s.node (fun x => { x with Text := String.singleton r })
      pure { s with root := root, st := .sText }
    else
      resolve n { s with st := .sTag, tag := addRune s.tag r }
  | .sTag =>
    if eol then do
      let tag := addRune s.tag r
      let root ← store s.root s.node (fun x => { x with Name := tag })
      pure { s with root := root, tag := tag }
    else if r = '=' then do
      let root ← store s.root s.node
        (fun x => { x with Name := if s.tag = "" then "div" else s.tag })
      pure { s with root := root, st := .sExpr }
    else if r = '#' then do
      let root ← store s.root s.node
        (fun x => { x with Name := if s.tag = "" then "div" else s.tag })
      pure { s with root := root, st := .sId }
    else if r = '.' then do
      let root ← store s.root s.node
        (fun x => { x with Name := if s.tag = "" then "div" else s.tag })
      pure { s with root := root, st := .sClass }
    else if s.tag = "" && isLetter U r then do
      let root ← store s.root s.node (fun x => { x with Text := String.singleton r })
      pure { s with root := root, st := .sText }
    else if isSpace r then do
      let root ← store s.root s.node (fun x => { x with Name := s.tag })
      pure { s with root := root, st := .sAttrKey }
    else pure { s with tag := addRune s.tag r }
  | .sId =>
    if eol then
      if isLetter U r then do
        let id := addRune s.id r
        let root ← store s.root s.node (fun x => { x with Id := id })
        pure { s with root := root, id := id }
      else pure s
    else if r = '.' then do
      let root ← store s.root s.node (fun x => { x with Id := s.id })
      pure { s with root := root, st := .sClass }
    else if !isLetter U r then do
      let root ← store s.root s.node (fun x => { x with Id := s.id })
      pure { s with root := root, st := .sEq }
    else pure { s with id := addRune s.id r }
  | .sClass =>
    if eol then
      if isLetter U r then do
        let cls := addRune s.class_ r
        let root ← store s.root s.node (fun x => { x with Class := x.Class ++ [cls] })
        pure { s with root := root, class_ := cls }
      else pure s
    else if r = '.' then
      if s.class_ ≠ "" then do
        let root ← store s.root s.node (fun x => { x with Class := x.Class ++ [s.class_] })
        pure { s with root := root, class_ := "" }
      else pure s
    else if !isLetter U r then
      if s.class_ ≠ "" then do
        let root ← store s.root s.node (fun x => { x with Class := x.Class ++ [s.class_] })
        pure { s with root := root, st := .sEq }
      else pure { s with st := .sEq }
    else pure { s with class_ := addRune s.class_ r }
  | .sAttrKey =>
    if eol then do
      let aname := addRune s.aname r
      if s.avalue ≠ "" then do
        let root ← store s.root s.node
          (fun x => { x with Attr := x.Attr ++ [⟨trimSpace aname, ""⟩] })
        pure { s with root := root, aname := aname }
      else do
        let root ← store s.root s.node (fun x => { x with Text := trimSpace aname })
        pure { s with root := root, aname := aname }
    else if r = '=' then
      if s.aname = "" then pure { s with st := .sExpr }
      else pure { s with st := .sAttrValue }
    else pure { s with aname := addRune s.aname r }
  | .sAttrValue =>
    if eol then
      if isLetter U r || r = '"' then do
        let avalue := addRune s.avalue r
        match avalue.data with
        | [] => throw (.panic "index out of range [0] with length 0")
        | c :: rest =>
          if c = '"' && avalue.data.getLast? = some '"' then
            match rest with
            | [] => throw (.panic "slice bounds out of range [1:0]")
            | _ :: _ =>
              let avalue : String := ⟨rest.dropLast⟩
              let root ← store s.root s.node
                (fun x => { x with Attr := x.Attr ++ [⟨s.aname, trimSpace avalue⟩] })
              pure { s with root := root, avalue := avalue }
          else do
            let root ← store s.root s.node
              (fun x => { x with Attr := x.Attr ++ [⟨s.aname, trimSpace avalue⟩] })
            pure { s with root := root, avalue := avalue }
      else pure s
    else if s.avalue ≠ "" && isSpace r then
      match s.avalue.data with
      | [] => throw (.panic "index out of range [0] with length 0")
      | c :: rest =>
        if c = '"' then
          if s.avalue.data.getLast? = some '"' then
            match rest with
            | [] => throw (.panic "slice bounds out of range [1:0]")
            | _ :: _ => do
              let avalue : String := ⟨rest.dropLast⟩
              let root ← store s.root s.node
                (fun x => { x with Attr := x.Attr ++ [⟨s.aname, trimSpace avalue⟩] })
              pure { s with root := root, aname := "", avalue := "", st := .sAttrKey }
          else pure { s with avalue := addRune s.avalue r }
        else do
          let root ← store s.root s.node
            (fun x => { x with Attr := x.Attr ++ [⟨s.aname, trimSpace s.avalue⟩] })
          pure { s with root := root, aname := "", avalue := "", st := .sAttrKey }
    else pure { s with avalue := addRune s.avalue r }
  | .sEq =>
    if r ≠ '=' && !isSpace r then do
      let root ← store s.root s.node (fun x => { x with Expr := addRune x.Expr r })
      pure { s with root := root, st := .sExpr }
    else pure s
  | .sExpr => do
    let root ← store s.root s.node (fun x => { x with Expr := addRune x.Expr r })
    pure { s with root := root }
  | .sText => do
    let root ← store s.root s.node (fun x => { x with Text := addRune x.Text r })
    pure { s with root := root }

/-- The character loop `for n := 0; n < len(rs); n++` from index `n` on, where
`len` is `len(rs)` and `rest` the runes not yet read. -/
def lexLoop (U : UnicodeTables) (len : Nat) : List Char → Nat → Lex → Except Fault Lex
  | [], _, s => pure s
  | r :: rest, n, s => do
    let s ← step U (n + 1 == len) n r s
    lexLoop U len rest (n + 1) s

/-- One iteration of the scanner loop (slim.go 224-466): reset the per-line
variables and run the character loop over the runes of the line. -/
def lexLine (U : UnicodeTables) (s : Lex) (l : String) : Except Fault Lex :=
  lexLoop U l.data.length l.data 0
    { s with st := .sNeutral, tag := "", id := "", class_ := "", aname := "", avalue := "" }

/-- What the `bufio.Scanner` over the input yields: the lines (each as the
runes `[]rune(l)` of its text), and the error `scanner.Err()` reports once they
are consumed. How the scanner cuts the byte stream into lines is not part of
the embedding. -/
structure Reader where
  lines : List String
  err : Option String

/-- The parse result: `type Template struct { root *Node; fm Funcs }`; a nil
`fm` is the empty list. -/
structure Template (Val : Type) where
  root : Node
  fm : List (String × Val)
deriving DecidableEq

/-- The scanner loop `for scanner.Scan()` of `Parse` over the lines read. -/
def scanLines (U : UnicodeTables) (lines : List String) : Except Fault Lex :=
  lines.foldlM (lexLine U) Lex.init

/-- The method `(t *Template) FuncMap`. -/
def FuncMap {Val : Type} (t : Template Val) (m : List (String × Val)) : Template Val :=
  { t with fm := m }

/-- The function `Parse` of slim.go. -/
def Parse {Val : Type} (U : UnicodeTables) (rd : Reader) : Except Fault (Template Val) := do
  let s ← scanLines U rd.lines
  match rd.err with
  | some e => throw (.error e)
  | none => pure ⟨s.root, []⟩

/-! ## Library functions used by the renderer -/

/-- Go `strconv.IsPrint`: the Latin-1 fast path, then the tables. -/
def isPrint (U : UnicodeTables) (r : Char) : Bool :=
  let c := r.toNat
  if c ≤ 0xFF then
    (0x20 ≤ c && c ≤ 0x7E) || (0xA1 ≤ c && c ≤ 0xFF && c != 0xAD)
  else
    U.isPrint r

/-- The table `lowerhex` of strconv. -/
def lowerhex (n : Nat) : Char := "0123456789abcdef".data.getD (n % 16) '0'

/-- Go `strconv.appendEscapedRune` for the quote `"` (neither ASCII-only nor
graphic-only), as used by `%q`. -/
def quoteRune (U : UnicodeTables) (r : Char) : String :=
  let c := r.toNat
  if r = '"' || r = '\\' then "\\" ++ String.singleton r
  else if isPrint U r then String.singleton r
  else if c = 0x07 then "\\a"
  else if c = 0x08 then "\\b"
  else if c = 0x0C then "\\f"
  else if c = 0x0A then "\\n"
  else if c = 0x0D then "\\r"
  else if c = 0x09 then "\\t"
  else if c = 0x0B then "\\v"
  else if c < 0x20 || c = 0x7F then
    ⟨['\\', 'x', lowerhex (c / 16), lowerhex c]⟩
  else if c < 0x10000 then
    ⟨['\\', 'u', lowerhex (c / 4096), lowerhex (c / 256), lowerhex (c / 16), lowerhex c]⟩
  else
    ⟨['\\', 'U', lowerhex (c / 268435456), lowerhex (c / 16777216), lowerhex (c / 1048576),
      lowerhex (c / 65536), lowerhex (c / 4096), lowerhex (c / 256), lowerhex (c / 16),
      lowerhex c]⟩

/-- The verb `%q` of package fmt on a string: `strconv.Quote`. -/
def quote (U : UnicodeTables) (s : String) : String :=
  "\"" ++ String.join (s.data.map (quoteRune U)) ++ "\""

/-- Go `strings.Repeat(" ", indent*2)`. -/
def indentStr (indent : Nat) : String := ⟨List.replicate (indent * 2) ' '⟩

/-- The registry `emptyElement` of slim.go. -/
def emptyElement : List String :=
  ["doctype", "area", "base", "basefont", "br", "col", "frame", "hr", "img", "input",
   "isindex", "link", "meta", "param", "embed", "keygen", "command"]

/-- The function `isEmptyElement` of slim.go. -/
def isEmptyElement (n : String) : Bool := emptyElement.any (fun e => e == n)

/-! ## The expression evaluator (package `vm`) -/

/-- A compiled expression, as far as the renderer looks at it: the iteration
form `*vm.ForExpr` with its fields `Lhs1` and `Rhs`, or any other expression. -/
inductive Expr (E : Type) where
  | ForExpr (Lhs1 Rhs : String)
  | other (e : E)
deriving DecidableEq

/-- What `reflect.ValueOf(rhs)` shows of a value: the zero `reflect.Value` of a
nil interface (on which `Type()` panics), an array or slice with its elements,
or a value of any other kind. -/
inductive Reflected (Val : Type) where
  | invalid
  | seq (elems : List Val)
  | other
deriving DecidableEq

/-- Modelled from the spec: the expression evaluator of package `vm`, which is
not among the sources. Its contract is the one of section 6 of the
specification: `compile(fragment) -> CompiledExpr | error`,
`evaluate(CompiledExpr, env) -> Value | error`, `get(name) -> (Value, found)`,
`set(name, Value)`; `new` is the environment of `vm.New()`. The fields
`reflect` and `sprint` are the host functions `reflect.ValueOf` and
`fmt.Sprint` on the evaluator's values. -/
structure VM (Val Env E : Type) where
  new : Env
  compile : String → Except String (Expr E)
  eval : E → Env → Except String Val
  get : Env → String → Option Val
  set : Env → String → Val → Env
  reflect : Val → Reflected Val
  sprint : Val → String

/-! ## The renderer -/

/-- The outcome of a rendering call: the nodes it was applied to as the call
leaves them (`printNode` assigns to `n.Name` and `n.Attr`), the evaluator's
environment, the bytes written to `out`, and the returned error if any. -/
structure Printed (α Env : Type) where
  val : α
  env : Env
  out : String
  err : Option Fault
deriving DecidableEq

/-- The assignments `printNode` makes to the node (slim.go 101-110): `Attr` is
cleared on a doctype, a trailing `:` is cut off the name, and `javascript`
becomes `script`. Only called on a node with a non-empty name. -/
def rewrite (n : Node) : Node :=
  if n.Name = "doctype" then { n with Attr := [] }
  else if endsColon n.Name then
    let name : String := ⟨n.Name.data.dropLast⟩
    { n with Name := if name = "javascript" then "script" else name }
  else n

/-- The text written for the classes (slim.go 116-125). -/
def classText (cs : List String) : String :=
  if cs.length > 0 then " class=\"" ++ " ".intercalate cs ++ "\"" else ""

/-- The text written for one attribute (slim.go 128-132). -/
def attrText (U : UnicodeTables) (a : Attr) : String :=
  if a.Value = "" then " " ++ a.Name else " " ++ a.Name ++ "=" ++ quote U a.Value

/-- Everything written up to and including the attributes (slim.go 100-134);
`doctype` is the flag computed on the name before the rewriting and `n` the
node after it. -/
def openTag (U : UnicodeTables) (doctype : Bool) (n : Node) (indent : Nat) : String :=
  (if doctype then indentStr indent ++ "<!" ++ n.Name ++ " html"
   else indentStr indent ++ "<" ++ n.Name)
  ++ (if n.Id ≠ "" then " id=\"" ++ n.Id ++ "\"" else "")
  ++ classText n.Class
  ++ String.join (n.Attr.map (attrText U))

/-- The loop `for _, c := range n.Children` with its early return, where `pn`
renders one child. -/
def printChildren {Env : Type} (pn : Node → Env → Printed Node Env) :
    List Node → Env → Printed (List Node) Env
  | [], env => ⟨[], env, "", none⟩
  | c :: cs, env =>
    let r := pn c env
    match r.err with
    | some e => ⟨r.val :: cs, r.env, r.out, some e⟩
    | none =>
      let rs := printChildren pn cs r.env
      ⟨r.val :: rs.val, rs.env, r.out ++ rs.out, rs.err⟩

/-- The loop `for i := 0; i < l; i++` of the iteration form (slim.go 157-165)
over the elements not yet visited. -/
def forLoop {Val Env E : Type} (V : VM Val Env E) (pn : Node → Env → Printed Node Env)
    (lhs1 : String) : List Val → List Node → Env → Printed (List Node) Env
  | [], cs, env => ⟨cs, env, "", none⟩
  | x :: xs, cs, env =>
    let r := printChildren pn cs (V.set env lhs1 x)
    match r.err with
    | some e => ⟨r.val, r.env, r.out, some e⟩
    | none =>
      let rs := forLoop V pn lhs1 xs r.val r.env
      ⟨rs.val, rs.env, r.out ++ rs.out, rs.err⟩

/-- The function `printNode` of slim.go. The recursion of the Go function
descends one level of the tree per call; `fuel` bounds that depth. -/
def printNode {Val Env E : Type} (U : UnicodeTables) (V : VM Val Env E) :
    Nat → Node → Nat → Env → Printed Node Env
  | 0, n, _, env => ⟨n, env, "", some .exhausted⟩
  | fuel + 1, n, indent, env =>
    if n.Name = "" then
      let r := printChildren (fun c e => printNode U V fuel c indent e) n.Children env
      ⟨{ n with Children := r.val }, r.env, r.out, r.err⟩
    else
      let doctype : Bool := n.Name = "doctype"
      let n := rewrite n
      let out := openTag U doctype n indent
      if !isEmptyElement n.Name then
        let out := out ++ ">"
        if n.Expr ≠ "" then
          match V.compile n.Expr with
          | .error e => ⟨n, env, out, some (.error e)⟩
          | .ok (.ForExpr lhs1 rhs) =>
            match V.get env rhs with
            | none => ⟨n, env, out, some (.error ("invalid token: " ++ rhs))⟩
            | some v =>
              match V.reflect v with
              | .invalid =>
                ⟨n, env, out, some (.panic "reflect: call of reflect.Value.Type on zero Value")⟩
              | .other => ⟨n, env, out, some (.error ("can't iterate: " ++ rhs))⟩
              | .seq elems =>
                let r := forLoop V (fun c e => printNode U V fuel c (indent + 1) e) lhs1
                  elems n.Children env
                let n := { n with Children := r.val }
                match r.err with
                | some e => ⟨n, r.env, out ++ "\n" ++ r.out, some e⟩
                | none =>
                  ⟨n, r.env, out ++ "\n" ++ r.out ++ n.Text ++ indentStr indent
                    ++ "</" ++ n.Name ++ ">\n", none⟩
          | .ok (.other e) =>
            match V.eval e env with
            | .error err => ⟨n, env, out, some (.error err)⟩
            | .ok r =>
              ⟨n, env, out ++ V.sprint r ++ n.Text ++ "</" ++ n.Name ++ ">\n", none⟩
        else if n.Children.length > 0 then
          let r := printChildren (fun c e => printNode U V fuel c (indent + 1) e) n.Children env
          let n := { n with Children := r.val }
          match r.err with
          | some e => ⟨n, r.env, out ++ "\n" ++ r.out, some e⟩
          | none =>
            ⟨n, r.env, out ++ "\n" ++ r.out ++ n.Text ++ indentStr indent
              ++ "</" ++ n.Name ++ ">\n", none⟩
        else if n.Text ≠ "" then
          ⟨n, env, out ++ n.Text ++ "</" ++ n.Name ++ ">\n", none⟩
        else
          ⟨n, env, out ++ "\n" ++ indentStr indent ++ "</" ++ n.Name ++ ">\n", none⟩
      else if doctype then ⟨n, env, out ++ ">\n", none⟩
      else ⟨n, env, out ++ "/>\n", none⟩

mutual
/-- The number of levels of a tree: the recursion depth `printNode` needs. -/
def Node.height : Node → Nat
  | ⟨_, _, _, _, _, _, cs⟩ => Node.heightList cs + 1
/-- The largest height among a list of trees. -/
def Node.heightList : List Node → Nat
  | [] => 0
  | c :: cs => max c.height (Node.heightList cs)
end

/-- A field of a struct context as `Execute` reads it (slim.go 494-495): the
name `rt.Field(i).Name`, whether the field is exported, and the value that
`rv.Field(i).Interface()` returns when it is. -/
structure Field (Val : Type) where
  Name : String
  exported : Bool
  value : Val

/-- The argument `value interface{}` of `Execute` as the function inspects it:
nil, a map (its keys through `String()`), a struct (its fields), or a value of
another kind. -/
inductive Context (Val : Type) where
  | nil
  | map (entries : List (String × Val))
  | struct (fields : List (Field Val))
  | other

/-- A run of `v.Set(name, value)` calls. -/
def setAll {Val Env E : Type} (V : VM Val Env E) (env : Env) (kvs : List (String × Val)) : Env :=
  kvs.foldl (fun e kv => V.set e kv.1 kv.2) env

/-- The loop over the fields of a struct context (slim.go 493-496), from the
first field not yet read: `rv.Field(i).Interface()` panics on a field that is
not exported, after the fields before it have been set. -/
def setFields {Val Env E : Type} (V : VM Val Env E) : Env → List (Field Val) → Env × Option Fault
  | env, [] => (env, none)
  | env, f :: fs =>
    if f.exported then setFields V (V.set env f.Name f.value) fs
    else (env, some (.panic
      "reflect.Value.Interface: cannot return value obtained from unexported field or method"))

/-- The environment `Execute` builds before rendering (slim.go 479-498):
`vm.New()`, then the functions of `t.fm`, then the entries of a map or the
fields of a struct; with it, the panic of the struct loop if there is one. -/
def startEnv {Val Env E : Type} (V : VM Val Env E) (t : Template Val) (value : Context Val) :
    Env × Option Fault :=
  let env := setAll V V.new t.fm
  match value with
  | .nil => (env, none)
  | .map entries => (setAll V env entries, none)
  | .struct fields => setFields V env fields
  | .other => (env, none)

/-- The method `(t *Template) Execute`: the template as the call leaves it, the
bytes written and the returned error. When building the environment panics,
nothing has been rendered. -/
def Execute {Val Env E : Type} (U : UnicodeTables) (V : VM Val Env E) (t : Template Val)
    (value : Context Val) : Printed (Template Val) Env :=
  match startEnv V t value with
  | (env, some f) => ⟨t, env, "", some f⟩
  | (env, none) =>
    let r := printNode U V t.root.height t.root 0 env
    ⟨{ t with root := r.val }, r.env, r.out, r.err⟩

/-! ## Closed instances used to evaluate the embedding -/

/-- Tables that hold no letter and no printable character above Latin-1. -/
def noTables : UnicodeTables := ⟨fun _ => false, fun _ => false⟩

/-- An evaluator that knows no expression and no variable. -/
def unitVM : VM Unit Unit Unit :=
  { new := (), compile := fun _ => .error "no evaluator", eval := fun _ _ => .error "no evaluator",
    get := fun _ _ => none, set := fun _ _ _ => (), reflect := fun _ => .other,
    sprint := fun _ => "" }

/-- All runes of the line are in Latin-1. -/
def latin1 (l : String) : Bool := l.data.all (fun c => c.toNat ≤ 0xFF)

mutual
/-- A tree without expressions whose attribute values are Latin-1 text: its
rendering consults neither the evaluator nor the tables. -/
def Node.plain : Node → Bool
  | ⟨_, _, _, attr, _, expr, cs⟩ =>
    expr == "" && attr.all (fun a => latin1 a.Value) && Node.plainList cs
/-- Every tree of the list is plain. -/
def Node.plainList : List Node → Bool
  | [] => true
  | c :: cs => c.plain && Node.plainList cs
end

/-- The part of a rendering outcome that does not involve the environment. -/
def Printed.erase {α Env : Type} (r : Printed α Env) : α × String × Option Fault :=
  (r.val, r.out, r.err)

/-! ## Vocabulary of the statements -/

/-- A context that `Execute` can read without a panic: nil, a map, a struct
whose fields are all exported, or a value of another kind. -/
def Context.readable {Val : Type} : Context Val → Bool
  | .struct fields => fields.all (fun f => f.exported)
  | _ => true

/-- An ASCII letter `A-Z` or `a-z`. -/
def asciiLetter (c : Char) : Bool :=
  (65 ≤ c.toNat && c.toNat ≤ 90) || (97 ≤ c.toNat && c.toNat ≤ 122)

/-- A non-empty string of ASCII letters: a plain tag name. -/
def plainName (t : String) : Bool := t.data ≠ [] && t.data.all asciiLetter

/-- The line made of `c` spaces followed by `t`. -/
def indented (c : Nat) (t : String) : String := ⟨List.replicate c ' ' ++ t.data⟩

/-- The linear tree: a node named `nm` with no other field set whose only
child is named by the head of `ts`, and so on down the list; the last node
has the children `k`. -/
def spine : String → List String → List Node → Node
  | nm, [], k => ⟨nm, "", [], [], "", "", k⟩
  | nm, t :: ts, k => ⟨nm, "", [], [], "", "", [spine t ts k]⟩

/-- A node with a name and children and no other field set. -/
def tagNode (name : String) (children : List Node) : Node :=
  ⟨name, "", [], [], "", "", children⟩

/-- The template of `TestSimple` (testdir/test1.slim), line by line. -/
def testSimple : List String :=
  ["doctype html", "html lang=\"ja\"", "  head", "    meta charset=\"UTF-8\"", "    title",
   "  body", "    p Hello"]

/-- The tree `Parse` builds from `testSimple`. -/
def testSimpleTree : Node :=
  tagNode "" [
    ⟨"doctype", "", [], [], "html", "", []⟩,
    ⟨"html", "", [], [⟨"lang", "ja"⟩], "", "", [
      tagNode "head" [⟨"meta", "", [], [⟨"charset", "UTF-8"⟩], "", "", []⟩, tagNode "title" []],
      tagNode "body" [⟨"p", "", [], [], "Hello", "", []⟩]]⟩]

/-! ## A sample evaluator -/

/-- The values of the sample evaluator: a string or a slice of strings. -/
inductive Value where
  | str (s : String)
  | strs (xs : List String)
deriving DecidableEq, Repr

/-- The maximal runs of non-space runes of a text. -/
def words (cs : List Char) : List String :=
  ((cs.foldr (fun c (acc : List (List Char)) =>
      if isSpace c then [] :: acc
      else match acc with
        | [] => [[c]]
        | w :: ws => (c :: w) :: ws) []).filter (fun w => w ≠ [])).map String.mk

/-- Modelled from the spec: a small evaluator with the contract of section 6,
standing in for package `vm`, which is not among the sources. An expression is
an identifier or the iteration form `for x in y`; an identifier evaluates to
the value bound to it and to an error when it is unbound; the environment is an
association list in which `set` shadows earlier bindings. -/
def identVM : VM Value (List (String × Value)) String :=
  { new := []
    compile := fun s =>
      match words s.data with
      | [x] => .ok (.other x)
      | ["for", x, "in", y] => .ok (.ForExpr x y)
      | _ => .error ("syntax error: " ++ s)
    eval := fun x env =>
      match env.lookup x with
      | some v => .ok v
      | none => .error ("unknown identifier: " ++ x)
    get := fun env x => env.lookup x
    set := fun env x v => (x, v) :: env
    reflect := fun v =>
      match v with
      | .str _ => .other
      | .strs xs => .seq (xs.map .str)
    sprint := fun v =>
      match v with
      | .str s => s
      | .strs xs => "[" ++ " ".intercalate xs ++ "]" }

/-- The renderings of the nodes `cs` in document order, in the words of the
specification (the second definition of a refinement, compared with
`printChildren` in the theorems): every node of the list is rendered by `pn`,
the first in the environment `env` and each next one in the environment that
the rendering before it left. The result holds the nodes as their renderings
left them, the last environment, the outputs one after the other, and the
first error if a rendering failed. -/
def inDocumentOrder {Env : Type} (pn : Node → Env → Printed Node Env) (cs : List Node)
    (env : Env) : Printed (List Node) Env :=
  cs.foldl
    (fun acc c =>
      ⟨acc.val ++ [(pn c acc.env).val], (pn c acc.env).env, acc.out ++ (pn c acc.env).out,
        acc.err.or (pn c acc.env).err⟩)
    ⟨[], env, "", none⟩

/-- The body of an iteration in the words of the specification (the second
definition of a refinement, compared with `forLoop` in the theorems): for the
elements of the sequence in sequence order, the renderings in document order of
all the children, as the pass before left them, in the environment in which the
loop variable `x` is set to the element. The result holds the children and the
environment after the last pass, the outputs of the passes one after the other,
and the first error if a rendering failed. -/
def perElement {Val Env E : Type} (V : VM Val Env E) (pn : Node → Env → Printed Node Env)
    (x : String) (elems : List Val) (cs : List Node) (env : Env) : Printed (List Node) Env :=
  elems.foldl
    (fun acc e =>
      ⟨(inDocumentOrder pn acc.val (V.set acc.env x e)).val,
        (inDocumentOrder pn acc.val (V.set acc.env x e)).env,
        acc.out ++ (inDocumentOrder pn acc.val (V.set acc.env x e)).out,
        acc.err.or (inDocumentOrder pn acc.val (V.set acc.env x e)).err⟩)
    ⟨cs, env, "", none⟩

/-- The expression `expr` fails with the message `msg` in the environment
`env`: it does not compile, or it is a plain expression whose evaluation
reports an error (as for an unbound variable), or it is an iteration whose
source variable is unbound, or an iteration whose source is bound to a value
that is neither nil nor an array or slice. -/
def exprFails {Val Env E : Type} (V : VM Val Env E) (env : Env) (expr msg : String) : Prop :=
  expr ≠ "" ∧
    (V.compile expr = .error msg ∨
     (∃ e, V.compile expr = .ok (.other e) ∧ V.eval e env = .error msg) ∨
     (∃ x y, V.compile expr = .ok (.ForExpr x y) ∧ V.get env y = none ∧
        msg = "invalid token: " ++ y) ∨
     (∃ x y v, V.compile expr = .ok (.ForExpr x y) ∧ V.get env y = some v ∧
        V.reflect v = .other ∧ msg = "can't iterate: " ++ y))

/-- The failure `err`, if there is one, is a failure of the Go code: a
returned error or a run-time panic, not the exhaustion of the recursion depth
of the embedding; and it is a returned error when the evaluator holds no nil
value (`reflect` never shows the zero `reflect.Value`). -/
def properFailure {Val Env E : Type} (V : VM Val Env E) (err : Option Fault) : Prop :=
  ∀ f, err = some f →
    f ≠ .exhausted ∧ ((∀ v, V.reflect v ≠ .invalid) → ∃ e, f = .error e)

/-- A failing expression lies where rendering reaches it. `Reaches U V first
msg fuel n d env` speaks of the call of `printNode` on the node `n` at depth
`d`, in the environment `env` and with `fuel` levels of recursion left. The
node that carries the expression has a non-empty name and is not rendered as
a void element, and its expression fails with `msg` in the environment of the
moment at which rendering arrives at it (`here`). Each of its ancestors has an
empty name (`group`), or is a non-void element without expression
(`element`), or is a non-void element whose expression is an iteration over a
sequence, the path going through the pass for one of its elements (`loop`).
The renderings that come before the node in the run are those of the earlier
children `pre` of each ancestor and of the earlier passes `xs` of each loop;
what lies deeper on the path is only asked for when they succeed, in the
environment they leave. With `first = true` they are moreover required to
succeed, so that the expression is the first failure of the run; with
`first = false` nothing is required of them. -/
inductive Reaches {Val Env E : Type} (U : UnicodeTables) (V : VM Val Env E) (first : Bool)
    (msg : String) : Nat → Node → Nat → Env → Prop where
  | here (fuel : Nat) (n : Node) (d : Nat) (env : Env) (hname : n.Name ≠ "")
      (hvoid : isEmptyElement (rewrite n).Name = false)
      (hfail : exprFails V env n.Expr msg) : Reaches U V first msg (fuel + 1) n d env
  | group (fuel : Nat) (n : Node) (d : Nat) (env : Env) (pre : List Node) (c : Node)
      (post : List Node) (hname : n.Name = "") (hkids : n.Children = pre ++ c :: post)
      (hpre : first = true →
        (printChildren (fun c e => printNode U V fuel c d e) pre env).err = none)
      (hc : (printChildren (fun c e => printNode U V fuel c d e) pre env).err = none →
        Reaches U V first msg fuel c d
          (printChildren (fun c e => printNode U V fuel c d e) pre env).env) :
      Reaches U V first msg (fuel + 1) n d env
  | element (fuel : Nat) (n : Node) (d : Nat) (env : Env) (pre : List Node) (c : Node)
      (post : List Node) (hname : n.Name ≠ "")
      (hvoid : isEmptyElement (rewrite n).Name = false) (hexpr : n.Expr = "")
      (hkids : n.Children = pre ++ c :: post)
      (hpre : first = true →
        (printChildren (fun c e => printNode U V fuel c (d + 1) e) pre env).err = none)
      (hc : (printChildren (fun c e => printNode U V fuel c (d + 1) e) pre env).err = none →
        Reaches U V first msg fuel c (d + 1)
          (printChildren (fun c e => printNode U V fuel c (d + 1) e) pre env).env) :
      Reaches U V first msg (fuel + 1) n d env
  | loop (fuel : Nat) (n : Node) (d : Nat) (env : Env) (x y : String) (v : Val)
      (xs : List Val) (a : Val) (ys : List Val) (pre : List Node) (c : Node) (post : List Node)
      (hname : n.Name ≠ "") (hvoid : isEmptyElement (rewrite n).Name = false)
      (hexpr : n.Expr ≠ "") (hcomp : V.compile n.Expr = .ok (.ForExpr x y))
      (hget : V.get env y = some v) (hseq : V.reflect v = .seq (xs ++ a :: ys))
      (hloop : first = true →
        (forLoop V (fun c e => printNode U V fuel c (d + 1) e) x xs n.Children env).err = none)
      (hkids :
        (forLoop V (fun c e => printNode U V fuel c (d + 1) e) x xs n.Children env).err = none →
        (forLoop V (fun c e => printNode U V fuel c (d + 1) e) x xs n.Children env).val
          = pre ++ c :: post)
      (hpre : first = true →
        (printChildren (fun c e => printNode U V fuel c (d + 1) e) pre
          (V.set (forLoop V (fun c e => printNode U V fuel c (d + 1) e) x xs n.Children
            env).env x a)).err = none)
      (hc :
        (forLoop V (fun c e => printNode U V fuel c (d + 1) e) x xs n.Children env).err = none →
        (printChildren (fun c e => printNode U V fuel c (d + 1) e) pre
          (V.set (forLoop V (fun c e => printNode U V fuel c (d + 1) e) x xs n.Children
            env).env x a)).err = none →
        Reaches U V first msg fuel c (d + 1)
          (printChildren (fun c e => printNode U V fuel c (d + 1) e) pre
            (V.set (forLoop V (fun c e => printNode U V fuel c (d + 1) e) x xs n.Children
              env).env x a)).env) :
      Reaches U V first msg (fuel + 1) n d env

/-- Modelled from the spec: the sample evaluator `identVM` with values that may
be nil (`none`), as a nil `interface{}` bound in the environment is: `reflect`
shows a nil value as the zero `reflect.Value`. -/
def nilVM : VM (Option Value) (List (String × Option Value)) String :=
  { new := []
    compile := identVM.compile
    eval := fun x env =>
      match env.lookup x with
      | some v => .ok v
      | none => .error ("unknown identifier: " ++ x)
    get := fun env x => env.lookup x
    set := fun env x v => (x, v) :: env
    reflect := fun v =>
      match v with
      | none => .invalid
      | some (.str _) => .other
      | some (.strs xs) => .seq (xs.map (fun s => some (.str s)))
    sprint := fun v =>
      match v with
      | none => "<nil>"
      | some w => identVM.sprint w }

/-- A character that `%q` writes as it is: printable ASCII other than `"` and
the backslash. -/
def plainChar (c : Char) : Bool :=
  0x20 ≤ c.toNat && c.toNat ≤ 0x7E && c != '"' && c != '\\'

/-- An ordinary tag-start character: not white space, none of `=`, `|`, `-`,
`#`, `.`, and with a code point of at most 255. In the neutral state such a
character starts a tag name. -/
def tagStart (r : Char) : Bool :=
  !isSpace r && r != '=' && r != '|' && r != '-' && r != '#' && r != '.' && r.toNat ≤ 255

/-- A non-empty text that starts with an ordinary tag-start character. -/
def startsTag (s : String) : Bool :=
  match s.data with
  | [] => false
  | r :: _ => tagStart r

/-- The line `t#i.c1.c2...cm`: a tag name, an optional id part and the class
parts, each class preceded by a dot. -/
def shorthandLine (t : String) (i : Option String) (cs : List String) : String :=
  ⟨t.data ++ (match i with | none => [] | some x => '#' :: x.data) ++
    cs.flatMap (fun c => '.' :: c.data)⟩

/-- The line `t k1="v1" ... km="vm"`: a tag name followed by the attributes,
each preceded by one space, the value between double quotes. -/
def attrLine (t : String) (attrs : List (String × String)) : String :=
  ⟨t.data ++ attrs.flatMap (fun p => ' ' :: (p.1.data ++ '=' :: '"' :: (p.2.data ++ ['"'])))⟩

/-- An attribute value that contains no `"` and does not begin with a
white-space character. -/
def quotable (v : String) : Bool :=
  v.data.all (fun c => c ≠ '"') &&
    (match v.data with
     | [] => true
     | c :: _ => !isSpace c)

/-- The indentation stack after the nested lines `ps` are read below depth
`d`: the entry of a line holds its column and the pointer to its node, which
is the first child at each level. -/
def nestStack : Nat → List (Nat × String) → List stack
  | _, [] => []
  | d, p :: ps => ⟨p.1, List.replicate (d + 1) 0⟩ :: nestStack (d + 1) ps

/-! ## Theorems -/

/-! ### On Latin-1 input the parser does not consult the tables -/

theorem isLetter_latin1 (U U' : UnicodeTables) (r : Char) (h : r.toNat ≤ 0xFF) :
    isLetter U r = isLetter U' r := by
  simp [isLetter, h]

theorem isPrint_latin1 (U U' : UnicodeTables) (r : Char) (h : r.toNat ≤ 0xFF) :
    isPrint U r = isPrint U' r := by
  simp [isPrint, h]

theorem step_latin1 (U U' : UnicodeTables) (eol : Bool) (n : Nat) (r : Char) (s : Lex)
    (h : r.toNat ≤ 0xFF) : step U eol n r s = step U' eol n r s := by
  unfold step
  simp only [isLetter_latin1 U U' r h]

theorem lexLoop_latin1 (U U' : UnicodeTables) (len : Nat) (rest : List Char)
    (h : ∀ c ∈ rest, c.toNat ≤ 0xFF) (n : Nat) (s : Lex) :
    lexLoop U len rest n s = lexLoop U' len rest n s := by
  induction rest generalizing n s with
  | nil => rfl
  | cons r rest ih =>
    simp only [lexLoop]
    rw [step_latin1 U U' _ n r s (h r (List.mem_cons_self _ _))]
    cases step U' (n + 1 == len) n r s with
    | error e => rfl
    | ok s' => exact ih (fun c hc => h c (List.mem_cons_of_mem _ hc)) (n + 1) s'

theorem lexLine_latin1 (U U' : UnicodeTables) (s : Lex) (l : String) (h : latin1 l = true) :
    lexLine U s l = lexLine U' s l := by
  unfold lexLine
  apply lexLoop_latin1
  simpa [latin1] using h

theorem scanLines_latin1 (U U' : UnicodeTables) (lines : List String)
    (h : lines.all latin1 = true) : scanLines U lines = scanLines U' lines := by
  unfold scanLines
  generalize Lex.init = s
  induction lines generalizing s with
  | nil => rfl
  | cons l ls ih =>
    simp only [List.all_cons, Bool.and_eq_true] at h
    simp only [List.foldlM_cons]
    rw [lexLine_latin1 U U' s l h.1]
    cases lexLine U' s l with
    | error e => rfl
    | ok s' => exact ih h.2 s'

/-! ### A plain tree renders the same under every evaluator and table -/

theorem quoteRune_latin1 (U U' : UnicodeTables) (r : Char) (h : r.toNat ≤ 0xFF) :
    quoteRune U r = quoteRune U' r := by
  unfold quoteRune
  simp only [isPrint_latin1 U U' r h]

theorem quote_latin1 (U U' : UnicodeTables) (s : String) (h : latin1 s = true) :
    quote U s = quote U' s := by
  unfold quote
  have : s.data.map (quoteRune U) = s.data.map (quoteRune U') := by
    apply List.map_congr_left
    intro c hc
    apply quoteRune_latin1
    simp only [latin1, List.all_eq_true, decide_eq_true_eq] at h
    exact h c hc
  rw [this]

theorem attrText_latin1 (U U' : UnicodeTables) (a : Attr) (h : latin1 a.Value = true) :
    attrText U a = attrText U' a := by
  unfold attrText
  rw [quote_latin1 U U' a.Value h]

theorem openTag_latin1 (U U' : UnicodeTables) (b : Bool) (n : Node) (d : Nat)
    (h : n.Attr.all (fun a => latin1 a.Value) = true) : openTag U b n d = openTag U' b n d := by
  unfold openTag
  have : n.Attr.map (attrText U) = n.Attr.map (attrText U') := by
    apply List.map_congr_left
    intro a ha
    simp only [List.all_eq_true] at h
    exact attrText_latin1 U U' a (h a ha)
  rw [this]

@[simp] theorem rewrite_Expr (n : Node) : (rewrite n).Expr = n.Expr := by
  unfold rewrite; split_ifs <;> rfl

@[simp] theorem rewrite_Children (n : Node) : (rewrite n).Children = n.Children := by
  unfold rewrite; split_ifs <;> rfl

@[simp] theorem rewrite_Text (n : Node) : (rewrite n).Text = n.Text := by
  unfold rewrite; split_ifs <;> rfl

@[simp] theorem rewrite_Id (n : Node) : (rewrite n).Id = n.Id := by
  unfold rewrite; split_ifs <;> rfl

@[simp] theorem rewrite_Class (n : Node) : (rewrite n).Class = n.Class := by
  unfold rewrite; split_ifs <;> rfl

theorem rewrite_Attr_all (n : Node) (p : Attr → Bool) (h : n.Attr.all p = true) :
    (rewrite n).Attr.all p = true := by
  unfold rewrite; split_ifs
  · rfl
  · exact h
  · exact h

theorem plain_iff (n : Node) : n.plain = true ↔
    n.Expr = "" ∧ n.Attr.all (fun a => latin1 a.Value) = true ∧ Node.plainList n.Children = true := by
  cases n
  simp [Node.plain, and_assoc]

theorem plainList_mem (cs : List Node) (h : Node.plainList cs = true) (c : Node)
    (hc : c ∈ cs) : c.plain = true := by
  induction cs with
  | nil => cases hc
  | cons x xs ih =>
    simp only [Node.plainList, Bool.and_eq_true] at h
    rcases List.mem_cons.1 hc with rfl | hm
    · exact h.1
    · exact ih h.2 hm

theorem printChildren_erase {Env Env' : Type} (pn : Node → Env → Printed Node Env)
    (pn' : Node → Env' → Printed Node Env') (cs : List Node)
    (h : ∀ c ∈ cs, ∀ env env', (pn c env).env = env ∧ (pn c env).erase = (pn' c env').erase)
    (env : Env) (env' : Env') :
    (printChildren pn cs env).env = env ∧
      (printChildren pn cs env).erase = (printChildren pn' cs env').erase := by
  induction cs generalizing env env' with
  | nil => simp [printChildren, Printed.erase]
  | cons c cs ih =>
    obtain ⟨h1, h2⟩ := h c (List.mem_cons_self _ _) env env'
    have ih' := ih (fun c hc => h c (List.mem_cons_of_mem _ hc))
    simp only [Printed.erase, Prod.mk.injEq] at h2
    obtain ⟨hv, ho, he⟩ := h2
    simp only [printChildren]
    rw [he, hv, ho, h1]
    cases (pn' c env').err with
    | some e => simp [Printed.erase]
    | none =>
      obtain ⟨i1, i2⟩ := ih' env (pn' c env').env
      simp only [Printed.erase, Prod.mk.injEq] at i2 ⊢
      obtain ⟨iv, io, ie⟩ := i2
      simp [i1, iv, io, ie]

theorem printNode_plain {Val Env E : Type} (U : UnicodeTables) (V : VM Val Env E) (fuel : Nat)
    (n : Node) (d : Nat) (env : Env) (h : n.plain = true) :
    (printNode U V fuel n d env).env = env ∧
      (printNode U V fuel n d env).erase = (printNode noTables unitVM fuel n d ()).erase := by
  induction fuel generalizing n d env with
  | zero => simp [printNode, Printed.erase]
  | succ fuel ih =>
    obtain ⟨hE, hA, hC⟩ := (plain_iff n).1 h
    have hkids : ∀ (d : Nat) (env : Env),
        (printChildren (fun c e => printNode U V fuel c d e) n.Children env).env = env ∧
        (printChildren (fun c e => printNode U V fuel c d e) n.Children env).erase =
          (printChildren (fun c e => printNode noTables unitVM fuel c d e) n.Children ()).erase := by
      intro d env
      apply printChildren_erase
      intro c hc env env'
      exact ih c d env (plainList_mem n.Children hC c hc)
    simp only [printNode]
    by_cases hn : n.Name = ""
    · simp only [hn, if_true]
      obtain ⟨k1, k2⟩ := hkids d env
      simp only [Printed.erase, Prod.mk.injEq] at k2 ⊢
      obtain ⟨kv, ko, ke⟩ := k2
      simp [k1, kv, ko, ke]
    · simp only [hn, if_false, rewrite_Expr, rewrite_Children, rewrite_Text, hE]
      rw [openTag_latin1 U noTables _ (rewrite n) d (rewrite_Attr_all n _ hA)]
      obtain ⟨k1, k2⟩ := hkids (d + 1) env
      simp only [Printed.erase, Prod.mk.injEq] at k2
      obtain ⟨kv, ko, ke⟩ := k2
      simp only [ne_eq, not_true_eq_false, if_false]
      split_ifs
      · rw [ke, kv, ko]
        cases (printChildren (fun c e => printNode noTables unitVM fuel c (d + 1) e) n.Children ()).err with
        | some e => simp [Printed.erase, k1]
        | none => simp [Printed.erase, k1]
      · simp [Printed.erase]
      · simp [Printed.erase]
      · simp [Printed.erase]
      · simp [Printed.erase]

/-! ### Plain tag lines at increasing columns -/

theorem addRune_data (s : String) (r : Char) : (addRune s r).data = s.data ++ [r] := by
  simp [addRune, String.data_append, String.singleton]

theorem asciiLetter_bounds (c : Char) (h : asciiLetter c = true) :
    (65 ≤ c.toNat ∧ c.toNat ≤ 90) ∨ (97 ≤ c.toNat ∧ c.toNat ≤ 122) := by
  simpa [asciiLetter] using h

theorem asciiLetter_not_space (c : Char) (h : asciiLetter c = true) : isSpace c = false := by
  have hb := asciiLetter_bounds c h
  have h255 : c.toNat ≤ 255 := by omega
  simp only [isSpace, h255, if_true]
  simp only [Bool.or_eq_false_iff, beq_eq_false_iff_ne, ne_eq]
  omega

theorem asciiLetter_ne (c d : Char) (h : asciiLetter c = true) (hd : asciiLetter d = false) :
    c ≠ d := by
  intro hcd; rw [hcd, hd] at h; cases h

theorem spine_get (nm : String) (rest : List String) (k : List Node) :
    (spine nm rest k).get? (List.replicate rest.length 0) = some (spine (rest.getLastD nm) [] k) := by
  induction rest generalizing nm with
  | nil => rfl
  | cons t ts ih =>
    simp only [List.length_cons, List.replicate_succ, Node.get?, spine, List.getLastD_cons]
    simpa using ih t

theorem spine_update_newchild (nm : String) (rest : List String) :
    Node.update (fun x => { x with Children := x.Children ++ [Node.empty] })
      (List.replicate rest.length 0) (spine nm rest []) = spine nm (rest ++ [""]) [] := by
  induction rest generalizing nm with
  | nil => rfl
  | cons t ts ih =>
    simp only [List.length_cons, List.replicate_succ, Node.update, spine, List.cons_append]
    simp [ih t]

theorem spine_update_name (nm : String) (pre : List String) (x v : String) (k : List Node) :
    Node.update (fun y => { y with Name := v }) (List.replicate (pre.length + 1) 0)
      (spine nm (pre ++ [x]) k) = spine nm (pre ++ [v]) k := by
  induction pre generalizing nm with
  | nil => rfl
  | cons t ts ih =>
    show (⟨nm, "", [], [], "", "", [Node.update _ (List.replicate (ts.length + 1) 0)
      (spine t (ts ++ [x]) k)]⟩ : Node) = _
    rw [ih t]
    rfl

theorem spine_get_snoc (nm : String) (pre : List String) (x : String) (k : List Node) :
    (spine nm (pre ++ [x]) k).get? (List.replicate (pre.length + 1) 0) = some (spine x [] k) := by
  have := spine_get nm (pre ++ [x]) k
  simpa using this

theorem endsColon_plainName (t : String) (h : plainName t = true) : endsColon t = false := by
  simp only [plainName, Bool.and_eq_true, List.all_eq_true, decide_eq_true_eq] at h
  simp only [endsColon, beq_eq_false_iff_ne, ne_eq]
  intro hl
  have hm : ':' ∈ t.data := List.mem_of_getLast?_eq_some hl
  have := h.2 ':' hm
  revert this
  decide

theorem endsColon_getLastD (pre : List String) (h : ∀ t ∈ pre, plainName t = true) :
    endsColon (pre.getLastD "") = false := by
  rcases List.eq_nil_or_concat pre with rfl | ⟨l, x, rfl⟩
  · rfl
  · simp only [List.concat_eq_append, List.getLastD_concat]
    exact endsColon_plainName x (h x (by simp))

theorem step_neutral_space (U : UnicodeTables) (eol : Bool) (n : Nat) (s : Lex)
    (h : s.st = .sNeutral) : step U eol n ' ' s = .ok s := by
  unfold step
  rw [h]
  have : isSpace ' ' = true := by decide
  simp only [this, if_true]
  rfl

theorem lexLoop_spaces (U : UnicodeTables) (len m : Nat) (rest : List Char) (n : Nat) (s : Lex)
    (h : s.st = .sNeutral) :
    lexLoop U len (List.replicate m ' ' ++ rest) n s = lexLoop U len rest (n + m) s := by
  induction m generalizing n with
  | zero => rfl
  | succ m ih =>
    rw [List.replicate_succ, List.cons_append, lexLoop, step_neutral_space U _ n s h]
    show lexLoop U len (List.replicate m ' ' ++ rest) (n + 1) s = _
    rw [ih (n + 1)]
    congr 1
    omega

theorem step_neutral_letter (U : UnicodeTables) (eol : Bool) (n : Nat) (a : Char) (s : Lex)
    (h : s.st = .sNeutral) (ha : asciiLetter a = true) :
    step U eol n a s = resolve n { s with st := .sTag, tag := addRune s.tag a } := by
  unfold step
  rw [h]
  have h1 : isSpace a = false := asciiLetter_not_space a ha
  have h2 : a ≠ '=' := asciiLetter_ne a _ ha (by decide)
  have h3 : a ≠ '|' := asciiLetter_ne a _ ha (by decide)
  have h4 : a ≠ '-' := asciiLetter_ne a _ ha (by decide)
  have h5 : a ≠ '#' := asciiLetter_ne a _ ha (by decide)
  have h6 : a ≠ '.' := asciiLetter_ne a _ ha (by decide)
  have h7 : ¬ a.toNat > 255 := by
    have := asciiLetter_bounds a ha
    omega
  simp only [h1, h2, h3, h4, h5, h6, h7, if_false, Bool.false_eq_true]

theorem resolve_deeper (n : Nat) (s : Lex) (pre : List String)
    (hroot : s.root = spine "" pre []) (hnode : s.node = List.replicate pre.length 0)
    (hlast : s.last < n) (hpre : ∀ t ∈ pre, plainName t = true) :
    resolve n s = .ok { s with
      last := n, root := spine "" (pre ++ [s.tag]) [],
      node := List.replicate (pre.length + 1) 0,
      stk := s.stk ++ [⟨n, List.replicate (pre.length + 1) 0⟩] } := by
  unfold resolve
  have hgt : (n : Int) > s.last := hlast
  have hc : endsColon (spine (pre.getLastD "") [] []).Name = false := endsColon_getLastD pre hpre
  have e1 : List.replicate pre.length 0 ++ [(spine (pre.getLastD "") [] []).Children.length]
      = List.replicate (pre.length + 1) 0 := by
    simp [spine, List.replicate_succ']
  simp only [hgt, if_true, load, NewChild, nameNode, store, hroot, hnode, spine_get,
    spine_update_newchild, bind, Except.bind, pure, Except.pure, hc, e1, spine_get_snoc,
    spine_update_name, Bool.false_eq_true, if_false]

theorem step_tag_mid (U : UnicodeTables) (n : Nat) (a : Char) (s : Lex)
    (hst : s.st = .sTag) (htag : s.tag ≠ "") (ha : asciiLetter a = true) :
    step U false n a s = .ok { s with tag := addRune s.tag a } := by
  unfold step
  rw [hst]
  have h1 : isSpace a = false := asciiLetter_not_space a ha
  have h2 : a ≠ '=' := asciiLetter_ne a _ ha (by decide)
  have h5 : a ≠ '#' := asciiLetter_ne a _ ha (by decide)
  have h6 : a ≠ '.' := asciiLetter_ne a _ ha (by decide)
  simp only [h1, h2, h5, h6, htag, if_false, Bool.false_eq_true, decide_False, Bool.false_and]
  rfl

theorem step_tag_eol (U : UnicodeTables) (n : Nat) (a : Char) (s : Lex) (pre : List String)
    (x : String) (hst : s.st = .sTag) (hroot : s.root = spine "" (pre ++ [x]) [])
    (hnode : s.node = List.replicate (pre.length + 1) 0) :
    step U true n a s = .ok { s with
      root := spine "" (pre ++ [addRune s.tag a]) [], tag := addRune s.tag a } := by
  unfold step
  rw [hst]
  simp only [if_true, store, hroot, hnode, spine_get_snoc, spine_update_name, bind, Except.bind,
    pure, Except.pure]

theorem lexLoop_tag (U : UnicodeTables) (len : Nat) (pre : List String) (as : List Char) :
    ∀ (n : Nat) (s : Lex) (x : String), as ≠ [] → (∀ c ∈ as, asciiLetter c = true) →
      n + as.length = len → s.st = .sTag → s.tag ≠ "" → s.root = spine "" (pre ++ [x]) [] →
      s.node = List.replicate (pre.length + 1) 0 →
      ∃ s', lexLoop U len as n s = .ok s' ∧ s'.root = spine "" (pre ++ [⟨s.tag.data ++ as⟩]) [] ∧
        s'.node = s.node ∧ s'.last = s.last := by
  induction as with
  | nil => intro n s x h; exact absurd rfl h
  | cons a as ih =>
    intro n s x _ hall hlen hst htag hroot hnode
    cases as with
    | nil =>
      have heol : (n + 1 == len) = true := by simpa using hlen
      refine ⟨{ s with root := spine "" (pre ++ [addRune s.tag a]) [], tag := addRune s.tag a },
        ?_, ?_, rfl, rfl⟩
      · rw [lexLoop, heol, step_tag_eol U n a s pre x hst hroot hnode]
        rfl
      · show spine "" (pre ++ [addRune s.tag a]) [] = _
        rfl
    | cons b bs =>
      have heol : (n + 1 == len) = false := by
        simp only [List.length_cons] at hlen
        simp only [beq_eq_false_iff_ne, ne_eq]
        omega
      have ha : asciiLetter a = true := hall a (List.mem_cons_self _ _)
      have hne : (addRune s.tag a) ≠ "" := by
        intro h
        have := congrArg String.data h
        rw [addRune_data] at this
        simp at this
      obtain ⟨s', h1, h2, h3, h4⟩ := ih (n + 1) { s with tag := addRune s.tag a } x
        (by simp) (fun c hc => hall c (List.mem_cons_of_mem _ hc))
        (by simp only [List.length_cons] at hlen ⊢; omega) hst hne hroot hnode
      refine ⟨s', ?_, ?_, h3, h4⟩
      · rw [lexLoop, heol, step_tag_mid U n a s hst htag ha]
        exact h1
      · rw [h2]
        show spine "" (pre ++ [⟨(addRune s.tag a).data ++ b :: bs⟩]) [] = _
        rw [addRune_data, List.append_assoc]
        rfl

theorem lexLine_deeper (U : UnicodeTables) (s : Lex) (pre : List String) (c : Nat) (t : String)
    (hroot : s.root = spine "" pre []) (hnode : s.node = List.replicate pre.length 0)
    (hlast : s.last < c) (hpre : ∀ t ∈ pre, plainName t = true) (ht : plainName t = true) :
    ∃ s', lexLine U s (indented c t) = .ok s' ∧ s'.root = spine "" (pre ++ [t]) [] ∧
      s'.node = List.replicate (pre.length + 1) 0 ∧ s'.last = c := by
  obtain ⟨d⟩ := t
  simp only [plainName, Bool.and_eq_true, decide_eq_true_eq, List.all_eq_true] at ht
  obtain ⟨hne, hall⟩ := ht
  cases d with
  | nil => exact absurd rfl hne
  | cons a as =>
    have ha : asciiLetter a = true := hall a (List.mem_cons_self _ _)
    unfold lexLine indented
    rw [lexLoop_spaces U _ c (a :: as) 0 _ rfl, lexLoop, step_neutral_letter U _ _ a _ rfl ha]
    dsimp only
    rw [resolve_deeper (0 + c) { s with
      st := .sTag, tag := addRune "" a, id := "", class_ := "", aname := "", avalue := "" }
      pre hroot hnode (by simpa using hlast) hpre]
    by_cases has : as = []
    · subst has
      refine ⟨_, rfl, ?_, rfl, ?_⟩
      · rfl
      · simp
    · obtain ⟨s', h1, h2, h3, h4⟩ := lexLoop_tag U (List.replicate c ' ' ++ a :: as).length pre as
        (0 + c + 1) { s with
          st := .sTag, tag := addRune "" a, id := "", class_ := "", aname := "", avalue := "",
          last := ((0 + c : Nat) : Int), root := spine "" (pre ++ [addRune "" a]) [],
          node := List.replicate (pre.length + 1) 0,
          stk := s.stk ++ [⟨0 + c, List.replicate (pre.length + 1) 0⟩] }
        (addRune "" a) has (fun x hx => hall x (List.mem_cons_of_mem _ hx))
        (by simp; omega) rfl (by
          intro h
          have := congrArg String.data h
          rw [addRune_data] at this
          simp at this) rfl rfl
      refine ⟨s', h1, ?_, h3, ?_⟩
      · rw [h2]; rfl
      · rw [h4]; simp

theorem foldlM_deeper (U : UnicodeTables) (ls : List (Nat × String)) :
    ∀ (s : Lex) (pre : List String), s.root = spine "" pre [] →
      s.node = List.replicate pre.length 0 → (∀ t ∈ pre, plainName t = true) →
      (∀ p ∈ ls, plainName p.2 = true) → (ls.map Prod.fst).Pairwise (· < ·) →
      (∀ p ∈ ls, s.last < (p.1 : Int)) →
      ∃ s', (ls.map (fun p => indented p.1 p.2)).foldlM (lexLine U) s = .ok s' ∧
        s'.root = spine "" (pre ++ ls.map Prod.snd) [] := by
  induction ls with
  | nil =>
    intro s pre hroot _ _ _ _ _
    exact ⟨s, rfl, by simpa using hroot⟩
  | cons p ps ih =>
    intro s pre hroot hnode hpre hnames hcols hlast
    obtain ⟨s1, h1, h2, h3, h4⟩ := lexLine_deeper U s pre p.1 p.2 hroot hnode
      (hlast p (List.mem_cons_self _ _)) hpre (hnames p (List.mem_cons_self _ _))
    simp only [List.map_cons, List.pairwise_cons] at hcols
    obtain ⟨s', h5, h6⟩ := ih s1 (pre ++ [p.2]) h2 (by simpa using h3)
      (by
        intro t ht
        rcases List.mem_append.1 ht with h | h
        · exact hpre t h
        · simp only [List.mem_singleton] at h
          subst h
          exact hnames p (List.mem_cons_self _ _))
      (fun q hq => hnames q (List.mem_cons_of_mem _ hq)) hcols.2
      (by
        intro q hq
        rw [h4]
        exact_mod_cast hcols.1 q.1 (List.mem_map_of_mem _ hq))
    refine ⟨s', ?_, ?_⟩
    · simp only [List.map_cons, List.foldlM_cons, h1]
      exact h5
    · rw [h6]; simp

/-! ### From evaluated runs to `Parse` and `Execute` -/

theorem Parse_of_scan {Val : Type} (U : UnicodeTables) (lines : List String) (root : Node)
    (hl : lines.all latin1 = true)
    (h : (scanLines noTables lines).map (fun s => s.root) = .ok root) :
    (Parse U ⟨lines, none⟩ : Except Fault (Template Val)) = .ok ⟨root, []⟩ := by
  unfold Parse
  rw [scanLines_latin1 U noTables lines hl]
  cases hs : scanLines noTables lines with
  | error e => rw [hs] at h; cases h
  | ok s =>
    rw [hs] at h
    injection h with h
    subst h
    rfl

theorem Parse_fault_of_scan {Val : Type} (U : UnicodeTables) (lines : List String) (e : Fault)
    (hl : lines.all latin1 = true)
    (h : (scanLines noTables lines).map (fun s => s.root) = .error e) :
    (Parse U ⟨lines, none⟩ : Except Fault (Template Val)) = .error e := by
  unfold Parse
  rw [scanLines_latin1 U noTables lines hl]
  cases hs : scanLines noTables lines with
  | error e' =>
    rw [hs] at h
    injection h with h
    subst h
    rfl
  | ok s => rw [hs] at h; cases h

theorem setFields_exported {Val Env E : Type} (V : VM Val Env E) (fs : List (Field Val)) :
    ∀ (env : Env), fs.all (fun f => f.exported) = true → (setFields V env fs).2 = none := by
  induction fs with
  | nil => intro env _; rfl
  | cons f fs ih =>
    intro env h
    simp only [List.all_cons, Bool.and_eq_true] at h
    simp only [setFields, h.1, if_true]
    exact ih _ h.2

theorem startEnv_readable {Val Env E : Type} (V : VM Val Env E) (t : Template Val)
    (value : Context Val) (h : value.readable = true) : (startEnv V t value).2 = none := by
  cases value with
  | nil => rfl
  | map entries => rfl
  | struct fields => exact setFields_exported V fields _ h
  | other => rfl

theorem Execute_readable {Val Env E : Type} (U : UnicodeTables) (V : VM Val Env E)
    (t : Template Val) (value : Context Val) (h : value.readable = true) :
    Execute U V t value =
      ⟨{ t with root := (printNode U V t.root.height t.root 0 (startEnv V t value).1).val },
        (printNode U V t.root.height t.root 0 (startEnv V t value).1).env,
        (printNode U V t.root.height t.root 0 (startEnv V t value).1).out,
        (printNode U V t.root.height t.root 0 (startEnv V t value).1).err⟩ := by
  have h2 := startEnv_readable V t value h
  unfold Execute
  cases hs : startEnv V t value with
  | mk env err =>
    rw [hs] at h2
    simp only at h2
    subst h2
    rfl

theorem Execute_plain {Val Env E : Type} (U : UnicodeTables) (V : VM Val Env E)
    (t : Template Val) (value : Context Val) (hv : value.readable = true)
    (h : t.root.plain = true) :
    ((Execute U V t value).val.root, (Execute U V t value).out, (Execute U V t value).err) =
      (printNode noTables unitVM t.root.height t.root 0 ()).erase := by
  rw [Execute_readable U V t value hv]
  exact (printNode_plain U V t.root.height t.root 0 _ h).2

theorem nest_of_scan {Val : Type} (U : UnicodeTables) (lines : List String) (s : Lex)
    (h : scanLines U lines = .ok s) :
    (Parse U ⟨lines, none⟩ : Except Fault (Template Val)) = .ok ⟨s.root, []⟩ := by
  unfold Parse
  rw [h]
  rfl

/-- C1: parsing the seven lines of the `TestSimple` template and executing the
result with a nil context succeeds and writes exactly the expected document
(2-space indentation, `meta` self-closed, `<!doctype html>`), whatever the
evaluator and the Unicode tables are. -/
theorem C1_test_simple_renders {Val Env E : Type} (U : UnicodeTables) (V : VM Val Env E) :
    (Parse U ⟨testSimple, none⟩ : Except Fault (Template Val)) = .ok ⟨testSimpleTree, []⟩ ∧
    (Execute U V (⟨testSimpleTree, []⟩ : Template Val) .nil).out =
      "<!doctype html>\n<html lang=\"ja\">\n  <head>\n    <meta charset=\"UTF-8\"/>\n    <title>\n    </title>\n  </head>\n  <body>\n    <p>Hello</p>\n  </body>\n</html>\n" ∧
    (Execute U V (⟨testSimpleTree, []⟩ : Template Val) .nil).err = none := by
  refine ⟨Parse_of_scan U testSimple testSimpleTree (by decide!) (by decide!), ?_⟩
  have h := Execute_plain U V (⟨testSimpleTree, []⟩ : Template Val) .nil rfl
    (by decide! : testSimpleTree.plain = true)
  have hc : ((printNode noTables unitVM testSimpleTree.height testSimpleTree 0 ()).out,
      (printNode noTables unitVM testSimpleTree.height testSimpleTree 0 ()).err) =
      ("<!doctype html>\n<html lang=\"ja\">\n  <head>\n    <meta charset=\"UTF-8\"/>\n    <title>\n    </title>\n  </head>\n  <body>\n    <p>Hello</p>\n  </body>\n</html>\n", none) := by
    decide!
  simp only [Printed.erase, Prod.mk.injEq] at h hc
  exact ⟨h.2.1.trans hc.1, h.2.2.trans hc.2⟩

/-- C2: `Parse` is not total. On the single line `a x="` the attribute value
is the one character `"`, both quote tests succeed and the slice
`avalue[1:len(avalue)-1]` is `[1:0]`: the call aborts. On the lines `a`,
`  b`, `c` the dedent loop reads `stk[i-1]` at `i = 0`: the call aborts. -/
theorem C2_parse_aborts {Val : Type} (U : UnicodeTables) :
    (Parse U ⟨["a x=\""], none⟩ : Except Fault (Template Val)) =
      .error (.panic "slice bounds out of range [1:0]") ∧
    (Parse U ⟨["a", "  b", "c"], none⟩ : Except Fault (Template Val)) =
      .error (.panic "index out of range [-1]") :=
  ⟨Parse_fault_of_scan U _ _ (by decide!) (by decide!),
   Parse_fault_of_scan U _ _ (by decide!) (by decide!)⟩

/-- C3: for the tags A, B, C, D, E at columns 0, 2, 4, 2, 0 the first four
lines give root[A[B[C], D]] (D is a sibling of B), and the fifth line makes
`Parse` abort in the dedent loop (`stk[i-1]` at `i = 0`) instead of attaching
E to the root. -/
theorem C3_dedent_to_column_zero_aborts {Val : Type} (U : UnicodeTables) :
    (Parse U ⟨["A", "  B", "    C", "  D"], none⟩ : Except Fault (Template Val)) =
      .ok ⟨tagNode "" [tagNode "A" [tagNode "B" [tagNode "C" []], tagNode "D" []]], []⟩ ∧
    (Parse U ⟨["A", "  B", "    C", "  D", "E"], none⟩ : Except Fault (Template Val)) =
      .error (.panic "index out of range [-1]") :=
  ⟨Parse_of_scan U _ _ (by decide!) (by decide!),
   Parse_fault_of_scan U _ _ (by decide!) (by decide!)⟩

/-- C4: sibling stability fails. For A, B, C at columns 0, 2, 0 (A and C at
the same column, B deeper between them) `Parse` aborts. For A, B, C, D, X, Y, E
at columns 0, 2, 4, 2, 4, 3, 2 (D and E at column 2, X and Y deeper between
them) `Parse` succeeds with D under A and E under the root. -/
theorem C4_same_column_not_siblings {Val : Type} (U : UnicodeTables) :
    (Parse U ⟨["A", "  B", "C"], none⟩ : Except Fault (Template Val)) =
      .error (.panic "index out of range [-1]") ∧
    (Parse U ⟨["A", "  B", "    C", "  D", "    X", "   Y", "  E"], none⟩ :
        Except Fault (Template Val)) =
      .ok ⟨tagNode "" [
        tagNode "A" [tagNode "B" [tagNode "C" []], tagNode "D" [tagNode "X" []], tagNode "Y" []],
        tagNode "E" []], []⟩ :=
  ⟨Parse_fault_of_scan U _ _ (by decide!) (by decide!),
   Parse_of_scan U _ _ (by decide!) (by decide!)⟩

/-- C5: for plain tag names (non-empty strings of ASCII letters) on lines whose
indentation columns strictly increase, `Parse` yields the linear tree: the
root's only child is named by the first line, its only child by the second,
and so on; the last node has no children and no node has an Id, Class, Attr,
Text or Expr. -/
theorem C5_increasing_indentation_nests_linearly {Val : Type} (U : UnicodeTables)
    (ls : List (Nat × String)) (hnames : ∀ p ∈ ls, plainName p.2 = true)
    (hcols : (ls.map Prod.fst).Pairwise (· < ·)) :
    (Parse U ⟨ls.map (fun p => indented p.1 p.2), none⟩ : Except Fault (Template Val)) =
      .ok ⟨spine "" (ls.map Prod.snd) [], []⟩ := by
  obtain ⟨s', h1, h2⟩ := foldlM_deeper U ls Lex.init [] rfl rfl (by simp) hnames hcols
    (by
      intro p _
      show (-1 : Int) < (p.1 : Int)
      omega)
  rw [nest_of_scan U _ s' h1, h2]
  rfl

/-- Witness of C5: the lines `html`, `  body`, `     p` (columns 0, 2, 5). -/
theorem C5_increasing_indentation_nests_linearly_witness :
    (Parse noTables ⟨([(0, "html"), (2, "body"), (5, "p")] : List (Nat × String)).map
        (fun p => indented p.1 p.2), none⟩ : Except Fault (Template Unit)) =
      .ok ⟨spine "" (([(0, "html"), (2, "body"), (5, "p")] : List (Nat × String)).map Prod.snd) [],
        []⟩ :=
  C5_increasing_indentation_nests_linearly noTables [(0, "html"), (2, "body"), (5, "p")]
    (by decide) (by decide)

/-- C6: rendering is not idempotent. `Parse` of the line `a::` gives a node
named `a::`; the first `Execute` cuts one colon off the stored name and writes
`<a:>`, `</a:>`; the second `Execute` of the same template cuts the other and
writes `<a>`, `</a>`. -/
theorem C6_second_render_differs {Val Env E : Type} (U : UnicodeTables) (V : VM Val Env E) :
    (Parse U ⟨["a::"], none⟩ : Except Fault (Template Val)) =
      .ok ⟨tagNode "" [tagNode "a::" []], []⟩ ∧
    (Execute U V (⟨tagNode "" [tagNode "a::" []], []⟩ : Template Val) .nil).val =
      ⟨tagNode "" [tagNode "a:" []], []⟩ ∧
    (Execute U V (⟨tagNode "" [tagNode "a::" []], []⟩ : Template Val) .nil).out =
      "<a:>\n</a:>\n" ∧
    (Execute U V (⟨tagNode "" [tagNode "a::" []], []⟩ : Template Val) .nil).err = none ∧
    (Execute U V (⟨tagNode "" [tagNode "a:" []], []⟩ : Template Val) .nil).out =
      "<a>\n</a>\n" ∧
    (Execute U V (⟨tagNode "" [tagNode "a:" []], []⟩ : Template Val) .nil).err = none := by
  have h1 := Execute_plain U V (⟨tagNode "" [tagNode "a::" []], []⟩ : Template Val) .nil rfl
    (by decide! : (tagNode "" [tagNode "a::" []]).plain = true)
  have h2 := Execute_plain U V (⟨tagNode "" [tagNode "a:" []], []⟩ : Template Val) .nil rfl
    (by decide! : (tagNode "" [tagNode "a:" []]).plain = true)
  have c1 : (printNode noTables unitVM (tagNode "" [tagNode "a::" []]).height
      (tagNode "" [tagNode "a::" []]) 0 ()).erase =
      (tagNode "" [tagNode "a:" []], "<a:>\n</a:>\n", none) := by decide!
  have c2 : (printNode noTables unitVM (tagNode "" [tagNode "a:" []]).height
      (tagNode "" [tagNode "a:" []]) 0 ()).erase =
      (tagNode "" [tagNode "a" []], "<a>\n</a>\n", none) := by decide!
  rw [c1] at h1
  rw [c2] at h2
  simp only [Prod.mk.injEq] at h1 h2
  refine ⟨Parse_of_scan U _ _ (by decide!) (by decide!), ?_, h1.2.1, h1.2.2, h2.2.1, h2.2.2⟩
  have hfm : (Execute U V (⟨tagNode "" [tagNode "a::" []], []⟩ : Template Val) .nil).val.fm = [] :=
    rfl
  cases hv : (Execute U V (⟨tagNode "" [tagNode "a::" []], []⟩ : Template Val) .nil).val with
  | mk root fm =>
    rw [hv] at hfm h1
    simp only at hfm h1
    rw [hfm, h1.1]

/-! ### The height of a tree -/

theorem height_eq (n : Node) : n.height = Node.heightList n.Children + 1 := by
  cases n
  rfl

theorem height_le_of_mem (cs : List Node) (c : Node) (h : c ∈ cs) :
    c.height ≤ Node.heightList cs := by
  induction cs with
  | nil => cases h
  | cons x xs ih =>
    simp only [Node.heightList]
    rcases List.mem_cons.1 h with rfl | hm
    · exact Nat.le_max_left _ _
    · exact Nat.le_trans (ih hm) (Nat.le_max_right _ _)

/-! ### The loops of the renderer against their wording in the specification -/

theorem inDocumentOrder_sticky {Env : Type} (pn : Node → Env → Printed Node Env)
    (cs : List Node) : ∀ (acc : Printed (List Node) Env) (e : Fault), acc.err = some e →
      (cs.foldl
        (fun acc c =>
          (⟨acc.val ++ [(pn c acc.env).val], (pn c acc.env).env,
            acc.out ++ (pn c acc.env).out, acc.err.or (pn c acc.env).err⟩ :
            Printed (List Node) Env))
        acc).err = some e := by
  induction cs with
  | nil => intro acc e h; exact h
  | cons c cs ih =>
    intro acc e h
    rw [List.foldl_cons]
    apply ih
    show (acc.err.or _) = some e
    rw [h]
    rfl

theorem inDocumentOrder_fold {Env : Type} (pn : Node → Env → Printed Node Env)
    (cs : List Node) : ∀ (acc : Printed (List Node) Env), acc.err = none →
      (cs.foldl
        (fun acc c =>
          (⟨acc.val ++ [(pn c acc.env).val], (pn c acc.env).env,
            acc.out ++ (pn c acc.env).out, acc.err.or (pn c acc.env).err⟩ :
            Printed (List Node) Env))
        acc).err = none →
      (printChildren pn cs acc.env).err = none ∧
      cs.foldl
        (fun acc c =>
          (⟨acc.val ++ [(pn c acc.env).val], (pn c acc.env).env,
            acc.out ++ (pn c acc.env).out, acc.err.or (pn c acc.env).err⟩ :
            Printed (List Node) Env))
        acc =
        ⟨acc.val ++ (printChildren pn cs acc.env).val, (printChildren pn cs acc.env).env,
          acc.out ++ (printChildren pn cs acc.env).out, none⟩ := by
  induction cs with
  | nil =>
    intro acc h _
    obtain ⟨v, en, o, er⟩ := acc
    simp only at h
    subst h
    simp [printChildren]
  | cons c cs ih =>
    intro acc h hok
    rw [List.foldl_cons] at hok ⊢
    have hr : (pn c acc.env).err = none := by
      cases hx : (pn c acc.env).err with
      | none => rfl
      | some e =>
        have := inDocumentOrder_sticky pn cs
          ⟨acc.val ++ [(pn c acc.env).val], (pn c acc.env).env, acc.out ++ (pn c acc.env).out,
            acc.err.or (pn c acc.env).err⟩ e (by show (acc.err.or _) = some e; rw [h, hx]; rfl)
        rw [this] at hok
        cases hok
    · obtain ⟨i1, i2⟩ := ih
        ⟨acc.val ++ [(pn c acc.env).val], (pn c acc.env).env, acc.out ++ (pn c acc.env).out,
          acc.err.or (pn c acc.env).err⟩ (by show (acc.err.or _) = none; rw [h, hr]; rfl) hok
      simp only at i1 i2
      rw [i2]
      simp only [printChildren, hr]
      refine ⟨i1, ?_⟩
      simp only [List.append_assoc, List.singleton_append, String.append_assoc]

theorem printChildren_inDocumentOrder {Env : Type} (pn : Node → Env → Printed Node Env)
    (cs : List Node) (env : Env) (h : (inDocumentOrder pn cs env).err = none) :
    printChildren pn cs env = inDocumentOrder pn cs env := by
  obtain ⟨h1, h2⟩ := inDocumentOrder_fold pn cs ⟨[], env, "", none⟩ rfl h
  unfold inDocumentOrder
  rw [h2]
  simp only [List.nil_append, String.empty_append]
  rw [← h1]

theorem perElement_sticky {Val Env E : Type} (V : VM Val Env E)
    (pn : Node → Env → Printed Node Env) (x : String) (elems : List Val) :
    ∀ (acc : Printed (List Node) Env) (e : Fault), acc.err = some e →
      (elems.foldl
        (fun acc e =>
          (⟨(inDocumentOrder pn acc.val (V.set acc.env x e)).val,
            (inDocumentOrder pn acc.val (V.set acc.env x e)).env,
            acc.out ++ (inDocumentOrder pn acc.val (V.set acc.env x e)).out,
            acc.err.or (inDocumentOrder pn acc.val (V.set acc.env x e)).err⟩ :
            Printed (List Node) Env))
        acc).err = some e := by
  induction elems with
  | nil => intro acc e h; exact h
  | cons a as ih =>
    intro acc e h
    rw [List.foldl_cons]
    apply ih
    show (acc.err.or _) = some e
    rw [h]
    rfl

theorem perElement_fold {Val Env E : Type} (V : VM Val Env E)
    (pn : Node → Env → Printed Node Env) (x : String) (elems : List Val) :
    ∀ (acc : Printed (List Node) Env), acc.err = none →
      (elems.foldl
        (fun acc e =>
          (⟨(inDocumentOrder pn acc.val (V.set acc.env x e)).val,
            (inDocumentOrder pn acc.val (V.set acc.env x e)).env,
            acc.out ++ (inDocumentOrder pn acc.val (V.set acc.env x e)).out,
            acc.err.or (inDocumentOrder pn acc.val (V.set acc.env x e)).err⟩ :
            Printed (List Node) Env))
        acc).err = none →
      (forLoop V pn x elems acc.val acc.env).err = none ∧
      elems.foldl
        (fun acc e =>
          (⟨(inDocumentOrder pn acc.val (V.set acc.env x e)).val,
            (inDocumentOrder pn acc.val (V.set acc.env x e)).env,
            acc.out ++ (inDocumentOrder pn acc.val (V.set acc.env x e)).out,
            acc.err.or (inDocumentOrder pn acc.val (V.set acc.env x e)).err⟩ :
            Printed (List Node) Env))
        acc =
        ⟨(forLoop V pn x elems acc.val acc.env).val, (forLoop V pn x elems acc.val acc.env).env,
          acc.out ++ (forLoop V pn x elems acc.val acc.env).out, none⟩ := by
  induction elems with
  | nil =>
    intro acc h _
    obtain ⟨v, en, o, er⟩ := acc
    simp only at h
    subst h
    simp [forLoop]
  | cons a as ih =>
    intro acc h hok
    rw [List.foldl_cons] at hok ⊢
    have hr : (inDocumentOrder pn acc.val (V.set acc.env x a)).err = none := by
      cases hx : (inDocumentOrder pn acc.val (V.set acc.env x a)).err with
      | none => rfl
      | some e =>
        have := perElement_sticky V pn x as
          ⟨(inDocumentOrder pn acc.val (V.set acc.env x a)).val,
            (inDocumentOrder pn acc.val (V.set acc.env x a)).env,
            acc.out ++ (inDocumentOrder pn acc.val (V.set acc.env x a)).out,
            acc.err.or (inDocumentOrder pn acc.val (V.set acc.env x a)).err⟩ e
          (by show (acc.err.or _) = some e; rw [h, hx]; rfl)
        rw [this] at hok
        cases hok
    · obtain ⟨i1, i2⟩ := ih
        ⟨(inDocumentOrder pn acc.val (V.set acc.env x a)).val,
          (inDocumentOrder pn acc.val (V.set acc.env x a)).env,
          acc.out ++ (inDocumentOrder pn acc.val (V.set acc.env x a)).out,
          acc.err.or (inDocumentOrder pn acc.val (V.set acc.env x a)).err⟩
        (by show (acc.err.or _) = none; rw [h, hr]; rfl) hok
      simp only at i1 i2
      have hp := printChildren_inDocumentOrder pn acc.val (V.set acc.env x a) hr
      rw [i2]
      simp only [forLoop, hp, hr]
      refine ⟨i1, ?_⟩
      simp only [String.append_assoc]

theorem forLoop_perElement {Val Env E : Type} (V : VM Val Env E)
    (pn : Node → Env → Printed Node Env) (x : String) (elems : List Val) (cs : List Node)
    (env : Env) (h : (perElement V pn x elems cs env).err = none) :
    forLoop V pn x elems cs env = perElement V pn x elems cs env := by
  obtain ⟨h1, h2⟩ := perElement_fold V pn x elems ⟨cs, env, "", none⟩ rfl h
  unfold perElement
  rw [h2]
  simp only [String.empty_append]
  rw [← h1]

/-! ### Failures of the renderer -/

theorem heightList_append (pre : List Node) (c : Node) (post : List Node) (f : Nat)
    (h : Node.heightList (pre ++ c :: post) ≤ f) :
    Node.heightList pre ≤ f ∧ c.height ≤ f := by
  induction pre with
  | nil =>
    simp only [List.nil_append, Node.heightList] at h
    exact ⟨Nat.zero_le _, Nat.le_trans (Nat.le_max_left _ _) h⟩
  | cons x xs ih =>
    simp only [List.cons_append, Node.heightList] at h ⊢
    have h1 : x.height ≤ f := Nat.le_trans (Nat.le_max_left _ _) h
    have h2 := ih (Nat.le_trans (Nat.le_max_right _ _) h)
    exact ⟨Nat.max_le.2 ⟨h1, h2.1⟩, h2.2⟩

theorem rewrite_height (n : Node) : (rewrite n).height = n.height := by
  rw [height_eq, height_eq, rewrite_Children]

theorem properFailure_none {Val Env E : Type} (V : VM Val Env E) :
    properFailure V none := by
  intro f h
  cases h

theorem properFailure_error {Val Env E : Type} (V : VM Val Env E) (e : String) :
    properFailure V (some (.error e)) := by
  intro f h
  injection h with h
  subst h
  exact ⟨by simp, fun _ => ⟨e, rfl⟩⟩

theorem printChildren_sound {Val Env E : Type} (V : VM Val Env E)
    (pn : Node → Env → Printed Node Env) (f : Nat)
    (hpn : ∀ c, c.height ≤ f → ∀ env,
      (pn c env).val.height = c.height ∧ properFailure V (pn c env).err) :
    ∀ (cs : List Node) (env : Env), Node.heightList cs ≤ f →
      Node.heightList (printChildren pn cs env).val = Node.heightList cs ∧
      properFailure V (printChildren pn cs env).err := by
  intro cs
  induction cs with
  | nil => intro env _; exact ⟨rfl, properFailure_none V⟩
  | cons c cs ih =>
    intro env h
    simp only [Node.heightList] at h
    have hc : c.height ≤ f := Nat.le_trans (Nat.le_max_left _ _) h
    have hcs : Node.heightList cs ≤ f := Nat.le_trans (Nat.le_max_right _ _) h
    obtain ⟨h1, h2⟩ := hpn c hc env
    cases hr : (pn c env).err with
    | some e =>
      simp only [printChildren, hr, Node.heightList, h1]
      rw [hr] at h2
      exact ⟨trivial, h2⟩
    | none =>
      obtain ⟨i1, i2⟩ := ih (pn c env).env hcs
      simp only [printChildren, hr, Node.heightList, h1, i1]
      exact ⟨trivial, i2⟩

theorem forLoop_sound {Val Env E : Type} (V : VM Val Env E)
    (pn : Node → Env → Printed Node Env) (x : String) (f : Nat)
    (hpn : ∀ c, c.height ≤ f → ∀ env,
      (pn c env).val.height = c.height ∧ properFailure V (pn c env).err) :
    ∀ (xs : List Val) (cs : List Node) (env : Env), Node.heightList cs ≤ f →
      Node.heightList (forLoop V pn x xs cs env).val = Node.heightList cs ∧
      properFailure V (forLoop V pn x xs cs env).err := by
  intro xs
  induction xs with
  | nil => intro cs env _; exact ⟨rfl, properFailure_none V⟩
  | cons a as ih =>
    intro cs env h
    obtain ⟨h1, h2⟩ := printChildren_sound V pn f hpn cs (V.set env x a) h
    cases hr : (printChildren pn cs (V.set env x a)).err with
    | some e =>
      simp only [forLoop, hr, h1]
      rw [hr] at h2
      exact ⟨trivial, h2⟩
    | none =>
      obtain ⟨i1, i2⟩ := ih (printChildren pn cs (V.set env x a)).val
        (printChildren pn cs (V.set env x a)).env (by rw [h1]; exact h)
      simp only [forLoop, hr, i1, h1]
      exact ⟨trivial, i2⟩

theorem printNode_sound {Val Env E : Type} (U : UnicodeTables) (V : VM Val Env E) (fuel : Nat) :
    ∀ (n : Node) (d : Nat) (env : Env), n.height ≤ fuel →
      (printNode U V fuel n d env).val.height = n.height ∧
      properFailure V (printNode U V fuel n d env).err := by
  induction fuel with
  | zero =>
    intro n d env h
    rw [height_eq] at h
    omega
  | succ fuel ih =>
    intro n d env h
    have hk : Node.heightList n.Children ≤ fuel := by
      rw [height_eq] at h
      omega
    have hpc := fun (d : Nat) (env : Env) => printChildren_sound V
      (fun c e => printNode U V fuel c d e) fuel (fun c hc env => ih c d env hc)
      n.Children env hk
    have hfl := fun (x : String) (xs : List Val) (env : Env) => forLoop_sound V
      (fun c e => printNode U V fuel c (d + 1) e) x fuel (fun c hc env => ih c (d + 1) env hc)
      xs n.Children env hk
    have hr := rewrite_height n
    have hn := height_eq n
    by_cases hname : n.Name = ""
    · simp only [printNode, hname, if_true]
      refine ⟨?_, (hpc d env).2⟩
      show Node.heightList _ + 1 = _
      rw [(hpc d env).1, hn]
    · simp only [printNode, hname, if_false, rewrite_Expr, rewrite_Children]
      by_cases hvoid : isEmptyElement (rewrite n).Name = true
      · simp only [hvoid, Bool.not_true, Bool.false_eq_true, if_false]
        split_ifs
        · exact ⟨hr, properFailure_none V⟩
        · exact ⟨hr, properFailure_none V⟩
      · simp only [Bool.not_eq_true] at hvoid
        simp only [hvoid, Bool.not_false, if_true]
        by_cases hexpr : n.Expr = ""
        · simp only [hexpr, ne_eq, not_true_eq_false, if_false]
          by_cases hlen : n.Children.length > 0
          · simp only [hlen, if_true]
            cases he : (printChildren (fun c e => printNode U V fuel c (d + 1) e)
                n.Children env).err with
            | some e =>
              have h2 := (hpc (d + 1) env).2
              rw [he] at h2
              refine ⟨?_, h2⟩
              show Node.heightList _ + 1 = _
              rw [(hpc (d + 1) env).1, hn]
            | none =>
              refine ⟨?_, properFailure_none V⟩
              show Node.heightList _ + 1 = _
              rw [(hpc (d + 1) env).1, hn]
          · simp only [hlen, if_false]
            split_ifs
            · exact ⟨hr, properFailure_none V⟩
            · exact ⟨hr, properFailure_none V⟩
        · simp only [hexpr, ne_eq, not_false_eq_true, if_true]
          cases hc : V.compile n.Expr with
          | error e => exact ⟨hr, properFailure_error V e⟩
          | ok ex =>
            cases ex with
            | other e =>
              simp only
              cases hev : V.eval e env with
              | error err => exact ⟨hr, properFailure_error V err⟩
              | ok r => exact ⟨hr, properFailure_none V⟩
            | ForExpr x y =>
              simp only
              cases hg : V.get env y with
              | none => exact ⟨hr, properFailure_error V _⟩
              | some v =>
                simp only
                cases hs : V.reflect v with
                | invalid =>
                  refine ⟨hr, ?_⟩
                  intro f hf
                  injection hf with hf
                  subst hf
                  exact ⟨by simp, fun hno => absurd hs (hno v)⟩
                | other => exact ⟨hr, properFailure_error V _⟩
                | seq elems =>
                  simp only
                  cases he : (forLoop V (fun c e => printNode U V fuel c (d + 1) e) x elems
                      n.Children env).err with
                  | some e =>
                    have h2 := (hfl x elems env).2
                    rw [he] at h2
                    refine ⟨?_, h2⟩
                    show Node.heightList _ + 1 = _
                    rw [(hfl x elems env).1, hn]
                  | none =>
                    refine ⟨?_, properFailure_none V⟩
                    show Node.heightList _ + 1 = _
                    rw [(hfl x elems env).1, hn]

/-! ### A failing expression that is reached -/

theorem printChildren_append_fail {Env : Type} (pn : Node → Env → Printed Node Env)
    (pre : List Node) (c : Node) (post : List Node) (e : Fault) :
    ∀ (env : Env), (printChildren pn pre env).err = none →
      (pn c (printChildren pn pre env).env).err = some e →
      (printChildren pn (pre ++ c :: post) env).err = some e := by
  induction pre with
  | nil =>
    intro env _ hc
    simp only [printChildren] at hc
    simp only [List.nil_append, printChildren, hc]
  | cons x xs ih =>
    intro env hpre hc
    have hx : (pn x env).err = none := by
      cases hx : (pn x env).err with
      | none => rfl
      | some e' =>
        simp only [printChildren, hx] at hpre
        cases hpre
    simp only [printChildren, hx] at hpre hc
    simp only [List.cons_append, printChildren, hx]
    exact ih _ hpre hc

theorem printChildren_prefix_fail {Env : Type} (pn : Node → Env → Printed Node Env)
    (pre rest : List Node) (e : Fault) :
    ∀ (env : Env), (printChildren pn pre env).err = some e →
      (printChildren pn (pre ++ rest) env).err = some e := by
  induction pre with
  | nil =>
    intro env h
    simp only [printChildren] at h
    cases h
  | cons x xs ih =>
    intro env h
    cases hx : (pn x env).err with
    | some e' =>
      simp only [printChildren, hx] at h
      simp only [List.cons_append, printChildren, hx]
      exact h
    | none =>
      simp only [printChildren, hx] at h
      simp only [List.cons_append, printChildren, hx]
      exact ih _ h

theorem forLoop_append_fail {Val Env E : Type} (V : VM Val Env E)
    (pn : Node → Env → Printed Node Env) (x : String) (xs : List Val) (a : Val)
    (ys : List Val) (e : Fault) :
    ∀ (cs : List Node) (env : Env), (forLoop V pn x xs cs env).err = none →
      (printChildren pn (forLoop V pn x xs cs env).val
        (V.set (forLoop V pn x xs cs env).env x a)).err = some e →
      (forLoop V pn x (xs ++ a :: ys) cs env).err = some e := by
  induction xs with
  | nil =>
    intro cs env _ hc
    simp only [forLoop] at hc
    simp only [List.nil_append, forLoop, hc]
  | cons b bs ih =>
    intro cs env hpre hc
    have hb : (printChildren pn cs (V.set env x b)).err = none := by
      cases hb : (printChildren pn cs (V.set env x b)).err with
      | none => rfl
      | some e' =>
        simp only [forLoop, hb] at hpre
        cases hpre
    simp only [forLoop, hb] at hpre hc
    simp only [List.cons_append, forLoop, hb]
    exact ih _ _ hpre hc

theorem forLoop_prefix_fail {Val Env E : Type} (V : VM Val Env E)
    (pn : Node → Env → Printed Node Env) (x : String) (xs rest : List Val) (e : Fault) :
    ∀ (cs : List Node) (env : Env), (forLoop V pn x xs cs env).err = some e →
      (forLoop V pn x (xs ++ rest) cs env).err = some e := by
  induction xs with
  | nil =>
    intro cs env h
    simp only [forLoop] at h
    cases h
  | cons b bs ih =>
    intro cs env h
    cases hb : (printChildren pn cs (V.set env x b)).err with
    | some e' =>
      simp only [forLoop, hb] at h
      simp only [List.cons_append, forLoop, hb]
      exact h
    | none =>
      simp only [forLoop, hb] at h
      simp only [List.cons_append, forLoop, hb]
      exact ih _ _ h

theorem printChildren_reaches {Env : Type} (pn : Node → Env → Printed Node Env)
    (pre : List Node) (c : Node) (post : List Node) (env : Env) (first : Bool) (msg : String)
    (hpre : first = true → (printChildren pn pre env).err = none)
    (hc : (printChildren pn pre env).err = none →
      (∃ f, (pn c (printChildren pn pre env).env).err = some f) ∧
      (first = true → (pn c (printChildren pn pre env).env).err = some (.error msg))) :
    (∃ f, (printChildren pn (pre ++ c :: post) env).err = some f) ∧
    (first = true → (printChildren pn (pre ++ c :: post) env).err = some (.error msg)) := by
  cases hp : (printChildren pn pre env).err with
  | none =>
    obtain ⟨⟨f, hf⟩, h1⟩ := hc hp
    exact ⟨⟨f, printChildren_append_fail pn pre c post f env hp hf⟩,
      fun h => printChildren_append_fail pn pre c post _ env hp (h1 h)⟩
  | some f =>
    refine ⟨⟨f, printChildren_prefix_fail pn pre (c :: post) f env hp⟩, fun h => ?_⟩
    rw [hpre h] at hp
    cases hp

theorem forLoop_reaches {Val Env E : Type} (V : VM Val Env E)
    (pn : Node → Env → Printed Node Env) (x : String) (xs : List Val) (a : Val)
    (ys : List Val) (cs : List Node) (env : Env) (first : Bool) (msg : String)
    (hloop : first = true → (forLoop V pn x xs cs env).err = none)
    (hc : (forLoop V pn x xs cs env).err = none →
      (∃ f, (printChildren pn (forLoop V pn x xs cs env).val
        (V.set (forLoop V pn x xs cs env).env x a)).err = some f) ∧
      (first = true → (printChildren pn (forLoop V pn x xs cs env).val
        (V.set (forLoop V pn x xs cs env).env x a)).err = some (.error msg))) :
    (∃ f, (forLoop V pn x (xs ++ a :: ys) cs env).err = some f) ∧
    (first = true → (forLoop V pn x (xs ++ a :: ys) cs env).err = some (.error msg)) := by
  cases hp : (forLoop V pn x xs cs env).err with
  | none =>
    obtain ⟨⟨f, hf⟩, h1⟩ := hc hp
    exact ⟨⟨f, forLoop_append_fail V pn x xs a ys f cs env hp hf⟩,
      fun h => forLoop_append_fail V pn x xs a ys _ cs env hp (h1 h)⟩
  | some f =>
    refine ⟨⟨f, forLoop_prefix_fail V pn x xs (a :: ys) f cs env hp⟩, fun h => ?_⟩
    rw [hloop h] at hp
    cases hp

theorem printNode_reaches {Val Env E : Type} (U : UnicodeTables) (V : VM Val Env E)
    (first : Bool) (msg : String) (fuel : Nat) (n : Node) (d : Nat) (env : Env)
    (h : Reaches U V first msg fuel n d env) :
    n.height ≤ fuel →
    (∃ f, (printNode U V fuel n d env).err = some f) ∧
    (first = true → (printNode U V fuel n d env).err = some (.error msg)) := by
  induction h with
  | here fuel n d env hname hvoid hfail =>
    intro _
    obtain ⟨hne, hcase⟩ := hfail
    have key : (printNode U V (fuel + 1) n d env).err = some (.error msg) := by
      simp only [printNode, hname, if_false, hvoid, rewrite_Expr, Bool.not_false, if_true,
        ne_eq, hne, not_false_eq_true]
      rcases hcase with hc | ⟨e, hc, he⟩ | ⟨x, y, hc, hg, hm⟩ | ⟨x, y, v, hc, hg, hr, hm⟩
      · simp only [hc]
      · simp only [hc, he]
      · simp only [hc, hg, hm]
      · simp only [hc, hg, hr, hm]
    exact ⟨⟨_, key⟩, fun _ => key⟩
  | group fuel n d env pre c post hname hkids hpre _ ih =>
    intro hh
    rw [height_eq, hkids] at hh
    have hch := (heightList_append pre c post fuel (by omega)).2
    have key := printChildren_reaches (fun c e => printNode U V fuel c d e) pre c post env
      first msg hpre (fun hp => ih hp hch)
    simp only [printNode, hname, if_true, hkids]
    exact key
  | element fuel n d env pre c post hname hvoid hexpr hkids hpre _ ih =>
    intro hh
    rw [height_eq, hkids] at hh
    have hch := (heightList_append pre c post fuel (by omega)).2
    have key := printChildren_reaches (fun c e => printNode U V fuel c (d + 1) e) pre c post
      env first msg hpre (fun hp => ih hp hch)
    have hlen : n.Children.length > 0 := by rw [hkids]; simp
    obtain ⟨⟨f, hf⟩, h1⟩ := key
    rw [← hkids] at hf h1
    refine ⟨⟨f, ?_⟩, fun hfi => ?_⟩
    · simp only [printNode, hname, if_false, hvoid, rewrite_Expr, rewrite_Children, hexpr,
        Bool.not_false, if_true, ne_eq, not_true_eq_false, hlen, hf]
    · simp only [printNode, hname, if_false, hvoid, rewrite_Expr, rewrite_Children, hexpr,
        Bool.not_false, if_true, ne_eq, not_true_eq_false, hlen, h1 hfi]
  | loop fuel n d env x y v xs a ys pre c post hname hvoid hexpr hcomp hget hseq hloop hkids
      hpre _ ih =>
    intro hh
    rw [height_eq] at hh
    have hk : Node.heightList n.Children ≤ fuel := by omega
    have hsound := forLoop_sound V (fun c e => printNode U V fuel c (d + 1) e) x fuel
      (fun c hc env => printNode_sound U V fuel c (d + 1) env hc) xs n.Children env hk
    have key := forLoop_reaches V (fun c e => printNode U V fuel c (d + 1) e) x xs a ys
      n.Children env first msg hloop (fun hp => by
        rw [hkids hp]
        have hch : c.height ≤ fuel := by
          have h1 := hsound.1
          rw [hkids hp] at h1
          exact (heightList_append pre c post fuel (by rw [h1]; exact hk)).2
        exact printChildren_reaches (fun c e => printNode U V fuel c (d + 1) e) pre c post _
          first msg hpre (fun hq => ih hp hq hch))
    obtain ⟨⟨f, hf⟩, h1⟩ := key
    refine ⟨⟨f, ?_⟩, fun hfi => ?_⟩
    · simp only [printNode, hname, if_false, hvoid, rewrite_Expr, rewrite_Children, hexpr,
        Bool.not_false, if_true, ne_eq, not_false_eq_true, hcomp, hget, hseq, hf]
    · simp only [printNode, hname, if_false, hvoid, rewrite_Expr, rewrite_Children, hexpr,
        Bool.not_false, if_true, ne_eq, not_false_eq_true, hcomp, hget, hseq, h1 hfi]

/-- C7, as stated, fails: an expression over an unbound variable is ignored,
and `Execute` succeeds, when it sits on a void element (line `br= foo`), on a
node with an empty name (the root, line `= foo`), or on a child of a node whose
own expression is interpolated (lines `p= bar`, `  b= foo`). The evaluator
reports an error for `foo` in the environment of each of these renders. -/
theorem C7_counterexample_unevaluated_expressions :
    identVM.compile " foo" = .ok (.other "foo") ∧
    identVM.eval "foo" [("bar", Value.str "baz")] = .error "unknown identifier: foo" ∧
    startEnv identVM (⟨tagNode "" [], []⟩ : Template Value) (.map [("bar", .str "baz")])
      = ([("bar", Value.str "baz")], none) ∧
    (Parse noTables ⟨["br= foo"], none⟩ : Except Fault (Template Value)) =
      .ok ⟨tagNode "" [⟨"br", "", [], [], "", " foo", []⟩], []⟩ ∧
    (Execute noTables identVM
      (⟨tagNode "" [⟨"br", "", [], [], "", " foo", []⟩], []⟩ : Template Value)
      (.map [("bar", .str "baz")])).erase.2 = ("<br/>\n", none) ∧
    (Parse noTables ⟨["= foo"], none⟩ : Except Fault (Template Value)) =
      .ok ⟨⟨"", "", [], [], "", " foo", []⟩, []⟩ ∧
    (Execute noTables identVM (⟨⟨"", "", [], [], "", " foo", []⟩, []⟩ : Template Value)
      (.map [("bar", .str "baz")])).erase.2 = ("", none) ∧
    (Parse noTables ⟨["p= bar", "  b= foo"], none⟩ : Except Fault (Template Value)) =
      .ok ⟨tagNode "" [⟨"p", "", [], [], "", " bar",
        [⟨"b", "", [], [], "", " foo", []⟩]⟩], []⟩ ∧
    (Execute noTables identVM
      (⟨tagNode "" [⟨"p", "", [], [], "", " bar", [⟨"b", "", [], [], "", " foo", []⟩]⟩], []⟩ :
        Template Value)
      (.map [("bar", .str "baz")])).erase.2 = ("<p>baz</p>\n", none) := by
  decide!

/-- C7, amended: a failing expression that rendering reaches makes `Execute`
fail. For every template and every context that `Execute` can read (nil, a
map, a struct of exported fields, a value of another kind): if a node has a
non-empty name and is not rendered as a void element; each of its ancestors
has an empty name, or is a non-void element without expression, or is a
non-void element whose expression is an iteration over a sequence, the node
lying in the pass for one of its elements; and the node's expression fails in
the environment in which rendering arrives at it when the renderings before it
(the earlier children of each ancestor, the earlier passes of each loop)
succeed (it does not compile, its evaluation reports an error as for an
unbound variable, or it is an iteration whose source variable is unbound or
bound to a value that is neither nil nor a sequence), then `Execute` does not
succeed: it returns an error or aborts with a run-time panic, and it returns
an error when the evaluator holds no nil value. When moreover the renderings
before the node all succeed (`first = true`), the error returned is the one of
the node's expression. -/
theorem C7_reached_expression_failure {Val Env E : Type} (U : UnicodeTables) (V : VM Val Env E)
    (t : Template Val) (value : Context Val) (first : Bool) (msg : String)
    (hv : value.readable = true)
    (h : Reaches U V first msg t.root.height t.root 0 (startEnv V t value).1) :
    (∃ f, (Execute U V t value).err = some f ∧ f ≠ .exhausted ∧
      ((∀ v, V.reflect v ≠ .invalid) → ∃ e, f = .error e)) ∧
    (first = true → (Execute U V t value).err = some (.error msg)) := by
  rw [Execute_readable U V t value hv]
  obtain ⟨⟨f, hf⟩, h1⟩ := printNode_reaches U V first msg _ _ _ _ h (Nat.le_refl _)
  have hs := (printNode_sound U V t.root.height t.root 0 (startEnv V t value).1
    (Nat.le_refl _)).2 f hf
  exact ⟨⟨f, hf, hs.1, hs.2⟩, h1⟩

/-- Witness of C7 amended. The lines `p= bar`, `q= foo` rendered with the
context `bar = baz`: the first expression is rendered, the second fails on the
unbound `foo`, and that error is returned. The lines `ul= for x in xs`,
`  li= foo` with `xs` bound to `a`, `b`: the expression under the loop fails
in the first pass. The lines `p= zed`, `q= foo` with the same context: the
expression of `q` comes after one that fails, and `Execute` returns an error. -/
theorem C7_reached_expression_failure_witness :
    (Parse noTables ⟨["p= bar", "q= foo"], none⟩ : Except Fault (Template Value)) =
      .ok ⟨tagNode "" [⟨"p", "", [], [], "", " bar", []⟩, ⟨"q", "", [], [], "", " foo", []⟩],
        []⟩ ∧
    (Execute noTables identVM
      (⟨tagNode "" [⟨"p", "", [], [], "", " bar", []⟩, ⟨"q", "", [], [], "", " foo", []⟩], []⟩ :
        Template Value)
      (.map [("bar", .str "baz")])).err = some (.error "unknown identifier: foo") ∧
    (Execute noTables identVM
      (⟨tagNode "" [⟨"ul", "", [], [], "", " for x in xs",
          [⟨"li", "", [], [], "", " foo", []⟩]⟩], []⟩ : Template Value)
      (.map [("xs", .strs ["a", "b"])])).err = some (.error "unknown identifier: foo") ∧
    (∃ f, (Execute noTables identVM
      (⟨tagNode "" [⟨"p", "", [], [], "", " zed", []⟩, ⟨"q", "", [], [], "", " foo", []⟩], []⟩ :
        Template Value)
      (.map [("bar", .str "baz")])).err = some f ∧ f ≠ .exhausted ∧
      ((∀ v, identVM.reflect v ≠ .invalid) → ∃ e, f = .error e)) :=
  ⟨by decide!,
   (C7_reached_expression_failure noTables identVM
    (⟨tagNode "" [⟨"p", "", [], [], "", " bar", []⟩, ⟨"q", "", [], [], "", " foo", []⟩], []⟩ :
      Template Value)
    (.map [("bar", .str "baz")]) true "unknown identifier: foo" rfl
    (.group 1 _ 0 _ [⟨"p", "", [], [], "", " bar", []⟩] ⟨"q", "", [], [], "", " foo", []⟩ []
      rfl rfl (fun _ => by decide!)
      (fun _ => .here 0 _ 0 _ (by decide) (by decide!)
        ⟨by decide, Or.inr (Or.inl ⟨"foo", by decide!, by decide!⟩)⟩))).2 rfl,
   (C7_reached_expression_failure noTables identVM
    (⟨tagNode "" [⟨"ul", "", [], [], "", " for x in xs",
        [⟨"li", "", [], [], "", " foo", []⟩]⟩], []⟩ : Template Value)
    (.map [("xs", .strs ["a", "b"])]) true "unknown identifier: foo" rfl
    (.group 2 _ 0 _ [] ⟨"ul", "", [], [], "", " for x in xs",
        [⟨"li", "", [], [], "", " foo", []⟩]⟩ [] rfl rfl (fun _ => by decide!)
      (fun _ => .loop 1 _ 0 _ "x" "xs" (.strs ["a", "b"]) [] (.str "a") [.str "b"] []
        ⟨"li", "", [], [], "", " foo", []⟩ [] (by decide) (by decide!) (by decide)
        (by decide!) (by decide!) (by decide!) (fun _ => by decide!) (fun _ => by decide!)
        (fun _ => by decide!)
        (fun _ _ => .here 0 _ 1 _ (by decide) (by decide!)
          ⟨by decide, Or.inr (Or.inl ⟨"foo", by decide!, by decide!⟩)⟩)))).2 rfl,
   (C7_reached_expression_failure noTables identVM
    (⟨tagNode "" [⟨"p", "", [], [], "", " zed", []⟩, ⟨"q", "", [], [], "", " foo", []⟩], []⟩ :
      Template Value)
    (.map [("bar", .str "baz")]) false "unknown identifier: foo" rfl
    (.group 1 _ 0 _ [⟨"p", "", [], [], "", " zed", []⟩] ⟨"q", "", [], [], "", " foo", []⟩ []
      rfl rfl (fun h => by cases h)
      (fun h => absurd h (by decide!)))).1⟩

/-! ### Rendering one node -/

theorem rewrite_of_plain_name (n : Node) (h1 : n.Name ≠ "doctype") (h2 : endsColon n.Name = false) :
    rewrite n = n := by
  unfold rewrite
  simp [h1, h2]

theorem isEmptyElement_doctype (name : String) (h : isEmptyElement name = false) :
    name ≠ "doctype" := by
  intro hd
  rw [hd] at h
  revert h
  decide

theorem join_cons (a : String) (l : List String) :
    String.join (a :: l) = a ++ String.join l := by
  apply String.ext
  simp [String.join_eq, String.data_append]

theorem indentStr_eq (d : Nat) : indentStr d = ⟨List.replicate (2 * d) ' '⟩ := by
  rw [indentStr, Nat.mul_comm]

theorem classText_eq (cs : List String) :
    classText cs = (if cs ≠ [] then " class=\"" ++ " ".intercalate cs ++ "\"" else "") := by
  simp only [classText]
  cases cs with
  | nil => rfl
  | cons c cs => simp

/-- C8: a non-void node with a non-empty name not ending in `:` whose
expression compiles to a plain (non-iteration) expression that evaluates to
`r` is rendered at depth `d` on one line: exactly `2 * d` spaces, the open
tag, `>`, the text of `r`, the node's Text, the closing tag and a newline.
Nothing stands between `>` and the closing tag but these two texts, the
children are not rendered, and the node and the environment are left as they
were. -/
theorem C8_inline_interpolation {Val Env E : Type} (U : UnicodeTables) (V : VM Val Env E)
    (fuel : Nat) (n : Node) (d : Nat) (env : Env) (e : E) (r : Val)
    (hname : n.Name ≠ "") (hcolon : endsColon n.Name = false)
    (hvoid : isEmptyElement n.Name = false) (hexpr : n.Expr ≠ "")
    (hc : V.compile n.Expr = .ok (.other e)) (he : V.eval e env = .ok r) :
    printNode U V (fuel + 1) n d env =
      ⟨n, env, (⟨List.replicate (2 * d) ' '⟩ : String) ++ "<" ++ n.Name
          ++ (if n.Id ≠ "" then " id=\"" ++ n.Id ++ "\"" else "")
          ++ (if n.Class ≠ [] then " class=\"" ++ " ".intercalate n.Class ++ "\"" else "")
          ++ String.join (n.Attr.map (attrText U))
          ++ ">" ++ V.sprint r ++ n.Text ++ "</" ++ n.Name ++ ">\n", none⟩ := by
  have hd : n.Name ≠ "doctype" := isEmptyElement_doctype n.Name hvoid
  have hclass : classText n.Class =
      (if n.Class ≠ [] then " class=\"" ++ " ".intercalate n.Class ++ "\"" else "") := by
    simp only [classText]
    cases n.Class with
    | nil => rfl
    | cons c cs => simp
  rw [← indentStr_eq, ← hclass]
  simp only [printNode, hname, if_false, rewrite_of_plain_name n hd hcolon, hvoid, hexpr, hc, he,
    openTag, hd, decide_False, Bool.not_false, if_true, ne_eq, not_false_eq_true,
    Bool.false_eq_true]

/-- Witness of C8: the node of the line `p= foo` with `foo` bound to `bar`
renders as `<p>bar</p>`; a `p` at depth 2 with an Id, a class, an attribute, a
Text and a child renders on one line after four spaces, without the child. -/
theorem C8_inline_interpolation_witness :
    printNode noTables identVM 1 ⟨"p", "", [], [], "", " foo", []⟩ 0
        [("foo", Value.str "bar")] =
      ⟨⟨"p", "", [], [], "", " foo", []⟩, [("foo", Value.str "bar")], "<p>bar</p>\n", none⟩ ∧
    printNode noTables identVM 1
        ⟨"p", "x", ["c", "d"], [⟨"a", "b"⟩], "!", " foo", [tagNode "b" []]⟩ 2
        [("foo", Value.str "bar")] =
      ⟨⟨"p", "x", ["c", "d"], [⟨"a", "b"⟩], "!", " foo", [tagNode "b" []]⟩,
        [("foo", Value.str "bar")],
        "    <p id=\"x\" class=\"c d\" a=\"b\">bar!</p>\n", none⟩ :=
  ⟨(C8_inline_interpolation noTables identVM 0 ⟨"p", "", [], [], "", " foo", []⟩ 0
      [("foo", Value.str "bar")] "foo" (Value.str "bar") (by decide!) (by decide!) (by decide!)
      (by decide!) (by decide!) (by decide!)).trans (by decide!),
   (C8_inline_interpolation noTables identVM 0
      ⟨"p", "x", ["c", "d"], [⟨"a", "b"⟩], "!", " foo", [tagNode "b" []]⟩ 2
      [("foo", Value.str "bar")] "foo" (Value.str "bar") (by decide!) (by decide!) (by decide!)
      (by decide!) (by decide!) (by decide!)).trans (by decide!)⟩

theorem rewrite_Attr_of_ne (n : Node) (hd : n.Name ≠ "doctype") : (rewrite n).Attr = n.Attr := by
  unfold rewrite
  simp only [hd, if_false]
  split_ifs <;> rfl

theorem not_doctype_of_not_void (n : Node) (h : isEmptyElement (rewrite n).Name = false) :
    n.Name ≠ "doctype" := by
  intro hd
  have hr : (rewrite n).Name = "doctype" := by simp [rewrite, hd]
  rw [hr] at h
  revert h
  decide

/-- C9 does not hold as stated: the rendering of a child can fail, and then the
loop stops. A `ul` with the expression `for x in foo`, `foo` bound to the
sequence `a`, `b`, and the child `li` with the expression `y`, where `y` is
unbound: `printNode` writes `<ul>`, a newline and the open tag of the first
`li`, and returns the error of `y`; no Text and no closing tag are written. -/
theorem C9_counterexample_failing_child :
    identVM.compile " for x in foo" = .ok (.ForExpr "x" "foo") ∧
    identVM.get [("foo", Value.strs ["a", "b"])] "foo" = some (Value.strs ["a", "b"]) ∧
    identVM.reflect (Value.strs ["a", "b"]) = .seq [Value.str "a", Value.str "b"] ∧
    (printNode noTables identVM 2
      ⟨"ul", "", [], [], "", " for x in foo", [⟨"li", "", [], [], "", " y", []⟩]⟩ 0
      [("foo", Value.strs ["a", "b"])]).out = "<ul>\n  <li>" ∧
    (printNode noTables identVM 2
      ⟨"ul", "", [], [], "", " for x in foo", [⟨"li", "", [], [], "", " y", []⟩]⟩ 0
      [("foo", Value.strs ["a", "b"])]).err = some (.error "unknown identifier: y") := by
  decide!

/-- C9, amended: a named node that is not rendered as a void element (its
name, after `printNode` has cut a trailing `:`, is not in the registry) and
whose expression compiles to the iteration form `for x in y`, with `y` bound to
a sequence `e1..ek`, is rendered at depth `d`, when every rendering of a child
in the loop succeeds, as: exactly `2 * d` spaces, the open tag, `>` and a
newline; then, for `i = 1..k` in sequence order, the renderings at depth
`d + 1` of all the node's children in document order, the first child in the
environment in which `x` is set to `ei` and each next one in the environment
the rendering before it left; then the node's Text, `2 * d` spaces and the
closing tag with a newline. No error is returned. -/
theorem C9_iteration {Val Env E : Type} (U : UnicodeTables) (V : VM Val Env E)
    (fuel : Nat) (n : Node) (d : Nat) (env : Env) (x y : String) (v : Val) (elems : List Val)
    (hname : n.Name ≠ "") (hvoid : isEmptyElement (rewrite n).Name = false)
    (hexpr : n.Expr ≠ "")
    (hc : V.compile n.Expr = .ok (.ForExpr x y)) (hget : V.get env y = some v)
    (hseq : V.reflect v = .seq elems)
    (hok : (perElement V (fun c e => printNode U V fuel c (d + 1) e) x elems n.Children env).err
      = none) :
    printNode U V (fuel + 1) n d env =
      ⟨{ rewrite n with Children :=
          (perElement V (fun c e => printNode U V fuel c (d + 1) e) x elems n.Children env).val },
        (perElement V (fun c e => printNode U V fuel c (d + 1) e) x elems n.Children env).env,
        (⟨List.replicate (2 * d) ' '⟩ : String) ++ "<" ++ (rewrite n).Name
          ++ (if n.Id ≠ "" then " id=\"" ++ n.Id ++ "\"" else "")
          ++ (if n.Class ≠ [] then " class=\"" ++ " ".intercalate n.Class ++ "\"" else "")
          ++ String.join (n.Attr.map (attrText U))
          ++ ">" ++ "\n"
          ++ (perElement V (fun c e => printNode U V fuel c (d + 1) e) x elems
              n.Children env).out
          ++ n.Text ++ (⟨List.replicate (2 * d) ' '⟩ : String)
          ++ "</" ++ (rewrite n).Name ++ ">\n", none⟩ := by
  have hd : n.Name ≠ "doctype" := not_doctype_of_not_void n hvoid
  have hfor := forLoop_perElement V (fun c e => printNode U V fuel c (d + 1) e) x elems
    n.Children env hok
  rw [← indentStr_eq, ← classText_eq, ← hfor]
  rw [← hfor] at hok
  simp only [printNode, hname, if_false, hvoid, hexpr, hc, hget, hseq, hok, openTag, hd,
    decide_False, Bool.not_false, if_true, ne_eq, not_false_eq_true, Bool.false_eq_true,
    rewrite_Expr, rewrite_Children, rewrite_Text, rewrite_Id, rewrite_Class,
    rewrite_Attr_of_ne n hd]

/-- Witness of C9 amended: a `ul` with the expression `for x in foo` and the
one child `li` with the expression `x`, with `foo` bound to `foo`, `bar`,
`baz`, renders one `li` per element, in that order; at depth 1, with an Id, a
class, an attribute, the two children `li` and `hr` and the Text `!`, every
pass renders both children in document order, four spaces deep; a node named
`ul:` is rendered under the name `ul`. -/
theorem C9_iteration_witness :
    (printNode noTables identVM 2
      ⟨"ul", "", [], [], "", " for x in foo", [⟨"li", "", [], [], "", " x", []⟩]⟩ 0
      [("foo", Value.strs ["foo", "bar", "baz"])]).out
      = "<ul>\n  <li>foo</li>\n  <li>bar</li>\n  <li>baz</li>\n</ul>\n" ∧
    (printNode noTables identVM 2
      ⟨"ul", "m", ["k"], [⟨"a", "b"⟩], "!", " for x in foo",
        [⟨"li", "", [], [], "", " x", []⟩, tagNode "hr" []]⟩ 1
      [("foo", Value.strs ["foo", "bar"])]).out
      = "  <ul id=\"m\" class=\"k\" a=\"b\">\n    <li>foo</li>\n    <hr/>\n    <li>bar</li>\n    <hr/>\n!  </ul>\n" ∧
    (printNode noTables identVM 2
      ⟨"ul:", "", [], [], "", " for x in foo", [⟨"li", "", [], [], "", " x", []⟩]⟩ 0
      [("foo", Value.strs ["foo"])]).out
      = "<ul>\n  <li>foo</li>\n</ul>\n" :=
  ⟨(congrArg Printed.out (C9_iteration noTables identVM 1
      ⟨"ul", "", [], [], "", " for x in foo", [⟨"li", "", [], [], "", " x", []⟩]⟩ 0
      [("foo", Value.strs ["foo", "bar", "baz"])] "x" "foo" (Value.strs ["foo", "bar", "baz"])
      [Value.str "foo", Value.str "bar", Value.str "baz"]
      (by decide!) (by decide!) (by decide!) (by decide!) (by decide!) (by decide!)
      (by decide!))).trans (by decide!),
   (congrArg Printed.out (C9_iteration noTables identVM 1
      ⟨"ul", "m", ["k"], [⟨"a", "b"⟩], "!", " for x in foo",
        [⟨"li", "", [], [], "", " x", []⟩, tagNode "hr" []]⟩ 1
      [("foo", Value.strs ["foo", "bar"])] "x" "foo" (Value.strs ["foo", "bar"])
      [Value.str "foo", Value.str "bar"]
      (by decide!) (by decide!) (by decide!) (by decide!) (by decide!) (by decide!)
      (by decide!))).trans (by decide!),
   (congrArg Printed.out (C9_iteration noTables identVM 1
      ⟨"ul:", "", [], [], "", " for x in foo", [⟨"li", "", [], [], "", " x", []⟩]⟩ 0
      [("foo", Value.strs ["foo"])] "x" "foo" (Value.strs ["foo"]) [Value.str "foo"]
      (by decide!) (by decide!) (by decide!) (by decide!) (by decide!) (by decide!)
      (by decide!))).trans (by decide!)⟩
theorem void_name_facts (name : String) (h : name ∈ emptyElement) :
    name ≠ "" ∧ endsColon name = false ∧ isEmptyElement name = true ∧
      ∃ (p : List Char) (c : Char), name.data = p ++ [c] ∧ c ≠ '/' := by
  simp only [emptyElement, List.mem_cons, List.mem_singleton, List.not_mem_nil, or_false] at h
  rcases h with h | h | h | h | h | h | h | h | h | h | h | h | h | h | h | h | h <;> subst h
  · exact ⟨by decide, by decide, by decide, "doctyp".data, 'e', by decide, by decide⟩
  · exact ⟨by decide, by decide, by decide, "are".data, 'a', by decide, by decide⟩
  · exact ⟨by decide, by decide, by decide, "bas".data, 'e', by decide, by decide⟩
  · exact ⟨by decide, by decide, by decide, "basefon".data, 't', by decide, by decide⟩
  · exact ⟨by decide, by decide, by decide, "b".data, 'r', by decide, by decide⟩
  · exact ⟨by decide, by decide, by decide, "co".data, 'l', by decide, by decide⟩
  · exact ⟨by decide, by decide, by decide, "fram".data, 'e', by decide, by decide⟩
  · exact ⟨by decide, by decide, by decide, "h".data, 'r', by decide, by decide⟩
  · exact ⟨by decide, by decide, by decide, "im".data, 'g', by decide, by decide⟩
  · exact ⟨by decide, by decide, by decide, "inpu".data, 't', by decide, by decide⟩
  · exact ⟨by decide, by decide, by decide, "isinde".data, 'x', by decide, by decide⟩
  · exact ⟨by decide, by decide, by decide, "lin".data, 'k', by decide, by decide⟩
  · exact ⟨by decide, by decide, by decide, "met".data, 'a', by decide, by decide⟩
  · exact ⟨by decide, by decide, by decide, "para".data, 'm', by decide, by decide⟩
  · exact ⟨by decide, by decide, by decide, "embe".data, 'd', by decide, by decide⟩
  · exact ⟨by decide, by decide, by decide, "keyge".data, 'n', by decide, by decide⟩
  · exact ⟨by decide, by decide, by decide, "comman".data, 'd', by decide, by decide⟩

theorem suffix_third (l1 l2 A B : List Char) (a a' b c : Char)
    (h1 : l1 = A ++ [a, b, c]) (h2 : l2 = B ++ [a', b, c]) (h : l2 <:+ l1) : a' = a := by
  subst h1 h2
  obtain ⟨t, ht⟩ := h
  have := congrArg List.reverse ht
  simp only [List.reverse_append, List.reverse_cons, List.reverse_nil, List.nil_append,
    List.cons_append, List.append_assoc, List.singleton_append, List.cons.injEq] at this
  exact this.2.2.1

/-- The text written for a void element: the open tag, then `>` for a doctype
(whose attributes are suppressed) and `/>` otherwise, and a newline. -/
theorem printNode_void {Val Env E : Type} (U : UnicodeTables) (V : VM Val Env E) (fuel : Nat)
    (n : Node) (d : Nat) (env : Env) (h : n.Name ∈ emptyElement) :
    printNode U V (fuel + 1) n d env =
      ⟨if n.Name = "doctype" then { n with Attr := [] } else n, env,
        if n.Name = "doctype" then
          indentStr d ++ "<!doctype html"
            ++ (if n.Id ≠ "" then " id=\"" ++ n.Id ++ "\"" else "") ++ classText n.Class ++ ">\n"
        else
          indentStr d ++ "<" ++ n.Name
            ++ (if n.Id ≠ "" then " id=\"" ++ n.Id ++ "\"" else "") ++ classText n.Class
            ++ String.join (n.Attr.map (attrText U)) ++ "/>\n",
        none⟩ := by
  obtain ⟨h1, h2, h3, -⟩ := void_name_facts n.Name h
  by_cases hd : n.Name = "doctype"
  · have hr : rewrite n = { n with Attr := [] } := by simp [rewrite, hd]
    have hv : isEmptyElement "doctype" = true := by decide
    have e : indentStr d ++ "<!" ++ "doctype" ++ " html" = indentStr d ++ "<!doctype html" := by
      rw [String.append_assoc, String.append_assoc]
      congr 1
    simp [printNode, hd, hr, hv, openTag, String.join, e]
  · have hr : rewrite n = n := rewrite_of_plain_name n hd h2
    simp [printNode, h1, hd, hr, h3, openTag]

/-- C10 does not hold as stated: the output of a void element can contain the
text of its closing tag. The line `br </br>=x` parses to a `br` with the
attribute named `</br>`, which is rendered as `<br </br>="x"/>`; the text
`</br>` occurs in that output, inside the open tag. -/
theorem C10_counterexample_closing_tag_text :
    (Parse noTables ⟨["br </br>=x"], none⟩ : Except Fault (Template Unit)) =
      .ok ⟨tagNode "" [⟨"br", "", [], [⟨"</br>", "x"⟩], "", "", []⟩], []⟩ ∧
    (printNode noTables unitVM 1 ⟨"br", "", [], [⟨"</br>", "x"⟩], "", "", []⟩ 0 ()).err = none ∧
    (printNode noTables unitVM 1 ⟨"br", "", [], [⟨"</br>", "x"⟩], "", "", []⟩ 0 ()).out =
      "<br </br>=\"x\"/>\n" ∧
    "<br </br>=\"x\"/>\n" = "<br " ++ ("</" ++ "br" ++ ">") ++ "=\"x\"/>\n" := by
  decide!

/-- C10, amended: a node named by one of the 17 registry names is rendered at
depth `d` without error as exactly `2 * d` spaces, the open tag and `/>` plus
newline (`>` plus newline for doctype, whose attributes are not written), and
nothing else: no closing tag follows the open tag, so the output does not end
with `</name>` and a newline. The output does not depend on the node's Text,
Expr and Children, on the evaluator or on its environment (the expression is
neither compiled nor evaluated), and the environment is left as it was. -/
theorem C10_void_elements {Val Env E : Type} (U : UnicodeTables) (V : VM Val Env E)
    (fuel : Nat) (n : Node) (d : Nat) (env : Env) (h : n.Name ∈ emptyElement) :
    (printNode U V (fuel + 1) n d env).err = none ∧
    (printNode U V (fuel + 1) n d env).env = env ∧
    (printNode U V (fuel + 1) n d env).out =
      (if n.Name = "doctype" then
        (⟨List.replicate (2 * d) ' '⟩ : String) ++ "<!doctype html"
          ++ (if n.Id ≠ "" then " id=\"" ++ n.Id ++ "\"" else "")
          ++ (if n.Class ≠ [] then " class=\"" ++ " ".intercalate n.Class ++ "\"" else "")
          ++ ">\n"
      else
        (⟨List.replicate (2 * d) ' '⟩ : String) ++ "<" ++ n.Name
          ++ (if n.Id ≠ "" then " id=\"" ++ n.Id ++ "\"" else "")
          ++ (if n.Class ≠ [] then " class=\"" ++ " ".intercalate n.Class ++ "\"" else "")
          ++ String.join (n.Attr.map (attrText U)) ++ "/>\n") ∧
    (∀ (Val' Env' E' : Type) (V' : VM Val' Env' E') (env' : Env') (fuel' : Nat)
        (text expr : String) (children : List Node),
      (printNode U V' (fuel' + 1)
        { n with Text := text, Expr := expr, Children := children } d env').out =
      (printNode U V (fuel + 1) n d env).out) ∧
    ¬ ("</" ++ n.Name ++ ">\n").data <:+ (printNode U V (fuel + 1) n d env).out.data := by
  rw [← indentStr_eq, ← classText_eq]
  have hp := printNode_void U V fuel n d env h
  refine ⟨by rw [hp], by rw [hp], by rw [hp], ?_, ?_⟩
  · intro Val' Env' E' V' env' fuel' text expr children
    rw [hp, printNode_void U V' fuel'
      { n with Text := text, Expr := expr, Children := children } d env' h]
  · obtain ⟨-, -, -, p, c, hpc, hc⟩ := void_name_facts n.Name h
    rw [hp]
    intro hs
    by_cases hd : n.Name = "doctype"
    · simp only [hd, if_true] at hs
      have key : ∃ (A : List Char) (a : Char), a ≠ 'e' ∧
          (indentStr d ++ "<!doctype html"
            ++ (if n.Id ≠ "" then " id=\"" ++ n.Id ++ "\"" else "") ++ classText n.Class
            ++ ">\n").data = A ++ [a, '>', '\n'] := by
        by_cases hcl : n.Class.length > 0
        · refine ⟨(indentStr d ++ "<!doctype html"
              ++ (if n.Id ≠ "" then " id=\"" ++ n.Id ++ "\"" else "")).data
              ++ (" class=\"" ++ " ".intercalate n.Class).data, '"', by decide, ?_⟩
          simp only [classText, hcl, if_true, String.data_append]
          simp only [List.append_assoc, List.singleton_append, List.cons_append, List.nil_append]
        · by_cases hid : n.Id ≠ ""
          · refine ⟨(indentStr d ++ "<!doctype html").data ++ (" id=\"" ++ n.Id).data, '"',
              by decide, ?_⟩
            simp only [classText, hcl, hid, if_true, if_false, String.data_append, ne_eq,
              not_false_eq_true]
            simp only [List.append_assoc, List.singleton_append, List.append_nil,
              List.cons_append, List.nil_append]
          · refine ⟨(indentStr d).data ++ "<!doctype htm".data, 'l', by decide, ?_⟩
            simp only [classText, hcl, hid, if_false, String.data_append]
            simp only [List.append_assoc, List.singleton_append, List.append_nil,
              List.cons_append, List.nil_append]
      obtain ⟨A, a, ha, hA⟩ := key
      exact ha (suffix_third _ _ A "</doctyp".data a 'e' '>' '\n' hA
        (by decide) hs).symm
    · simp only [hd, if_false] at hs
      refine hc (suffix_third _ _ (indentStr d ++ "<" ++ n.Name
        ++ (if n.Id ≠ "" then " id=\"" ++ n.Id ++ "\"" else "") ++ classText n.Class
        ++ String.join (n.Attr.map (attrText U))).data ('<' :: '/' :: p) '/' c '>' '\n' ?_ ?_ hs)
      · simp only [String.data_append]
      · simp only [String.data_append, hpc]
        simp

/-- Witness of C10 amended: at depth 2 a `br` with Id, Class, an attribute,
Text, an expression over an unbound variable and a child renders as one
self-closed tag after four spaces, and a `doctype` with an attribute as
`<!doctype html>` after four spaces. -/
theorem C10_void_elements_witness :
    "br" ∈ emptyElement ∧ "doctype" ∈ emptyElement ∧
    (printNode noTables identVM 1
      ⟨"br", "x", ["c"], [⟨"a", "b"⟩], "text", " foo", [tagNode "p" []]⟩ 2 []).err = none ∧
    (printNode noTables identVM 1
      ⟨"br", "x", ["c"], [⟨"a", "b"⟩], "text", " foo", [tagNode "p" []]⟩ 2 []).out
      = "    <br id=\"x\" class=\"c\" a=\"b\"/>\n" ∧
    (printNode noTables identVM 1
      ⟨"doctype", "", [], [⟨"a", "b"⟩], "text", " foo", [tagNode "p" []]⟩ 2 []).out
      = "    <!doctype html>\n" :=
  ⟨by decide, by decide,
   (C10_void_elements noTables identVM 0
    ⟨"br", "x", ["c"], [⟨"a", "b"⟩], "text", " foo", [tagNode "p" []]⟩ 2 [] (by decide)).1,
   (C10_void_elements noTables identVM 0
    ⟨"br", "x", ["c"], [⟨"a", "b"⟩], "text", " foo", [tagNode "p" []]⟩ 2 []
      (by decide)).2.2.1.trans (by decide!),
   (C10_void_elements noTables identVM 0
    ⟨"doctype", "", [], [⟨"a", "b"⟩], "text", " foo", [tagNode "p" []]⟩ 2 []
      (by decide)).2.2.1.trans (by decide!)⟩

/-! ### Claims C11 to C20 -/

theorem Execute_of_run {Val Env E : Type} (U : UnicodeTables) (V : VM Val Env E)
    (root : Node) (fm : List (String × Val)) (value : Context Val) (root' : Node) (out : String)
    (err : Option Fault) (hv : value.readable = true) (h : root.plain = true)
    (hrun : (printNode noTables unitVM root.height root 0 ()).erase = (root', out, err)) :
    (Execute U V ⟨root, fm⟩ value).val = ⟨root', fm⟩ ∧ (Execute U V ⟨root, fm⟩ value).out = out ∧
      (Execute U V ⟨root, fm⟩ value).err = err := by
  have h1 := Execute_plain U V ⟨root, fm⟩ value hv h
  rw [show (⟨root, fm⟩ : Template Val).root = root from rfl, hrun] at h1
  simp only [Prod.mk.injEq] at h1
  refine ⟨?_, h1.2.1, h1.2.2⟩
  have hfm : (Execute U V ⟨root, fm⟩ value).val.fm = fm := by
    rw [Execute_readable U V ⟨root, fm⟩ value hv]
  cases hx : (Execute U V ⟨root, fm⟩ value).val with
  | mk r f =>
    rw [hx] at hfm h1
    simp only at hfm h1
    rw [hfm, h1.1]

/-- C12: `Execute` changes the template. With every context that `Execute`
can read (nil, a map, a struct of exported fields, a value of another kind):
after rendering the template of the line `a:` the node is named `a`; after
rendering the template of the line `javascript:` it is named `script`; after
rendering the template of the line `doctype a=b` the doctype node has lost its
attribute. -/
theorem C12_execute_rewrites_nodes {Val Env E : Type} (U : UnicodeTables) (V : VM Val Env E)
    (value : Context Val) (hv : value.readable = true) :
    (Parse U ⟨["a:"], none⟩ : Except Fault (Template Val)) =
      .ok ⟨tagNode "" [tagNode "a:" []], []⟩ ∧
    (Execute U V (⟨tagNode "" [tagNode "a:" []], []⟩ : Template Val) value).val =
      ⟨tagNode "" [tagNode "a" []], []⟩ ∧
    (Parse U ⟨["javascript:"], none⟩ : Except Fault (Template Val)) =
      .ok ⟨tagNode "" [tagNode "javascript:" []], []⟩ ∧
    (Execute U V (⟨tagNode "" [tagNode "javascript:" []], []⟩ : Template Val) value).val =
      ⟨tagNode "" [tagNode "script" []], []⟩ ∧
    (Parse U ⟨["doctype a=b"], none⟩ : Except Fault (Template Val)) =
      .ok ⟨tagNode "" [⟨"doctype", "", [], [⟨"a", "b"⟩], "", "", []⟩], []⟩ ∧
    (Execute U V (⟨tagNode "" [⟨"doctype", "", [], [⟨"a", "b"⟩], "", "", []⟩], []⟩ :
        Template Val) value).val =
      ⟨tagNode "" [tagNode "doctype" []], []⟩ :=
  ⟨Parse_of_scan U _ _ (by decide!) (by decide!),
   (Execute_of_run U V (tagNode "" [tagNode "a:" []]) [] value
      (tagNode "" [tagNode "a" []]) "<a>\n</a>\n" none hv (by decide!) (by decide!)).1,
   Parse_of_scan U _ _ (by decide!) (by decide!),
   (Execute_of_run U V (tagNode "" [tagNode "javascript:" []]) [] value
      (tagNode "" [tagNode "script" []]) "<script>\n</script>\n" none hv (by decide!)
      (by decide!)).1,
   Parse_of_scan U _ _ (by decide!) (by decide!),
   (Execute_of_run U V (tagNode "" [⟨"doctype", "", [], [⟨"a", "b"⟩], "", "", []⟩]) [] value
      (tagNode "" [tagNode "doctype" []]) "<!doctype html>\n" none hv (by decide!)
      (by decide!)).1⟩

/-- C12 at the nil context: the node of the line `a:` is named `a` after the
render. -/
theorem C12_execute_rewrites_nodes_witness :
    (Context.nil : Context Unit).readable = true ∧
    (Execute noTables unitVM (⟨tagNode "" [tagNode "a:" []], []⟩ : Template Unit) .nil).val =
      ⟨tagNode "" [tagNode "a" []], []⟩ :=
  ⟨rfl, (C12_execute_rewrites_nodes noTables unitVM .nil rfl).2.1⟩

/-- C15: the end of the line does not commit every final pair. The line
`t k=100` yields a node `t` without attributes, because the last rune is not a
letter; the same pair followed by a space, as in `t k=100 j=x`, is
committed, and so is a value that ends in a letter, as in `t k=abc`. -/
theorem C15_final_pair_dropped {Val : Type} (U : UnicodeTables) :
    (Parse U ⟨["t k=100"], none⟩ : Except Fault (Template Val)) =
      .ok ⟨tagNode "" [tagNode "t" []], []⟩ ∧
    (Parse U ⟨["t k=100 j=x"], none⟩ : Except Fault (Template Val)) =
      .ok ⟨tagNode "" [⟨"t", "", [], [⟨"k", "100"⟩, ⟨"j", "x"⟩], "", "", []⟩], []⟩ ∧
    (Parse U ⟨["t k=abc"], none⟩ : Except Fault (Template Val)) =
      .ok ⟨tagNode "" [⟨"t", "", [], [⟨"k", "abc"⟩], "", "", []⟩], []⟩ :=
  ⟨Parse_of_scan U _ _ (by decide!) (by decide!),
   Parse_of_scan U _ _ (by decide!) (by decide!),
   Parse_of_scan U _ _ (by decide!) (by decide!)⟩

/-- C16: a shorthand line creates no node. After the lines `p`, `  #main` the
tree has one node, named `div` with Id `main`: the node of the line `p` has
been renamed. The same holds for `  .main`, and the single line `#main`
renames the root itself. -/
theorem C16_shorthand_renames_current_node {Val : Type} (U : UnicodeTables) :
    (Parse U ⟨["p", "  #main"], none⟩ : Except Fault (Template Val)) =
      .ok ⟨tagNode "" [⟨"div", "main", [], [], "", "", []⟩], []⟩ ∧
    (Parse U ⟨["p", "  .main"], none⟩ : Except Fault (Template Val)) =
      .ok ⟨tagNode "" [⟨"div", "", ["main"], [], "", "", []⟩], []⟩ ∧
    (Parse U ⟨["#main"], none⟩ : Except Fault (Template Val)) =
      .ok ⟨⟨"div", "main", [], [], "", "", []⟩, []⟩ :=
  ⟨Parse_of_scan U _ _ (by decide!) (by decide!),
   Parse_of_scan U _ _ (by decide!) (by decide!),
   Parse_of_scan U _ _ (by decide!) (by decide!)⟩

/-- C20: for a named node that is not rendered as a void element and whose
expression compiles to the iteration form `for x in y`: when `y` is unbound, or
bound to a value that is neither nil nor an array or slice, `printNode` returns
an error after the open tag and `>`, with the children untouched and no
closing tag; when `y` is bound to nil, `reflect.ValueOf(rhs).Type()` panics and
no error is returned. -/
theorem C20_iteration_source {Val Env E : Type} (U : UnicodeTables) (V : VM Val Env E)
    (fuel : Nat) (n : Node) (d : Nat) (env : Env) (x y : String)
    (hname : n.Name ≠ "") (hvoid : isEmptyElement (rewrite n).Name = false)
    (hexpr : n.Expr ≠ "") (hc : V.compile n.Expr = .ok (.ForExpr x y)) :
    (V.get env y = none →
      printNode U V (fuel + 1) n d env =
        ⟨rewrite n, env, openTag U false (rewrite n) d ++ ">",
          some (.error ("invalid token: " ++ y))⟩) ∧
    (∀ v, V.get env y = some v → V.reflect v = .other →
      printNode U V (fuel + 1) n d env =
        ⟨rewrite n, env, openTag U false (rewrite n) d ++ ">",
          some (.error ("can't iterate: " ++ y))⟩) ∧
    (∀ v, V.get env y = some v → V.reflect v = .invalid →
      printNode U V (fuel + 1) n d env =
        ⟨rewrite n, env, openTag U false (rewrite n) d ++ ">",
          some (.panic "reflect: call of reflect.Value.Type on zero Value")⟩) := by
  have hd : n.Name ≠ "doctype" := not_doctype_of_not_void n hvoid
  refine ⟨?_, ?_, ?_⟩
  · intro hg
    simp only [printNode, hname, if_false, hvoid, hexpr, hc, hg, hd, decide_False,
      Bool.not_false, if_true, ne_eq, not_false_eq_true, rewrite_Expr]
  · intro v hg hr
    simp only [printNode, hname, if_false, hvoid, hexpr, hc, hg, hr, hd, decide_False,
      Bool.not_false, if_true, ne_eq, not_false_eq_true, rewrite_Expr]
  · intro v hg hr
    simp only [printNode, hname, if_false, hvoid, hexpr, hc, hg, hr, hd, decide_False,
      Bool.not_false, if_true, ne_eq, not_false_eq_true, rewrite_Expr]

/-- Witness of C20: a `ul` with the expression `for x in foo` and `foo` bound
to nil. -/
theorem C20_iteration_source_witness :
    (printNode noTables nilVM 2
      ⟨"ul", "", [], [], "", " for x in foo", [⟨"li", "", [], [], "", " x", []⟩]⟩ 0
      [("foo", none)]).err
      = some (.panic "reflect: call of reflect.Value.Type on zero Value") := by
  rw [(C20_iteration_source noTables nilVM 1
    ⟨"ul", "", [], [], "", " for x in foo", [⟨"li", "", [], [], "", " x", []⟩]⟩ 0
    [("foo", none)] "x" "foo" (by decide!) (by decide!) (by decide!) (by decide!)).2.2 none
    (by decide!) (by decide!)]

theorem join_singletons (l : List Char) : String.join (l.map String.singleton) = ⟨l⟩ := by
  induction l with
  | nil => rfl
  | cons c cs ih =>
    rw [List.map_cons, join_cons, ih]
    rfl

theorem quoteRune_plainChar (U : UnicodeTables) (c : Char) (h : plainChar c = true) :
    quoteRune U c = String.singleton c := by
  simp only [plainChar, Bool.and_eq_true, decide_eq_true_eq, bne_iff_ne, ne_eq] at h
  obtain ⟨⟨⟨h1, h2⟩, h3⟩, h4⟩ := h
  have hp : isPrint U c = true := by
    have : c.toNat ≤ 0xFF := by omega
    simp only [isPrint, this, if_true, Bool.or_eq_true, Bool.and_eq_true, decide_eq_true_eq]
    exact Or.inl ⟨h1, h2⟩
  simp only [quoteRune, h3, h4, hp, decide_False, Bool.or_self, if_false, if_true,
    Bool.false_eq_true]

theorem quote_plain (U : UnicodeTables) (s : String) (h : s.data.all plainChar = true) :
    quote U s = "\"" ++ s ++ "\"" := by
  have hm : s.data.map (quoteRune U) = s.data.map String.singleton := by
    apply List.map_congr_left
    intro c hc
    exact quoteRune_plainChar U c (List.all_eq_true.1 h c hc)
  unfold quote
  rw [hm, join_singletons]

theorem printNode_out_prefix {Val Env E : Type} (U : UnicodeTables) (V : VM Val Env E)
    (fuel : Nat) (n : Node) (d : Nat) (env : Env) (hname : n.Name ≠ "") :
    ∃ rest, (printNode U V (fuel + 1) n d env).out =
      openTag U (decide (n.Name = "doctype")) (rewrite n) d ++ rest := by
  simp only [printNode, hname, if_false]
  split_ifs
  · split
    · exact ⟨_, rfl⟩
    · split
      · exact ⟨_, rfl⟩
      · split
        · exact ⟨_, rfl⟩
        · exact ⟨_, rfl⟩
        · split
          · exact ⟨_, String.append_assoc _ _ _ |>.trans (String.append_assoc _ _ _)⟩
          · simp only [String.append_assoc]
            exact ⟨_, rfl⟩
    · split
      · exact ⟨_, rfl⟩
      · simp only [String.append_assoc]
        exact ⟨_, rfl⟩
  · split
    · simp only [String.append_assoc]
      exact ⟨_, rfl⟩
    · simp only [String.append_assoc]
      exact ⟨_, rfl⟩
  · simp only [String.append_assoc]
    exact ⟨_, rfl⟩
  · simp only [String.append_assoc]
    exact ⟨_, rfl⟩
  · exact ⟨_, rfl⟩
  · exact ⟨_, rfl⟩

/-- C11: for a node with a non-empty name other than doctype and not ending in
`:`, the output of `printNode` at depth `d` starts with `2*d` spaces and
`<name`, then ` id="ID"` exactly when Id is non-empty, then
` class="c1 c2 ... cm"` exactly when Class is non-empty, then one item per
attribute in stored order: ` name` when the value is empty and ` name="value"`
otherwise, for values of printable ASCII characters without `"` and
backslash. -/
theorem C11_open_tag {Val Env E : Type} (U : UnicodeTables) (V : VM Val Env E)
    (fuel : Nat) (n : Node) (d : Nat) (env : Env)
    (hname : n.Name ≠ "") (hdoc : n.Name ≠ "doctype") (hcolon : endsColon n.Name = false)
    (hvals : ∀ a ∈ n.Attr, a.Value.data.all plainChar = true) :
    ∃ rest, (printNode U V (fuel + 1) n d env).out =
      indentStr d ++ "<" ++ n.Name
        ++ (if n.Id ≠ "" then " id=\"" ++ n.Id ++ "\"" else "")
        ++ (if n.Class ≠ [] then " class=\"" ++ " ".intercalate n.Class ++ "\"" else "")
        ++ String.join (n.Attr.map (fun a =>
            if a.Value = "" then " " ++ a.Name else " " ++ a.Name ++ "=\"" ++ a.Value ++ "\""))
        ++ rest := by
  obtain ⟨rest, h⟩ := printNode_out_prefix U V fuel n d env hname
  refine ⟨rest, ?_⟩
  rw [h, rewrite_of_plain_name n hdoc hcolon]
  have hattr : n.Attr.map (attrText U) = n.Attr.map (fun a =>
      if a.Value = "" then " " ++ a.Name else " " ++ a.Name ++ "=\"" ++ a.Value ++ "\"") := by
    apply List.map_congr_left
    intro a ha
    simp only [attrText]
    split_ifs
    · rfl
    · rw [quote_plain U a.Value (hvals a ha)]
      simp only [String.append_assoc]
      congr 2
  have hclass : classText n.Class =
      (if n.Class ≠ [] then " class=\"" ++ " ".intercalate n.Class ++ "\"" else "") := by
    simp only [classText]
    cases n.Class with
    | nil => rfl
    | cons c cs => simp
  simp only [openTag, hdoc, decide_False, Bool.false_eq_true, if_false, hattr, hclass]

/-- Witness of C11: an `a` with Id, two classes, a valued and a bare
attribute. -/
theorem C11_open_tag_witness :
    ∃ rest, (printNode noTables unitVM 1
      ⟨"a", "x", ["c1", "c2"], [⟨"href", "u v"⟩, ⟨"disabled", ""⟩], "", "", []⟩ 2 ()).out =
      "    <a id=\"x\" class=\"c1 c2\" href=\"u v\" disabled" ++ rest := by
  obtain ⟨rest, h⟩ := C11_open_tag noTables unitVM 0
    ⟨"a", "x", ["c1", "c2"], [⟨"href", "u v"⟩, ⟨"disabled", ""⟩], "", "", []⟩ 2 ()
    (by decide) (by decide) (by decide!) (by decide!)
  exact ⟨rest, h.trans (congrArg (fun s => s ++ rest) (by decide!))⟩

theorem endsNewline_append (a b : String)
    (ha : a = "" ∨ ∃ p, a = p ++ "\n") (hb : b = "" ∨ ∃ p, b = p ++ "\n") :
    a ++ b = "" ∨ ∃ p, a ++ b = p ++ "\n" := by
  rcases hb with rfl | ⟨p, rfl⟩
  · rw [String.append_empty]
    exact ha
  · exact Or.inr ⟨a ++ p, (String.append_assoc _ _ _).symm⟩

theorem endsNewline_gt (s : String) : ∃ p, s ++ ">\n" = p ++ "\n" :=
  ⟨s ++ ">", by rw [String.append_assoc]; rfl⟩

theorem endsNewline_slash (s : String) : ∃ p, s ++ "/>\n" = p ++ "\n" :=
  ⟨s ++ "/>", by rw [String.append_assoc]; rfl⟩

theorem printChildren_endsNewline {Env : Type} (pn : Node → Env → Printed Node Env)
    (cs : List Node)
    (h : ∀ c ∈ cs, ∀ env, (pn c env).err = none →
      ((pn c env).out = "" ∨ ∃ p, (pn c env).out = p ++ "\n")) :
    ∀ env, (printChildren pn cs env).err = none →
      ((printChildren pn cs env).out = "" ∨ ∃ p, (printChildren pn cs env).out = p ++ "\n") := by
  induction cs with
  | nil => intro env _; exact Or.inl rfl
  | cons c cs ih =>
    intro env hok
    simp only [printChildren] at hok ⊢
    cases hr : (pn c env).err with
    | some e => rw [hr] at hok; cases hok
    | none =>
      rw [hr] at hok
      simp only at hok ⊢
      exact endsNewline_append _ _ (h c (List.mem_cons_self _ _) env hr)
        (ih (fun x hx => h x (List.mem_cons_of_mem _ hx)) _ hok)

theorem forLoop_endsNewline {Val Env E : Type} (V : VM Val Env E)
    (pn : Node → Env → Printed Node Env) (lhs1 : String) (elems : List Val)
    (h : ∀ cs env, (printChildren pn cs env).err = none →
      ((printChildren pn cs env).out = "" ∨ ∃ p, (printChildren pn cs env).out = p ++ "\n")) :
    ∀ cs env, (forLoop V pn lhs1 elems cs env).err = none →
      ((forLoop V pn lhs1 elems cs env).out = "" ∨
        ∃ p, (forLoop V pn lhs1 elems cs env).out = p ++ "\n") := by
  induction elems with
  | nil => intro cs env _; exact Or.inl rfl
  | cons x xs ih =>
    intro cs env hok
    simp only [forLoop] at hok ⊢
    cases hr : (printChildren pn cs (V.set env lhs1 x)).err with
    | some e => rw [hr] at hok; cases hok
    | none =>
      rw [hr] at hok
      simp only at hok ⊢
      exact endsNewline_append _ _ (h _ _ hr) (ih _ _ hok)

theorem printNode_endsNewline {Val Env E : Type} (U : UnicodeTables) (V : VM Val Env E)
    (fuel : Nat) : ∀ (n : Node) (d : Nat) (env : Env), (printNode U V fuel n d env).err = none →
      ((printNode U V fuel n d env).out = "" ∨ ∃ p, (printNode U V fuel n d env).out = p ++ "\n") := by
  induction fuel with
  | zero => intro n d env h; simp [printNode] at h
  | succ fuel ih =>
    intro n d env
    have hkids : ∀ (d : Nat) (cs : List Node) (env : Env),
        (printChildren (fun c e => printNode U V fuel c d e) cs env).err = none →
        ((printChildren (fun c e => printNode U V fuel c d e) cs env).out = "" ∨
          ∃ p, (printChildren (fun c e => printNode U V fuel c d e) cs env).out = p ++ "\n") :=
      fun d cs env => printChildren_endsNewline _ cs (fun c _ env => ih c d env) env
    simp only [printNode]
    split_ifs
    · exact hkids d _ env
    · split
      · intro h; cases h
      · split
        · intro h; cases h
        · split
          · intro h; cases h
          · intro h; cases h
          · split
            · intro h; cases h
            · intro _; exact Or.inr (endsNewline_gt _)
      · split
        · intro h; cases h
        · intro _; exact Or.inr (endsNewline_gt _)
    · split
      · intro h; cases h
      · intro _; exact Or.inr (endsNewline_gt _)
    · intro _; exact Or.inr (endsNewline_gt _)
    · intro _; exact Or.inr (endsNewline_gt _)
    · intro _; exact Or.inr (endsNewline_gt _)
    · intro _; exact Or.inr (endsNewline_slash _)

/-- C19, as stated, fails: the node of the line `p Hello` with a child `b`
(lines `p Hello`, `  b`) has children and a Text; its closing tag follows the
Text on the same line, so the output does not end with a newline, the
indentation, `</p>` and a newline. -/
theorem C19_counterexample_text_before_closing_tag :
    (Parse noTables ⟨["p Hello", "  b"], none⟩ : Except Fault (Template Unit)) =
      .ok ⟨tagNode "" [⟨"p", "", [], [], "Hello", "", [tagNode "b" []]⟩], []⟩ ∧
    (printNode noTables unitVM 2 ⟨"p", "", [], [], "Hello", "", [tagNode "b" []]⟩ 0 ()).err
      = none ∧
    (printNode noTables unitVM 2 ⟨"p", "", [], [], "Hello", "", [tagNode "b" []]⟩ 0 ()).out
      = "<p>\n  <b>\n  </b>\nHello</p>\n" ∧
    ¬ ("\n" ++ indentStr 0 ++ "</p>\n").data <:+
      (printNode noTables unitVM 2 ⟨"p", "", [], [], "Hello", "", [tagNode "b" []]⟩ 0 ()).out.data := by
  decide!

/-- C19, amended: for a named node without expression that is not rendered as
a void element, with all children rendering successfully: when the node has no
children and a non-empty Text the output is the indentation, the open tag,
`>`, the Text, the closing tag and a newline; in every other case the output
ends with a newline, the node's Text, the indentation, the closing tag and a
newline, so that the closing tag is on its own line when the Text is empty. -/
theorem C19_closing_tag_placement {Val Env E : Type} (U : UnicodeTables) (V : VM Val Env E)
    (fuel : Nat) (n : Node) (d : Nat) (env : Env)
    (hname : n.Name ≠ "") (hvoid : isEmptyElement (rewrite n).Name = false)
    (hexpr : n.Expr = "")
    (hok : (printChildren (fun c e => printNode U V fuel c (d + 1) e) n.Children env).err
      = none) :
    (printNode U V (fuel + 1) n d env).err = none ∧
    (n.Children = [] ∧ n.Text ≠ "" →
      (printNode U V (fuel + 1) n d env).out =
        indentStr d ++ "<" ++ (rewrite n).Name
          ++ (if n.Id ≠ "" then " id=\"" ++ n.Id ++ "\"" else "")
          ++ classText n.Class ++ String.join (n.Attr.map (attrText U))
          ++ ">" ++ n.Text ++ "</" ++ (rewrite n).Name ++ ">\n") ∧
    (¬ (n.Children = [] ∧ n.Text ≠ "") →
      ∃ p, (printNode U V (fuel + 1) n d env).out =
        p ++ "\n" ++ n.Text ++ indentStr d ++ "</" ++ (rewrite n).Name ++ ">\n") := by
  have hd : n.Name ≠ "doctype" := not_doctype_of_not_void n hvoid
  by_cases hc : n.Children = []
  · have hlen : ¬ n.Children.length > 0 := by simp [hc]
    by_cases ht : n.Text = ""
    · simp only [printNode, hname, if_false, hvoid, hexpr, hlen, ht, openTag, hd, decide_False,
        Bool.not_false, if_true, ne_eq, not_true_eq_false, not_false_eq_true,
        Bool.false_eq_true, rewrite_Expr, rewrite_Children, rewrite_Text, rewrite_Id,
        rewrite_Class, rewrite_Attr_of_ne n hd, and_false, true_and, false_implies,
        String.append_empty, forall_true_left]
      exact ⟨_, rfl⟩
    · simp only [printNode, hname, if_false, hvoid, hexpr, hlen, ht, hc, openTag, hd,
        decide_False, Bool.not_false, if_true, ne_eq, not_true_eq_false, not_false_eq_true,
        Bool.false_eq_true, rewrite_Expr, rewrite_Children, rewrite_Text, rewrite_Id,
        rewrite_Class, rewrite_Attr_of_ne n hd, and_self, true_and, forall_true_left,
        false_implies, and_true, List.length_nil, gt_iff_lt, Nat.lt_irrefl]
  · have hlen : n.Children.length > 0 := by
      cases hcs : n.Children with
      | nil => exact absurd hcs hc
      | cons _ _ => simp
    have hk := printChildren_endsNewline (fun c e => printNode U V fuel c (d + 1) e) n.Children
      (fun c _ env => printNode_endsNewline U V fuel c (d + 1) env) env hok
    simp only [printNode, hname, if_false, hvoid, hexpr, hlen, hok, hc, openTag, hd,
      decide_False, Bool.not_false, if_true, ne_eq, not_true_eq_false, not_false_eq_true,
      Bool.false_eq_true, rewrite_Expr, rewrite_Children, rewrite_Text, rewrite_Id,
      rewrite_Class, rewrite_Attr_of_ne n hd, false_and, true_and, forall_true_left,
      false_implies]
    rcases hk with hk | ⟨p, hk⟩
    · rw [hk, String.append_empty]
      exact ⟨_, rfl⟩
    · rw [hk]
      refine ⟨indentStr d ++ "<" ++ (rewrite n).Name
          ++ (if ¬ n.Id = "" then " id=\"" ++ n.Id ++ "\"" else "")
          ++ classText n.Class ++ String.join (n.Attr.map (attrText U)) ++ ">" ++ "\n" ++ p, ?_⟩
      simp only [String.append_assoc]

/-- Witness of C19 amended: a `ul` with one child `li` at depth 1. -/
theorem C19_closing_tag_placement_witness :
    ∃ p, (printNode noTables unitVM 2 (tagNode "ul" [tagNode "li" []]) 1 ()).out =
      p ++ "\n" ++ "" ++ indentStr 1 ++ "</" ++ "ul" ++ ">\n" :=
  (C19_closing_tag_placement noTables unitVM 1 (tagNode "ul" [tagNode "li" []]) 1 ()
    (by decide) (by decide!) rfl (by decide!)).2.2 (by decide)

/-! ### Lexing one line into one node -/

theorem lexLoop_cons_ok (U : UnicodeTables) (len : Nat) (r : Char) (rest : List Char) (n : Nat)
    (s s' : Lex) (h : step U (n + 1 == len) n r s = .ok s') :
    lexLoop U len (r :: rest) n s = lexLoop U len rest (n + 1) s' := by
  rw [lexLoop, h]
  rfl

theorem store_one (x : Node) (f : Node → Node) :
    store (tagNode "" [x]) [0] f = .ok (tagNode "" [f x]) := rfl

theorem step_neutral_tagStart (U : UnicodeTables) (eol : Bool) (n : Nat) (a : Char) (s : Lex)
    (h : s.st = .sNeutral) (ha : tagStart a = true) :
    step U eol n a s = resolve n { s with st := .sTag, tag := addRune s.tag a } := by
  unfold step
  rw [h]
  simp only [tagStart, Bool.and_eq_true, Bool.not_eq_true', bne_iff_ne, ne_eq,
    decide_eq_true_eq] at ha
  obtain ⟨⟨⟨⟨⟨⟨h1, h2⟩, h3⟩, h4⟩, h5⟩, h6⟩, h7⟩ := ha
  have h7' : ¬ a.toNat > 255 := by omega
  simp only [h1, h2, h3, h4, h5, h6, h7', if_false, Bool.false_eq_true]

theorem asciiLetter_tagStart (a : Char) (h : asciiLetter a = true) : tagStart a = true := by
  have h1 : isSpace a = false := asciiLetter_not_space a h
  have h2 : a ≠ '=' := asciiLetter_ne a _ h (by decide)
  have h3 : a ≠ '|' := asciiLetter_ne a _ h (by decide)
  have h4 : a ≠ '-' := asciiLetter_ne a _ h (by decide)
  have h5 : a ≠ '#' := asciiLetter_ne a _ h (by decide)
  have h6 : a ≠ '.' := asciiLetter_ne a _ h (by decide)
  have h7 : a.toNat ≤ 255 := by
    have := asciiLetter_bounds a h
    omega
  simp [tagStart, h1, h2, h3, h4, h5, h6, h7]

theorem lexLoop_tag_mid (U : UnicodeTables) (len : Nat) (as : List Char) :
    ∀ (rest : List Char) (n : Nat) (s : Lex), (∀ c ∈ as, asciiLetter c = true) →
      n + as.length < len → s.st = .sTag → s.tag ≠ "" →
      lexLoop U len (as ++ rest) n s =
        lexLoop U len rest (n + as.length) { s with tag := ⟨s.tag.data ++ as⟩ } := by
  induction as with
  | nil => intro rest n s _ _ _ _; simp
  | cons a as ih =>
    intro rest n s hall hlen hst htag
    have heol : (n + 1 == len) = false := by
      simp only [List.length_cons] at hlen
      simp only [beq_eq_false_iff_ne, ne_eq]
      omega
    have hne : (addRune s.tag a) ≠ "" := by
      intro h
      have := congrArg String.data h
      rw [addRune_data] at this
      simp at this
    rw [List.cons_append, lexLoop_cons_ok U len a _ n s _
      (by rw [heol]; exact step_tag_mid U n a s hst htag (hall a (List.mem_cons_self _ _)))]
    rw [ih rest (n + 1) { s with tag := addRune s.tag a }
      (fun c hc => hall c (List.mem_cons_of_mem _ hc))
      (by simp only [List.length_cons] at hlen; omega) hst hne]
    simp only [addRune_data, List.append_assoc, List.singleton_append, List.length_cons]
    congr 1
    omega

theorem lexLoop_text (U : UnicodeTables) (len : Nat) (cs : List Char) :
    ∀ (n : Nat) (s : Lex) (x : Node), s.st = .sText → s.root = tagNode "" [x] → s.node = [0] →
      lexLoop U len cs n s =
        .ok { s with root := tagNode "" [{ x with Text := ⟨x.Text.data ++ cs⟩ }] } := by
  induction cs with
  | nil =>
    intro n s x _ hroot _
    simp only [lexLoop, List.append_nil]
    have hx : ({ x with Text := ⟨x.Text.data⟩ } : Node) = x := by cases x; rfl
    rw [hx, ← hroot]
    rfl
  | cons c cs ih =>
    intro n s x hst hroot hnode
    have hstep : step U (n + 1 == len) n c s =
        .ok { s with root := tagNode "" [{ x with Text := addRune x.Text c }] } := by
      unfold step
      rw [hst]
      simp only [hroot, hnode, store_one]
      rfl
    rw [lexLoop_cons_ok U len c cs n s _ hstep,
      ih (n + 1) { s with root := tagNode "" [{ x with Text := addRune x.Text c }] }
        { x with Text := addRune x.Text c } hst rfl hnode]
    simp only [addRune_data, List.append_assoc, List.singleton_append]

theorem singleton_ne_empty (a : Char) : String.singleton a ≠ "" := by
  intro h
  have := congrArg String.data h
  simp [String.singleton] at this

theorem endsColon_snoc (d : List Char) : endsColon ⟨d ++ [':']⟩ = true := by
  simp [endsColon]

theorem lexLine_first (U : UnicodeTables) (a : Char) (rest : List Char)
    (ha : asciiLetter a = true) :
    lexLine U Lex.init ⟨a :: rest⟩ =
      lexLoop U (rest.length + 1) rest 1
        { root := tagNode "" [tagNode (String.singleton a) []], node := [0], stk := [⟨0, [0]⟩],
          last := 0, st := .sTag, tag := String.singleton a, id := "", class_ := "",
          aname := "", avalue := "" } := by
  unfold lexLine
  rw [List.length_cons, lexLoop, step_neutral_letter U _ _ a _ rfl ha]
  dsimp only [Lex.init]
  rw [resolve_deeper 0
    { root := Node.empty, node := [], stk := [], last := (-1 : Int), st := .sTag,
      tag := addRune "" a, id := "", class_ := "", aname := "", avalue := "" } [] rfl rfl
      (show (-1 : Int) < ((0 : Nat) : Int) by decide) (by simp)]
  rfl

theorem resolve_raw (n : Nat) (s : Lex) (x : Node) (hroot : s.root = tagNode "" [x])
    (hnode : s.node = [0]) (hlast : s.last < n) (hx : endsColon x.Name = true) :
    resolve n s = .ok { s with
      last := n, root := tagNode "" [{ x with Text := s.tag }], st := .sText } := by
  unfold resolve
  have hgt : (n : Int) > s.last := hlast
  have hl : load (tagNode "" [x]) [0] = .ok x := rfl
  simp only [hgt, if_true, hroot, hnode, hl, rawText, store_one, bind, Except.bind, pure,
    Except.pure, hx]

theorem scanLines_raw_block (U : UnicodeTables) (t s : String) (c : Nat)
    (ht : plainName t = true) (hc : 0 < c) (hs : startsTag s = true) :
    ∃ S, scanLines U [t ++ ":", indented c s] = .ok S ∧
      S.root = tagNode "" [⟨t ++ ":", "", [], [], s, "", []⟩] := by
  obtain ⟨d⟩ := t
  obtain ⟨sd⟩ := s
  simp only [plainName, Bool.and_eq_true, decide_eq_true_eq, List.all_eq_true] at ht
  obtain ⟨hne, hall⟩ := ht
  cases d with
  | nil => exact absurd rfl hne
  | cons a as =>
    cases sd with
    | nil => simp [startsTag] at hs
    | cons r rs =>
      have hr : tagStart r = true := hs
      have ha : asciiLetter a = true := hall a (List.mem_cons_self _ _)
      have hline1 : lexLine U Lex.init (⟨a :: as⟩ ++ ":") = .ok
          { root := tagNode "" [tagNode ⟨(a :: as) ++ [':']⟩ []], node := [0], stk := [⟨0, [0]⟩],
            last := 0, st := .sTag, tag := ⟨(a :: as) ++ [':']⟩, id := "", class_ := "",
            aname := "", avalue := "" } := by
        rw [show ((⟨a :: as⟩ : String) ++ ":") = ⟨a :: (as ++ [':'])⟩ from rfl,
          lexLine_first U a _ ha,
          lexLoop_tag_mid U _ as [':'] 1 _ (fun x hx => hall x (List.mem_cons_of_mem _ hx))
            (by simp only [List.length_append, List.length_singleton]; omega) rfl
            (singleton_ne_empty a)]
        rw [lexLoop_cons_ok U _ ':' [] _ _ _ (by
          have he : (1 + as.length + 1 == (as ++ [':']).length + 1) = true := by
            simp; omega
          rw [he]
          exact step_tag_eol U _ ':' _ [] (String.singleton a) rfl rfl rfl)]
        rfl
      have hline2 : lexLine U
          { root := tagNode "" [tagNode ⟨(a :: as) ++ [':']⟩ []], node := [0], stk := [⟨0, [0]⟩],
            last := 0, st := .sTag, tag := ⟨(a :: as) ++ [':']⟩, id := "", class_ := "",
            aname := "", avalue := "" } (indented c ⟨r :: rs⟩) = .ok
          { root := tagNode "" [⟨⟨(a :: as) ++ [':']⟩, "", [], [], ⟨r :: rs⟩, "", []⟩],
            node := [0], stk := [⟨0, [0]⟩], last := ((0 + c : Nat) : Int), st := .sText,
            tag := String.singleton r, id := "", class_ := "", aname := "", avalue := "" } := by
        unfold lexLine indented
        rw [lexLoop_spaces U _ c (r :: rs) 0 _ rfl, lexLoop,
          step_neutral_tagStart U _ _ r _ rfl hr]
        dsimp only
        rw [resolve_raw (0 + c) _ (tagNode ⟨(a :: as) ++ [':']⟩ []) rfl rfl
          (by simp only [Nat.zero_add]; exact_mod_cast hc)
          (endsColon_snoc (a :: as))]
        dsimp only [bind, Except.bind]
        rw [lexLoop_text U _ rs _ _ _ rfl rfl rfl]
        rfl
      have hscan : scanLines U [(⟨a :: as⟩ : String) ++ ":", indented c ⟨r :: rs⟩] = .ok
          { root := tagNode "" [⟨⟨(a :: as) ++ [':']⟩, "", [], [], ⟨r :: rs⟩, "", []⟩],
            node := [0], stk := [⟨0, [0]⟩], last := ((0 + c : Nat) : Int), st := .sText,
            tag := String.singleton r, id := "", class_ := "", aname := "", avalue := "" } := by
        simp only [scanLines, List.foldlM_cons, List.foldlM_nil, hline1, bind, Except.bind,
          hline2, pure, Except.pure]
      exact ⟨_, hscan, rfl⟩

theorem rewrite_raw (t s : String) :
    rewrite ⟨t ++ ":", "", [], [], s, "", []⟩ =
      ⟨if t = "javascript" then "script" else t, "", [], [], s, "", []⟩ := by
  obtain ⟨d⟩ := t
  have hcol : endsColon ((⟨d⟩ : String) ++ ":") = true := endsColon_snoc d
  have hd : ((⟨d⟩ : String) ++ ":") ≠ "doctype" := by
    intro h
    rw [h] at hcol
    revert hcol
    decide
  have hdrop : (⟨(((⟨d⟩ : String) ++ ":").data).dropLast⟩ : String) = ⟨d⟩ := by
    show (⟨(d ++ [':']).dropLast⟩ : String) = ⟨d⟩
    rw [List.dropLast_concat]
  simp only [rewrite, hd, if_false, hcol, if_true, hdrop]

theorem startsTag_ne_empty (s : String) (h : startsTag s = true) : s ≠ "" := by
  intro hs
  rw [hs] at h
  revert h
  decide

/-- C18: for a non-void tag name `t` of ASCII letters and a text `s` that
starts with an ordinary tag-start character, the lines `t:` and `s` indented
deeper parse to a single node under the root, named `t:`, whose Text is `s`
and which has no children; `Execute` of that template, with every context it
can read (nil, a map, a struct of exported fields, a value of another kind),
writes `<t>`, `s`, `</t>` and a newline, with `script` in place of `t` when `t`
is `javascript`, and returns no error. -/
theorem C18_raw_block {Val Env E : Type} (U : UnicodeTables) (V : VM Val Env E)
    (t s : String) (c : Nat) (value : Context Val)
    (ht : plainName t = true) (hvoid : isEmptyElement t = false) (hc : 0 < c)
    (hs : startsTag s = true) (hv : value.readable = true) :
    (Parse U ⟨[t ++ ":", indented c s], none⟩ : Except Fault (Template Val)) =
      .ok ⟨tagNode "" [⟨t ++ ":", "", [], [], s, "", []⟩], []⟩ ∧
    (Execute U V (⟨tagNode "" [⟨t ++ ":", "", [], [], s, "", []⟩], []⟩ : Template Val)
        value).out =
      "<" ++ (if t = "javascript" then "script" else t) ++ ">" ++ s
        ++ "</" ++ (if t = "javascript" then "script" else t) ++ ">\n" ∧
    (Execute U V (⟨tagNode "" [⟨t ++ ":", "", [], [], s, "", []⟩], []⟩ : Template Val)
        value).err = none := by
  obtain ⟨S, h1, h2⟩ := scanLines_raw_block U t s c ht hc hs
  have hparse : (Parse U ⟨[t ++ ":", indented c s], none⟩ : Except Fault (Template Val)) =
      .ok ⟨S.root, []⟩ := nest_of_scan U _ S h1
  rw [h2] at hparse
  refine ⟨hparse, ?_⟩
  have hname : (t ++ ":") ≠ "" := by
    intro h
    have := congrArg String.data h
    simp [String.data_append] at this
  have hnm : isEmptyElement (if t = "javascript" then "script" else t) = false := by
    split_ifs
    · decide
    · exact hvoid
  have hd : (t ++ ":") ≠ "doctype" := by
    intro h
    have hcol : endsColon (t ++ ":") = true := by
      obtain ⟨d⟩ := t
      exact endsColon_snoc d
    rw [h] at hcol
    revert hcol
    decide
  have hs' : s ≠ "" := startsTag_ne_empty s hs
  have hh : (tagNode "" [⟨t ++ ":", "", [], [], s, "", []⟩]).height = 2 := rfl
  have hi : indentStr 0 = "" := rfl
  rw [Execute_readable U V _ value hv]
  simp only [hh, printNode, tagNode, if_true, printChildren, hname, if_false,
    rewrite_raw, hnm, Bool.not_false, ne_eq, not_true_eq_false, List.length_nil, gt_iff_lt,
    Nat.lt_irrefl, hs', not_false_eq_true, openTag, hd, decide_False, Bool.false_eq_true,
    classText, List.map_nil, String.join, List.foldl_nil, String.append_empty, hi,
    String.empty_append, and_self]

/-- Witness of C18: the lines `javascript:` and `  alert(1) = x` render as a
`script` element. -/
theorem C18_raw_block_witness :
    (Execute noTables unitVM
      (⟨tagNode "" [⟨"javascript:", "", [], [], "alert(1) = x", "", []⟩], []⟩ :
        Template Unit) .nil).out = "<script>alert(1) = x</script>\n" := by
  have h := (C18_raw_block noTables unitVM "javascript" "alert(1) = x" 2 .nil (by decide)
    (by decide) (by decide) (by decide) rfl).2.1
  rw [show ("javascript" ++ ":" : String) = "javascript:" from by decide] at h
  exact h.trans (by decide!)

/-! ### Tag with id and class shorthand -/

theorem step_tag_hash (U : UnicodeTables) (n : Nat) (s : Lex) (x : Node)
    (hst : s.st = .sTag) (htag : s.tag ≠ "") (hroot : s.root = tagNode "" [x])
    (hnode : s.node = [0]) :
    step U false n '#' s =
      .ok { s with root := tagNode "" [{ x with Name := s.tag }], st := .sId } := by
  unfold step
  rw [hst]
  simp only [Bool.false_eq_true, if_false, show ('#' : Char) ≠ '=' by decide, if_true, htag,
    hroot, hnode, store_one]
  rfl

theorem step_tag_dot (U : UnicodeTables) (n : Nat) (s : Lex) (x : Node)
    (hst : s.st = .sTag) (htag : s.tag ≠ "") (hroot : s.root = tagNode "" [x])
    (hnode : s.node = [0]) :
    step U false n '.' s =
      .ok { s with root := tagNode "" [{ x with Name := s.tag }], st := .sClass } := by
  unfold step
  rw [hst]
  simp only [Bool.false_eq_true, if_false, show ('.' : Char) ≠ '=' by decide,
    show ('.' : Char) ≠ '#' by decide, if_true, htag, hroot, hnode, store_one]
  rfl

theorem asciiLetter_isLetter (U : UnicodeTables) (c : Char) (h : asciiLetter c = true) :
    isLetter U c = true := by
  have hb := asciiLetter_bounds c h
  have h255 : c.toNat ≤ 255 := by omega
  simp only [isLetter, h255, if_true, Bool.or_eq_true, Bool.and_eq_true, decide_eq_true_eq,
    beq_iff_eq]
  omega

theorem step_id_mid (U : UnicodeTables) (n : Nat) (a : Char) (s : Lex)
    (hst : s.st = .sId) (ha : asciiLetter a = true) :
    step U false n a s = .ok { s with id := addRune s.id a } := by
  unfold step
  rw [hst]
  have h6 : a ≠ '.' := asciiLetter_ne a _ ha (by decide)
  simp only [Bool.false_eq_true, if_false, h6, asciiLetter_isLetter U a ha, Bool.not_true]
  rfl

theorem step_id_eol (U : UnicodeTables) (n : Nat) (a : Char) (s : Lex) (x : Node)
    (hst : s.st = .sId) (ha : asciiLetter a = true) (hroot : s.root = tagNode "" [x])
    (hnode : s.node = [0]) :
    step U true n a s =
      .ok { s with root := tagNode "" [{ x with Id := addRune s.id a }],
                   id := addRune s.id a } := by
  unfold step
  rw [hst]
  simp only [if_true, asciiLetter_isLetter U a ha, hroot, hnode, store_one]
  rfl

theorem step_id_dot (U : UnicodeTables) (n : Nat) (s : Lex) (x : Node)
    (hst : s.st = .sId) (hroot : s.root = tagNode "" [x]) (hnode : s.node = [0]) :
    step U false n '.' s =
      .ok { s with root := tagNode "" [{ x with Id := s.id }], st := .sClass } := by
  unfold step
  rw [hst]
  simp only [Bool.false_eq_true, if_false, if_true, hroot, hnode, store_one]
  rfl

theorem step_class_mid (U : UnicodeTables) (n : Nat) (a : Char) (s : Lex)
    (hst : s.st = .sClass) (ha : asciiLetter a = true) :
    step U false n a s = .ok { s with class_ := addRune s.class_ a } := by
  unfold step
  rw [hst]
  have h6 : a ≠ '.' := asciiLetter_ne a _ ha (by decide)
  simp only [Bool.false_eq_true, if_false, h6, asciiLetter_isLetter U a ha, Bool.not_true]
  rfl

theorem step_class_eol (U : UnicodeTables) (n : Nat) (a : Char) (s : Lex) (x : Node)
    (hst : s.st = .sClass) (ha : asciiLetter a = true) (hroot : s.root = tagNode "" [x])
    (hnode : s.node = [0]) :
    step U true n a s =
      .ok { s with root := tagNode "" [{ x with Class := x.Class ++ [addRune s.class_ a] }],
                   class_ := addRune s.class_ a } := by
  unfold step
  rw [hst]
  simp only [if_true, asciiLetter_isLetter U a ha, hroot, hnode, store_one]
  rfl

theorem step_class_dot (U : UnicodeTables) (n : Nat) (s : Lex) (x : Node)
    (hst : s.st = .sClass) (hc : s.class_ ≠ "") (hroot : s.root = tagNode "" [x])
    (hnode : s.node = [0]) :
    step U false n '.' s =
      .ok { s with root := tagNode "" [{ x with Class := x.Class ++ [s.class_] }],
                   class_ := "" } := by
  unfold step
  rw [hst]
  simp only [Bool.false_eq_true, if_false, if_true, hc, ne_eq, not_false_eq_true, hroot, hnode,
    store_one]
  rfl

theorem lexLoop_id_mid (U : UnicodeTables) (len : Nat) (as : List Char) :
    ∀ (rest : List Char) (n : Nat) (s : Lex), (∀ c ∈ as, asciiLetter c = true) →
      n + as.length < len → s.st = .sId →
      lexLoop U len (as ++ rest) n s =
        lexLoop U len rest (n + as.length) { s with id := ⟨s.id.data ++ as⟩ } := by
  induction as with
  | nil => intro rest n s _ _ _; simp
  | cons a as ih =>
    intro rest n s hall hlen hst
    have heol : (n + 1 == len) = false := by
      simp only [List.length_cons] at hlen
      simp only [beq_eq_false_iff_ne, ne_eq]
      omega
    rw [List.cons_append, lexLoop_cons_ok U len a _ n s _
      (by rw [heol]; exact step_id_mid U n a s hst (hall a (List.mem_cons_self _ _)))]
    rw [ih rest (n + 1) { s with id := addRune s.id a }
      (fun c hc => hall c (List.mem_cons_of_mem _ hc))
      (by simp only [List.length_cons] at hlen; omega) hst]
    simp only [addRune_data, List.append_assoc, List.singleton_append, List.length_cons]
    congr 1
    omega

theorem lexLoop_class_mid (U : UnicodeTables) (len : Nat) (as : List Char) :
    ∀ (rest : List Char) (n : Nat) (s : Lex), (∀ c ∈ as, asciiLetter c = true) →
      n + as.length < len → s.st = .sClass →
      lexLoop U len (as ++ rest) n s =
        lexLoop U len rest (n + as.length) { s with class_ := ⟨s.class_.data ++ as⟩ } := by
  induction as with
  | nil => intro rest n s _ _ _; simp
  | cons a as ih =>
    intro rest n s hall hlen hst
    have heol : (n + 1 == len) = false := by
      simp only [List.length_cons] at hlen
      simp only [beq_eq_false_iff_ne, ne_eq]
      omega
    rw [List.cons_append, lexLoop_cons_ok U len a _ n s _
      (by rw [heol]; exact step_class_mid U n a s hst (hall a (List.mem_cons_self _ _)))]
    rw [ih rest (n + 1) { s with class_ := addRune s.class_ a }
      (fun c hc => hall c (List.mem_cons_of_mem _ hc))
      (by simp only [List.length_cons] at hlen; omega) hst]
    simp only [addRune_data, List.append_assoc, List.singleton_append, List.length_cons]
    congr 1
    omega

theorem addRune_mk (d : List Char) (r : Char) : addRune ⟨d⟩ r = ⟨d ++ [r]⟩ := by
  apply String.ext
  simp [addRune_data]

theorem plainName_snoc (t : String) (h : plainName t = true) :
    ∃ (as : List Char) (z : Char), t = ⟨as ++ [z]⟩ ∧ (∀ c ∈ as, asciiLetter c = true) ∧
      asciiLetter z = true := by
  obtain ⟨d⟩ := t
  simp only [plainName, Bool.and_eq_true, decide_eq_true_eq, List.all_eq_true] at h
  obtain ⟨hne, hall⟩ := h
  rcases List.eq_nil_or_concat d with rfl | ⟨as, z, rfl⟩
  · exact absurd rfl hne
  · refine ⟨as, z, by simp, ?_, ?_⟩
    · intro c hc
      exact hall c (by simp [hc])
    · exact hall z (by simp)

theorem lexLoop_id_last (U : UnicodeTables) (len : Nat) (as : List Char) (z : Char) (n : Nat)
    (s : Lex) (x : Node) (hall : ∀ c ∈ as, asciiLetter c = true) (hz : asciiLetter z = true)
    (hlen : n + as.length + 1 = len) (hst : s.st = .sId) (hroot : s.root = tagNode "" [x])
    (hnode : s.node = [0]) :
    lexLoop U len (as ++ [z]) n s =
      .ok { s with root := tagNode "" [{ x with Id := ⟨s.id.data ++ (as ++ [z])⟩ }],
                   id := ⟨s.id.data ++ (as ++ [z])⟩ } := by
  rw [lexLoop_id_mid U len as [z] n s hall (by omega) hst]
  have heol : (n + as.length + 1 == len) = true := by simpa using hlen
  rw [lexLoop_cons_ok U len z [] _ _ _
    (by rw [heol]; exact step_id_eol U _ z _ x hst hz hroot hnode)]
  simp only [lexLoop, addRune_mk, List.append_assoc]
  rfl

theorem lexLoop_class_last (U : UnicodeTables) (len : Nat) (as : List Char) (z : Char) (n : Nat)
    (s : Lex) (x : Node) (hall : ∀ c ∈ as, asciiLetter c = true) (hz : asciiLetter z = true)
    (hlen : n + as.length + 1 = len) (hst : s.st = .sClass) (hroot : s.root = tagNode "" [x])
    (hnode : s.node = [0]) :
    lexLoop U len (as ++ [z]) n s =
      .ok { s with
        root := tagNode "" [{ x with Class := x.Class ++ [⟨s.class_.data ++ (as ++ [z])⟩] }],
        class_ := ⟨s.class_.data ++ (as ++ [z])⟩ } := by
  rw [lexLoop_class_mid U len as [z] n s hall (by omega) hst]
  have heol : (n + as.length + 1 == len) = true := by simpa using hlen
  rw [lexLoop_cons_ok U len z [] _ _ _
    (by rw [heol]; exact step_class_eol U _ z _ x hst hz hroot hnode)]
  simp only [lexLoop, addRune_mk, List.append_assoc]
  rfl

theorem plainName_all (t : String) (h : plainName t = true) :
    ∀ c ∈ t.data, asciiLetter c = true := by
  simp only [plainName, Bool.and_eq_true, decide_eq_true_eq, List.all_eq_true] at h
  exact h.2

theorem plainName_length (t : String) (h : plainName t = true) : 0 < t.data.length := by
  simp only [plainName, Bool.and_eq_true, decide_eq_true_eq, List.all_eq_true] at h
  exact List.length_pos.2 h.1

theorem lexLoop_classes (U : UnicodeTables) (len : Nat) (cs : List String) :
    ∀ (c : String) (x : Node) (s : Lex) (n : Nat), plainName c = true →
      (∀ k ∈ cs, plainName k = true) → s.st = .sClass → s.class_ = "" →
      s.root = tagNode "" [x] → s.node = [0] →
      n + (c.data ++ cs.flatMap (fun k => '.' :: k.data)).length = len →
      ∃ s', lexLoop U len (c.data ++ cs.flatMap (fun k => '.' :: k.data)) n s = .ok s' ∧
        s'.root = tagNode "" [{ x with Class := x.Class ++ c :: cs }] := by
  induction cs with
  | nil =>
    intro c x s n hc _ hst hcl hroot hnode hlen
    obtain ⟨as, z, rfl, hall, hz⟩ := plainName_snoc c hc
    simp only [List.flatMap_nil, List.append_nil, List.length_append, List.length_singleton] at hlen ⊢
    rw [lexLoop_class_last U len as z n s x hall hz (by omega) hst hroot hnode]
    refine ⟨_, rfl, ?_⟩
    simp only [hcl]
    rfl
  | cons k ks ih =>
    intro c x s n hc hcs hst hcl hroot hnode hlen
    have hk := plainName_length k (hcs k (List.mem_cons_self _ _))
    simp only [List.flatMap_cons, List.length_append, List.length_cons, List.cons_append] at hlen ⊢
    rw [lexLoop_class_mid U len c.data _ n s (plainName_all c hc) (by omega) hst]
    have heol : (n + c.data.length + 1 == len) = false := by
      simp only [beq_eq_false_iff_ne, ne_eq]
      omega
    rw [lexLoop_cons_ok U len '.' _ _ _ _ (by
      rw [heol]
      exact step_class_dot U _ _ x hst
        (by
          intro h
          have h2 := congrArg String.data h
          simp only [hcl] at h2
          have h3 := plainName_length c hc
          have h4 : c.data = [] := by simpa using h2
          rw [h4] at h3
          exact Nat.lt_irrefl _ h3)
        hroot hnode)]
    obtain ⟨s', h1, h2⟩ := ih k { x with Class := x.Class ++ [(⟨s.class_.data ++ c.data⟩ : String)] }
      { s with
        root := tagNode "" [{ x with Class := x.Class ++ [(⟨s.class_.data ++ c.data⟩ : String)] }],
        class_ := "" }
      (n + c.data.length + 1) (hcs k (List.mem_cons_self _ _))
      (fun q hq => hcs q (List.mem_cons_of_mem _ hq)) hst rfl rfl hnode
      (by simp only [List.length_append]; omega)
    refine ⟨s', h1, ?_⟩
    rw [h2, hcl]
    simp only [List.append_assoc, List.singleton_append]
    rfl

theorem scanLines_single (U : UnicodeTables) (l : String) :
    scanLines U [l] = lexLine U Lex.init l := by
  simp only [scanLines, List.foldlM_cons, List.foldlM_nil]
  cases lexLine U Lex.init l <;> rfl

theorem lexLine_tag_then (U : UnicodeTables) (a : Char) (as tail : List Char)
    (ha : asciiLetter a = true) (has : ∀ c ∈ as, asciiLetter c = true) (ht : tail ≠ []) :
    lexLine U Lex.init ⟨a :: (as ++ tail)⟩ =
      lexLoop U ((as ++ tail).length + 1) tail (1 + as.length)
        { root := tagNode "" [tagNode (String.singleton a) []], node := [0], stk := [⟨0, [0]⟩],
          last := 0, st := .sTag, tag := ⟨a :: as⟩, id := "", class_ := "",
          aname := "", avalue := "" } := by
  have hpos : 0 < tail.length := List.length_pos.2 ht
  rw [lexLine_first U a _ ha,
    lexLoop_tag_mid U _ as tail 1 _ has
      (by simp only [List.length_append]; omega) rfl (singleton_ne_empty a)]
  rfl

theorem scanLines_shorthand (U : UnicodeTables) (t : String) (i : Option String)
    (cs : List String) (ht : plainName t = true) (hi : ∀ x ∈ i, plainName x = true)
    (hcs : ∀ c ∈ cs, plainName c = true) :
    ∃ s, scanLines U [shorthandLine t i cs] = .ok s ∧
      s.root = tagNode "" [⟨t, i.getD "", cs, [], "", "", []⟩] := by
  have htall := plainName_all t ht
  have htlen := plainName_length t ht
  obtain ⟨d⟩ := t
  cases d with
  | nil => simp at htlen
  | cons a as =>
    have ha : asciiLetter a = true := htall a (List.mem_cons_self _ _)
    have has : ∀ c ∈ as, asciiLetter c = true := fun c hc => htall c (List.mem_cons_of_mem _ hc)
    have hne : (⟨a :: as⟩ : String) ≠ "" := by
      intro h
      have h2 := congrArg String.data h
      simp at h2
    rw [scanLines_single]
    cases i with
    | none =>
      cases cs with
      | nil =>
        obtain ⟨s', h1, h2⟩ := foldlM_deeper U [(0, (⟨a :: as⟩ : String))] Lex.init [] rfl rfl
          (by simp) (by simpa using ht) (by simp) (by simp [Lex.init])
        refine ⟨s', ?_, by simpa [spine, tagNode] using h2⟩
        rw [← h1]
        simp only [List.map_cons, List.map_nil, List.foldlM_cons, List.foldlM_nil]
        have hl : shorthandLine ⟨a :: as⟩ none [] = indented 0 ⟨a :: as⟩ := by
          simp [shorthandLine, indented]
        rw [hl]
        cases lexLine U Lex.init (indented 0 ⟨a :: as⟩) <;> rfl
      | cons c cs =>
        have hl : shorthandLine ⟨a :: as⟩ none (c :: cs) =
            ⟨a :: (as ++ '.' :: (c.data ++ cs.flatMap (fun k => '.' :: k.data)))⟩ := by
          simp [shorthandLine]
        rw [hl, lexLine_tag_then U a as _ ha has (by simp)]
        have hlen := plainName_length c (hcs c (List.mem_cons_self _ _))
        rw [lexLoop_cons_ok U _ '.' _ _ _ _ (by
          have heol : (1 + as.length + 1 ==
              (as ++ '.' :: (c.data ++ cs.flatMap (fun k => '.' :: k.data))).length + 1)
              = false := by
            simp only [beq_eq_false_iff_ne, ne_eq, List.length_append, List.length_cons]
            omega
          rw [heol]
          exact step_tag_dot U _ _ (tagNode (String.singleton a) []) rfl hne rfl rfl)]
        obtain ⟨s', h1, h2⟩ := lexLoop_classes U
          ((as ++ '.' :: (c.data ++ cs.flatMap (fun k => '.' :: k.data))).length + 1) cs c
          { tagNode (String.singleton a) [] with Name := ⟨a :: as⟩ }
          { root := tagNode "" [{ tagNode (String.singleton a) [] with Name := ⟨a :: as⟩ }],
            node := [0], stk := [⟨0, [0]⟩],
            last := 0, st := .sClass, tag := ⟨a :: as⟩, id := "", class_ := "",
            aname := "", avalue := "" }
          (1 + as.length + 1) (hcs c (List.mem_cons_self _ _))
          (fun q hq => hcs q (List.mem_cons_of_mem _ hq)) rfl rfl rfl rfl
          (by simp only [List.length_append, List.length_cons]; omega)
        exact ⟨s', h1, by rw [h2]; rfl⟩
    | some x =>
      have hx : plainName x = true := hi x rfl
      have hxlen := plainName_length x hx
      cases cs with
      | nil =>
        obtain ⟨xs, z, rfl, hxs, hz⟩ := plainName_snoc x hx
        have hl : shorthandLine ⟨a :: as⟩ (some ⟨xs ++ [z]⟩) [] =
            ⟨a :: (as ++ '#' :: (xs ++ [z]))⟩ := by
          simp [shorthandLine]
        rw [hl, lexLine_tag_then U a as _ ha has (by simp)]
        rw [lexLoop_cons_ok U _ '#' _ _ _ _ (by
          have heol : (1 + as.length + 1 == (as ++ '#' :: (xs ++ [z])).length + 1) = false := by
            simp only [beq_eq_false_iff_ne, ne_eq, List.length_append, List.length_cons]
            omega
          rw [heol]
          exact step_tag_hash U _ _ (tagNode (String.singleton a) []) rfl hne rfl rfl)]
        rw [lexLoop_id_last U _ xs z _ _
          { tagNode (String.singleton a) [] with Name := ⟨a :: as⟩ } hxs hz
          (by simp only [List.length_append, List.length_cons, List.length_nil]; omega)
          rfl rfl rfl]
        exact ⟨_, rfl, rfl⟩
      | cons c cs =>
        have hl : shorthandLine ⟨a :: as⟩ (some x) (c :: cs) =
            ⟨a :: (as ++ '#' :: (x.data ++
              '.' :: (c.data ++ cs.flatMap (fun k => '.' :: k.data))))⟩ := by
          simp [shorthandLine]
        rw [hl, lexLine_tag_then U a as _ ha has (by simp)]
        rw [lexLoop_cons_ok U _ '#' _ _ _ _ (by
          have heol : (1 + as.length + 1 == (as ++ '#' :: (x.data ++
              '.' :: (c.data ++ cs.flatMap (fun k => '.' :: k.data)))).length + 1) = false := by
            simp only [beq_eq_false_iff_ne, ne_eq, List.length_append, List.length_cons]
            omega
          rw [heol]
          exact step_tag_hash U _ _ (tagNode (String.singleton a) []) rfl hne rfl rfl)]
        rw [lexLoop_id_mid U _ x.data _ _ _ (plainName_all x hx)
          (by simp only [List.length_append, List.length_cons]; omega) rfl]
        rw [lexLoop_cons_ok U _ '.' _ _ _ _ (by
          have heol : (1 + as.length + 1 + x.data.length + 1 == (as ++ '#' :: (x.data ++
              '.' :: (c.data ++ cs.flatMap (fun k => '.' :: k.data)))).length + 1) = false := by
            simp only [beq_eq_false_iff_ne, ne_eq, List.length_append, List.length_cons]
            have := plainName_length c (hcs c (List.mem_cons_self _ _))
            omega
          rw [heol]
          exact step_id_dot U _ _ { tagNode (String.singleton a) [] with Name := ⟨a :: as⟩ }
            rfl rfl rfl)]
        obtain ⟨s', h1, h2⟩ := lexLoop_classes U
          ((as ++ '#' :: (x.data ++
              '.' :: (c.data ++ cs.flatMap (fun k => '.' :: k.data)))).length + 1) cs c
          { tagNode (String.singleton a) [] with Name := ⟨a :: as⟩, Id := x }
          { root := tagNode ""
              [{ tagNode (String.singleton a) [] with Name := ⟨a :: as⟩, Id := x }],
            node := [0], stk := [⟨0, [0]⟩],
            last := 0, st := .sClass, tag := ⟨a :: as⟩, id := x, class_ := "",
            aname := "", avalue := "" }
          (1 + as.length + 1 + x.data.length + 1) (hcs c (List.mem_cons_self _ _))
          (fun q hq => hcs q (List.mem_cons_of_mem _ hq)) rfl rfl rfl rfl
          (by simp only [List.length_append, List.length_cons]; omega)
        exact ⟨s', h1, by rw [h2]; rfl⟩

/-- C17: for every tag name `t`, optional id `i` and class names `c1..cm`
(`m ≥ 0`), all of them non-empty words of ASCII letters, parsing the single line
`t#i.c1.c2...cm` (or `t.c1...cm` when there is no id) succeeds and yields a
root with exactly one child, whose Name is `t`, whose Id is `i` (empty when
absent), whose Class list is `[c1, ..., cm]` in written order, and whose Attr,
Text, Expr and Children are empty. -/
theorem C17_tag_with_shorthand {Val : Type} (U : UnicodeTables) (t : String)
    (i : Option String) (cs : List String) (ht : plainName t = true)
    (hi : ∀ x ∈ i, plainName x = true) (hcs : ∀ c ∈ cs, plainName c = true) :
    (Parse U ⟨[shorthandLine t i cs], none⟩ : Except Fault (Template Val)) =
      .ok ⟨⟨"", "", [], [], "", "", [⟨t, i.getD "", cs, [], "", "", []⟩]⟩, []⟩ := by
  obtain ⟨s, h1, h2⟩ := scanLines_shorthand U t i cs ht hi hcs
  rw [nest_of_scan U _ s h1, h2]
  rfl

/-- C17 at the line `p#a.b.cd`. -/
theorem C17_tag_with_shorthand_witness :
    shorthandLine "p" (some "a") ["b", "cd"] = "p#a.b.cd" ∧
    plainName "p" = true ∧ (∀ x ∈ some "a", plainName x = true) ∧
    (∀ c ∈ ["b", "cd"], plainName c = true) ∧
    (Parse noTables ⟨[shorthandLine "p" (some "a") ["b", "cd"]], none⟩ :
        Except Fault (Template Unit)) =
      .ok ⟨⟨"", "", [], [], "", "", [⟨"p", (some "a").getD "", ["b", "cd"], [], "", "", []⟩]⟩,
        []⟩ :=
  ⟨by decide!, by decide!, by decide!, by decide!,
    C17_tag_with_shorthand noTables "p" (some "a") ["b", "cd"] (by decide!) (by decide!)
      (by decide!)⟩

/-! ### Quoted attribute values -/

theorem string_ne_empty (s : String) (h : s.data ≠ []) : s ≠ "" := by
  intro h2
  exact h (by rw [h2])

theorem step_tag_space (U : UnicodeTables) (n : Nat) (s : Lex) (x : Node)
    (hst : s.st = .sTag) (htag : s.tag ≠ "") (hroot : s.root = tagNode "" [x])
    (hnode : s.node = [0]) :
    step U false n ' ' s =
      .ok { s with root := tagNode "" [{ x with Name := s.tag }], st := .sAttrKey } := by
  unfold step
  rw [hst]
  simp only [Bool.false_eq_true, if_false, show (' ' : Char) ≠ '=' by decide,
    show (' ' : Char) ≠ '#' by decide, show (' ' : Char) ≠ '.' by decide, htag,
    decide_False, Bool.false_and, show isSpace ' ' = true by decide, if_true, hroot, hnode,
    store_one]
  rfl

theorem step_key_mid (U : UnicodeTables) (n : Nat) (a : Char) (s : Lex)
    (hst : s.st = .sAttrKey) (ha : asciiLetter a = true) :
    step U false n a s = .ok { s with aname := addRune s.aname a } := by
  unfold step
  rw [hst]
  have h6 : a ≠ '=' := asciiLetter_ne a _ ha (by decide)
  simp only [Bool.false_eq_true, if_false, h6]
  rfl

theorem step_key_eq (U : UnicodeTables) (n : Nat) (s : Lex)
    (hst : s.st = .sAttrKey) (hk : s.aname ≠ "") :
    step U false n '=' s = .ok { s with st := .sAttrValue } := by
  unfold step
  rw [hst]
  simp only [Bool.false_eq_true, if_false, if_true, hk]
  rfl

theorem step_value_open (U : UnicodeTables) (n : Nat) (r : Char) (s : Lex)
    (hst : s.st = .sAttrValue) (hv : s.avalue = "") :
    step U false n r s = .ok { s with avalue := addRune s.avalue r } := by
  unfold step
  rw [hst]
  simp only [Bool.false_eq_true, if_false, hv, ne_eq, not_true_eq_false, decide_False,
    Bool.false_and]
  rfl

theorem step_value_nonspace (U : UnicodeTables) (n : Nat) (r : Char) (s : Lex)
    (hst : s.st = .sAttrValue) (hr : isSpace r = false) :
    step U false n r s = .ok { s with avalue := addRune s.avalue r } := by
  unfold step
  rw [hst]
  simp only [Bool.false_eq_true, if_false, hr, Bool.and_false]
  rfl

theorem step_value_inner (U : UnicodeTables) (n : Nat) (r : Char) (s : Lex) (pfx : List Char)
    (hst : s.st = .sAttrValue) (hv : s.avalue.data = '"' :: pfx) (hne : pfx ≠ [])
    (hq : '"' ∉ pfx) :
    step U false n r s = .ok { s with avalue := addRune s.avalue r } := by
  cases hr : isSpace r with
  | false => exact step_value_nonspace U n r s hst hr
  | true =>
    have hlast : ('"' :: pfx).getLast? ≠ some '"' := by
      intro h
      cases pfx with
      | nil => exact hne rfl
      | cons b bs =>
        rw [List.getLast?_cons_cons] at h
        exact hq (List.mem_of_mem_getLast? h)
    unfold step
    rw [hst]
    simp only [Bool.false_eq_true, if_false, hr, Bool.and_true, hv, hlast,
      string_ne_empty s.avalue (by rw [hv]; simp), ne_eq, not_false_eq_true, decide_True,
      if_true]
    rfl

theorem step_value_close_eol (U : UnicodeTables) (n : Nat) (s : Lex) (x : Node) (v : List Char)
    (hst : s.st = .sAttrValue) (hv : s.avalue.data = '"' :: v)
    (hroot : s.root = tagNode "" [x]) (hnode : s.node = [0]) :
    step U true n '"' s =
      .ok { s with
        root := tagNode "" [{ x with Attr := x.Attr ++ [⟨s.aname, trimSpace ⟨v⟩⟩] }],
        avalue := ⟨v⟩ } := by
  unfold step
  rw [hst]
  have hd : (addRune s.avalue '"').data = '"' :: (v ++ ['"']) := by
    rw [addRune_data, hv]
    rfl
  have hlast : ('"' :: (v ++ ['"'])).getLast? = some '"' := by
    rw [← List.cons_append, List.getLast?_append]
    rfl
  simp only [if_true, Bool.or_true, decide_True, hd, hlast, Bool.and_true]
  cases v with
  | nil =>
    simp only [List.nil_append, List.dropLast_single, hroot, hnode, store_one]
    rfl
  | cons b bs =>
    simp only [List.cons_append, hroot, hnode, store_one]
    rw [← List.cons_append, List.dropLast_concat]
    rfl

theorem step_value_commit (U : UnicodeTables) (n : Nat) (s : Lex) (x : Node) (v : List Char)
    (hst : s.st = .sAttrValue) (hv : s.avalue.data = '"' :: (v ++ ['"']))
    (hroot : s.root = tagNode "" [x]) (hnode : s.node = [0]) :
    step U false n ' ' s =
      .ok { s with
        root := tagNode "" [{ x with Attr := x.Attr ++ [⟨s.aname, trimSpace ⟨v⟩⟩] }],
        aname := "", avalue := "", st := .sAttrKey } := by
  unfold step
  rw [hst]
  have hlast : ('"' :: (v ++ ['"'])).getLast? = some '"' := by
    rw [← List.cons_append, List.getLast?_append]
    rfl
  simp only [Bool.false_eq_true, if_false, show isSpace ' ' = true by decide, Bool.and_true,
    hv, hlast, string_ne_empty s.avalue (by rw [hv]; simp), ne_eq, not_false_eq_true,
    decide_True, if_true]
  cases v with
  | nil =>
    simp only [List.nil_append, List.dropLast_single, hroot, hnode, store_one]
    rfl
  | cons b bs =>
    simp only [List.cons_append, hroot, hnode, store_one]
    rw [← List.cons_append, List.dropLast_concat]
    rfl

theorem lexLoop_key_mid (U : UnicodeTables) (len : Nat) (as : List Char) :
    ∀ (rest : List Char) (n : Nat) (s : Lex), (∀ c ∈ as, asciiLetter c = true) →
      n + as.length < len → s.st = .sAttrKey →
      lexLoop U len (as ++ rest) n s =
        lexLoop U len rest (n + as.length) { s with aname := ⟨s.aname.data ++ as⟩ } := by
  induction as with
  | nil => intro rest n s _ _ _; simp
  | cons a as ih =>
    intro rest n s hall hlen hst
    have heol : (n + 1 == len) = false := by
      simp only [List.length_cons] at hlen
      simp only [beq_eq_false_iff_ne, ne_eq]
      omega
    rw [List.cons_append, lexLoop_cons_ok U len a _ n s _
      (by rw [heol]; exact step_key_mid U n a s hst (hall a (List.mem_cons_self _ _)))]
    rw [ih rest (n + 1) { s with aname := addRune s.aname a }
      (fun c hc => hall c (List.mem_cons_of_mem _ hc))
      (by simp only [List.length_cons] at hlen; omega) hst]
    simp only [addRune_data, List.append_assoc, List.singleton_append, List.length_cons]
    congr 1
    omega

theorem lexLoop_value_inner (U : UnicodeTables) (len : Nat) (v : List Char) :
    ∀ (rest : List Char) (n : Nat) (s : Lex) (pfx : List Char),
      s.avalue.data = '"' :: pfx → pfx ≠ [] → '"' ∉ pfx → '"' ∉ v →
      n + v.length < len → s.st = .sAttrValue →
      lexLoop U len (v ++ rest) n s =
        lexLoop U len rest (n + v.length) { s with avalue := ⟨s.avalue.data ++ v⟩ } := by
  induction v with
  | nil => intro rest n s _ _ _ _ _ _ _; simp
  | cons a as ih =>
    intro rest n s pfx hv hne hq hqv hlen hst
    have heol : (n + 1 == len) = false := by
      simp only [List.length_cons] at hlen
      simp only [beq_eq_false_iff_ne, ne_eq]
      omega
    rw [List.cons_append, lexLoop_cons_ok U len a _ n s _
      (by rw [heol]; exact step_value_inner U n a s pfx hst hv hne hq)]
    rw [ih rest (n + 1) { s with avalue := addRune s.avalue a } (pfx ++ [a])
      (by simp only [addRune_data, hv, List.cons_append])
      (by simp)
      (by
        intro h
        rcases List.mem_append.1 h with h | h
        · exact hq h
        · simp only [List.mem_singleton] at h
          exact hqv (by rw [← h]; exact List.mem_cons_self _ _))
      (fun h => hqv (List.mem_cons_of_mem _ h))
      (by simp only [List.length_cons] at hlen; omega) hst]
    simp only [addRune_data, List.append_assoc, List.singleton_append, List.length_cons]
    congr 1
    omega

theorem quotable_no_quote (v : String) (h : quotable v = true) : '"' ∉ v.data := by
  simp only [quotable, Bool.and_eq_true, List.all_eq_true, decide_eq_true_eq] at h
  intro hm
  exact h.1 _ hm rfl

theorem lexLoop_value_full (U : UnicodeTables) (len : Nat) (v : String) (rest : List Char)
    (n : Nat) (s : Lex) (hq : quotable v = true) (hlen : n + 1 + v.data.length < len)
    (hst : s.st = .sAttrValue) (hv : s.avalue = "") :
    lexLoop U len ('"' :: (v.data ++ rest)) n s =
      lexLoop U len rest (n + 1 + v.data.length) { s with avalue := ⟨'"' :: v.data⟩ } := by
  have hnq := quotable_no_quote v hq
  have heol : (n + 1 == len) = false := by
    simp only [beq_eq_false_iff_ne, ne_eq]
    omega
  rw [lexLoop_cons_ok U len '"' _ n s _
    (by rw [heol]; exact step_value_open U n '"' s hst hv)]
  obtain ⟨d⟩ := v
  cases d with
  | nil =>
    simp only [List.nil_append, List.length_nil, Nat.add_zero, hv]
    rfl
  | cons c cs =>
    have hc : isSpace c = false := by
      simp only [quotable, Bool.and_eq_true, Bool.not_eq_true'] at hq
      exact hq.2
    have heol2 : (n + 1 + 1 == len) = false := by
      simp only [List.length_cons] at hlen
      simp only [beq_eq_false_iff_ne, ne_eq]
      omega
    rw [List.cons_append, lexLoop_cons_ok U len c _ _ _ _
      (by rw [heol2]; exact step_value_nonspace U _ c _ hst hc)]
    rw [lexLoop_value_inner U len cs rest (n + 1 + 1)
      { s with avalue := addRune (addRune s.avalue '"') c } [c]
      (by simp only [addRune_data, hv]; rfl) (by simp)
      (by
        intro h
        simp only [List.mem_singleton] at h
        exact hnq (by rw [h]; exact List.mem_cons_self _ _))
      (fun h => hnq (List.mem_cons_of_mem _ h))
      (by simp only [List.length_cons] at hlen; omega) hst]
    simp only [addRune_data, hv, List.length_cons]
    congr 1
    omega

theorem lexLoop_pair (U : UnicodeTables) (len : Nat) (k v : String) (rest : List Char)
    (n : Nat) (s : Lex) (hk : plainName k = true) (hq : quotable v = true)
    (hlen : n + k.data.length + 2 + v.data.length < len)
    (hst : s.st = .sAttrKey) (ha : s.aname = "") (hv : s.avalue = "") :
    lexLoop U len (k.data ++ '=' :: '"' :: (v.data ++ rest)) n s =
      lexLoop U len rest (n + k.data.length + 2 + v.data.length)
        { s with st := .sAttrValue, aname := k, avalue := ⟨'"' :: v.data⟩ } := by
  rw [lexLoop_key_mid U len k.data _ n s (plainName_all k hk) (by omega) hst]
  have heol : (n + k.data.length + 1 == len) = false := by
    simp only [beq_eq_false_iff_ne, ne_eq]
    omega
  rw [lexLoop_cons_ok U len '=' _ _ _ _ (by
    rw [heol]
    exact step_key_eq U _ _ hst
      (string_ne_empty _ (by
        have := plainName_length k hk
        simp only [ha]
        intro h
        have h2 : k.data = [] := by simpa using h
        rw [h2] at this
        exact Nat.lt_irrefl _ this)))]
  dsimp only
  rw [lexLoop_value_full U len v rest _
    { s with st := .sAttrValue, aname := ⟨s.aname.data ++ k.data⟩ } hq (by omega) rfl hv]
  simp only [ha]
  congr 1

theorem lexLoop_attrs (U : UnicodeTables) (len : Nat) (ps : List (String × String)) :
    ∀ (p : String × String) (x : Node) (s : Lex) (n : Nat), plainName p.1 = true →
      quotable p.2 = true → (∀ q ∈ ps, plainName q.1 = true ∧ quotable q.2 = true) →
      s.st = .sAttrKey → s.aname = "" → s.avalue = "" → s.root = tagNode "" [x] →
      s.node = [0] →
      n + (p.1.data ++ '=' :: '"' :: (p.2.data ++ '"' :: ps.flatMap
        (fun q => ' ' :: (q.1.data ++ '=' :: '"' :: (q.2.data ++ ['"']))))).length = len →
      ∃ s', lexLoop U len (p.1.data ++ '=' :: '"' :: (p.2.data ++ '"' :: ps.flatMap
          (fun q => ' ' :: (q.1.data ++ '=' :: '"' :: (q.2.data ++ ['"']))))) n s = .ok s' ∧
        s'.root = tagNode "" [{ x with
          Attr := x.Attr ++ (p :: ps).map (fun q => ⟨q.1, trimSpace q.2⟩) }] := by
  induction ps with
  | nil =>
    intro p x s n hk hq _ hst ha hv hroot hnode hlen
    simp only [List.flatMap_nil, List.length_append, List.length_cons, List.length_nil] at hlen ⊢
    rw [lexLoop_pair U len p.1 p.2 _ n s hk hq (by omega) hst ha hv]
    have heol : (n + p.1.data.length + 2 + p.2.data.length + 1 == len) = true := by
      simp only [beq_iff_eq]
      omega
    rw [lexLoop_cons_ok U len '"' [] _ _ _ (by
      rw [heol]
      exact step_value_close_eol U _ _ x p.2.data rfl rfl hroot hnode)]
    exact ⟨_, rfl, rfl⟩
  | cons q qs ih =>
    intro p x s n hk hq hps hst ha hv hroot hnode hlen
    simp only [List.flatMap_cons, List.length_append, List.length_cons, List.cons_append,
      List.append_assoc, List.nil_append, List.length_nil] at hlen ⊢
    rw [lexLoop_pair U len p.1 p.2 _ n s hk hq (by omega) hst ha hv]
    have heol : (n + p.1.data.length + 2 + p.2.data.length + 1 == len) = false := by
      simp only [beq_eq_false_iff_ne, ne_eq]
      omega
    rw [lexLoop_cons_ok U len '"' _ _ _ _ (by
      rw [heol]
      exact step_value_nonspace U _ '"' _ rfl (by decide))]
    have heol2 : (n + p.1.data.length + 2 + p.2.data.length + 1 + 1 == len) = false := by
      simp only [beq_eq_false_iff_ne, ne_eq]
      omega
    rw [lexLoop_cons_ok U len ' ' _ _ _ _ (by
      rw [heol2]
      exact step_value_commit U _ _ x p.2.data rfl
        (by simp only [addRune_data]; rfl) hroot hnode)]
    obtain ⟨s', h1, h2⟩ := ih q { x with Attr := x.Attr ++ [⟨p.1, trimSpace ⟨p.2.data⟩⟩] }
      { s with
        root := tagNode "" [{ x with Attr := x.Attr ++ [⟨p.1, trimSpace ⟨p.2.data⟩⟩] }],
        aname := "", avalue := "", st := .sAttrKey }
      (n + p.1.data.length + 2 + p.2.data.length + 1 + 1)
      (hps q (List.mem_cons_self _ _)).1 (hps q (List.mem_cons_self _ _)).2
      (fun r hr => hps r (List.mem_cons_of_mem _ hr)) rfl rfl rfl rfl hnode
      (by simp only [List.length_append, List.length_cons]; omega)
    refine ⟨s', h1, ?_⟩
    rw [h2]
    simp only [List.map_cons, List.append_assoc, List.singleton_append]

theorem scanLines_attrs (U : UnicodeTables) (t : String) (p : String × String)
    (ps : List (String × String)) (ht : plainName t = true)
    (hps : ∀ q ∈ p :: ps, plainName q.1 = true ∧ quotable q.2 = true) :
    ∃ s, scanLines U [attrLine t (p :: ps)] = .ok s ∧
      s.root = tagNode ""
        [⟨t, "", [], (p :: ps).map (fun q => ⟨q.1, trimSpace q.2⟩), "", "", []⟩] := by
  have htall := plainName_all t ht
  have htlen := plainName_length t ht
  obtain ⟨d⟩ := t
  cases d with
  | nil => simp at htlen
  | cons a as =>
    have ha : asciiLetter a = true := htall a (List.mem_cons_self _ _)
    have has : ∀ c ∈ as, asciiLetter c = true := fun c hc => htall c (List.mem_cons_of_mem _ hc)
    have hne : (⟨a :: as⟩ : String) ≠ "" := string_ne_empty _ (by simp)
    have hl : attrLine ⟨a :: as⟩ (p :: ps) =
        ⟨a :: (as ++ ' ' :: (p.1.data ++ '=' :: '"' :: (p.2.data ++ '"' :: ps.flatMap
          (fun q => ' ' :: (q.1.data ++ '=' :: '"' :: (q.2.data ++ ['"']))))))⟩ := by
      simp [attrLine]
    rw [scanLines_single, hl, lexLine_tag_then U a as _ ha has (by simp)]
    rw [lexLoop_cons_ok U _ ' ' _ _ _ _ (by
      have heol : (1 + as.length + 1 ==
          (as ++ ' ' :: (p.1.data ++ '=' :: '"' :: (p.2.data ++ '"' :: ps.flatMap
            (fun q => ' ' :: (q.1.data ++ '=' :: '"' :: (q.2.data ++ ['"'])))))).length + 1)
          = false := by
        simp only [beq_eq_false_iff_ne, ne_eq, List.length_append, List.length_cons]
        omega
      rw [heol]
      exact step_tag_space U _ _ (tagNode (String.singleton a) []) rfl hne rfl rfl)]
    obtain ⟨s', h1, h2⟩ := lexLoop_attrs U
      ((as ++ ' ' :: (p.1.data ++ '=' :: '"' :: (p.2.data ++ '"' :: ps.flatMap
        (fun q => ' ' :: (q.1.data ++ '=' :: '"' :: (q.2.data ++ ['"'])))))).length + 1) ps p
      { tagNode (String.singleton a) [] with Name := ⟨a :: as⟩ }
      { root := tagNode "" [{ tagNode (String.singleton a) [] with Name := ⟨a :: as⟩ }],
        node := [0], stk := [⟨0, [0]⟩],
        last := 0, st := .sAttrKey, tag := ⟨a :: as⟩, id := "", class_ := "",
        aname := "", avalue := "" }
      (1 + as.length + 1) (hps p (List.mem_cons_self _ _)).1 (hps p (List.mem_cons_self _ _)).2
      (fun q hq => hps q (List.mem_cons_of_mem _ hq)) rfl rfl rfl rfl rfl
      (by simp only [List.length_append, List.length_cons]; omega)
    exact ⟨s', h1, by rw [h2]; rfl⟩

/-- C14 does not hold as stated: on the line `t k="a "` the value has no `"`,
yet the attribute committed is `(k, "a")` and not `(k, "a ")`: the white space
at the end of the quoted value is trimmed. On the line `t k=" a"`, whose value
begins with a space, the parse aborts with the run-time panic of the slice
`avalue[1:0]`. -/
theorem C14_counterexample_quoted_values :
    (Parse noTables ⟨["t k=\"a \""], none⟩ : Except Fault (Template Unit)) =
        .ok ⟨⟨"", "", [], [], "", "", [⟨"t", "", [], [⟨"k", "a"⟩], "", "", []⟩]⟩, []⟩ ∧
      (⟨"k", "a"⟩ : Attr) ≠ ⟨"k", "a "⟩ ∧
      (Parse noTables ⟨["t k=\" a\""], none⟩ : Except Fault (Template Unit)) =
        .error (.panic "slice bounds out of range [1:0]") := by
  decide!

/-- C14, amended: for every tag name `t` and attribute names `k1..km` (`m ≥ 1`,
non-empty words of ASCII letters) and all values `v1..vm` that contain no `"`
and do not begin with a white-space character (they may contain spaces),
parsing the single line `t k1="v1" ... km="vm"` succeeds and yields one node
named `t` whose Attr list is `[(k1, TrimSpace v1), ..., (km, TrimSpace vm)]` in
that order: the surrounding quotes are stripped, white space inside the quotes
does not end the value, and white space at the end of a value is trimmed. -/
theorem C14_quoted_attribute_values {Val : Type} (U : UnicodeTables) (t : String)
    (p : String × String) (ps : List (String × String)) (ht : plainName t = true)
    (hps : ∀ q ∈ p :: ps, plainName q.1 = true ∧ quotable q.2 = true) :
    (Parse U ⟨[attrLine t (p :: ps)], none⟩ : Except Fault (Template Val)) =
      .ok ⟨⟨"", "", [], [], "", "",
        [⟨t, "", [], (p :: ps).map (fun q => ⟨q.1, trimSpace q.2⟩), "", "", []⟩]⟩, []⟩ := by
  obtain ⟨s, h1, h2⟩ := scanLines_attrs U t p ps ht hps
  rw [nest_of_scan U _ s h1, h2]
  rfl

/-- C14 (amended) at the line `a href="x y" title="" rel="no follow "`. -/
theorem C14_quoted_attribute_values_witness :
    attrLine "a" [("href", "x y"), ("title", ""), ("rel", "no follow ")] =
      "a href=\"x y\" title=\"\" rel=\"no follow \"" ∧
    plainName "a" = true ∧
    (∀ q ∈ [("href", "x y"), ("title", ""), ("rel", "no follow ")],
      plainName q.1 = true ∧ quotable q.2 = true) ∧
    (Parse noTables ⟨[attrLine "a" [("href", "x y"), ("title", ""), ("rel", "no follow ")]],
        none⟩ : Except Fault (Template Unit)) =
      .ok ⟨⟨"", "", [], [], "", "",
        [⟨"a", "", [],
          [("href", "x y"), ("title", ""), ("rel", "no follow ")].map
            (fun q => ⟨q.1, trimSpace q.2⟩), "", "", []⟩]⟩, []⟩ ∧
    [("href", "x y"), ("title", ""), ("rel", "no follow ")].map
        (fun q => (⟨q.1, trimSpace q.2⟩ : Attr)) =
      [⟨"href", "x y"⟩, ⟨"title", ""⟩, ⟨"rel", "no follow"⟩] :=
  ⟨by decide!, by decide!, by decide!,
    C14_quoted_attribute_values noTables "a" ("href", "x y") [("title", ""), ("rel", "no follow ")]
      (by decide!) (by decide!), by decide!⟩

/-! ### Dedent to an inner level -/

theorem get?_append (p q : Ptr) : ∀ (n : Node),
    n.get? (p ++ q) = (n.get? p).bind (fun m => m.get? q) := by
  induction p with
  | nil => intro n; rfl
  | cons i p ih =>
    intro n
    simp only [List.cons_append, Node.get?]
    cases n.Children[i]? with
    | none => rfl
    | some c => exact ih c

theorem update_append (f : Node → Node) (p q : Ptr) : ∀ (n : Node),
    Node.update f (p ++ q) n = Node.update (Node.update f q) p n := by
  induction p with
  | nil => intro n; rfl
  | cons i p ih =>
    intro n
    show ({ n with Children := n.Children.modify (Node.update f (p ++ q)) i } : Node) =
      { n with Children := n.Children.modify (Node.update (Node.update f q) p) i }
    have h : Node.update f (p ++ q) = Node.update (Node.update f q) p := funext ih
    rw [h]

theorem spine_append (nm : String) (xs : List String) (y : String) (ys : List String)
    (k : List Node) : spine nm (xs ++ y :: ys) k = spine nm xs [spine y ys k] := by
  induction xs generalizing nm with
  | nil => rfl
  | cons t ts ih =>
    show (⟨nm, "", [], [], "", "", [spine t (ts ++ y :: ys) k]⟩ : Node) = _
    rw [ih t]
    rfl

theorem spine_update_last (f : Node → Node) (k k' : List Node)
    (hf : ∀ nm, f (spine nm [] k) = spine nm [] k') (nm : String) (rest : List String) :
    Node.update f (List.replicate rest.length 0) (spine nm rest k) = spine nm rest k' := by
  induction rest generalizing nm with
  | nil => exact hf nm
  | cons t ts ih =>
    simp only [List.length_cons, List.replicate_succ, Node.update, spine]
    simp [ih t]

theorem nestStack_append (A B : List (Nat × String)) : ∀ (d : Nat),
    nestStack d (A ++ B) = nestStack d A ++ nestStack (d + A.length) B := by
  induction A with
  | nil => intro d; rfl
  | cons a A ih =>
    intro d
    show (⟨a.1, List.replicate (d + 1) 0⟩ : stack) :: nestStack (d + 1) (A ++ B) = _
    rw [ih (d + 1), List.length_cons, show d + (A.length + 1) = d + 1 + A.length by omega]
    rfl

theorem nestStack_length (A : List (Nat × String)) : ∀ (d : Nat),
    (nestStack d A).length = A.length := by
  induction A with
  | nil => intro d; rfl
  | cons a A ih => intro d; simp only [nestStack, List.length_cons, ih (d + 1)]

theorem nestStack_col (A : List (Nat × String)) : ∀ (d : Nat) (e : stack),
    e ∈ nestStack d A → e.n ∈ A.map Prod.fst := by
  induction A with
  | nil => intro d e h; cases h
  | cons a A ih =>
    intro d e h
    simp only [nestStack, List.mem_cons] at h
    rcases h with h | h
    · subst h
      simp
    · simp only [List.map_cons, List.mem_cons]
      exact Or.inr (ih (d + 1) e h)

theorem firstAtLeast_append (n : Nat) (xs : List stack) (y : stack) (ys : List stack) :
    ∀ (i : Nat), (∀ e ∈ xs, e.n < n) → n ≤ y.n →
      firstAtLeast n (xs ++ y :: ys) i = some (i + xs.length) := by
  induction xs with
  | nil =>
    intro i _ hy
    simp only [List.nil_append, firstAtLeast, ge_iff_le, hy, if_true, List.length_nil,
      Nat.add_zero]
  | cons x xs ih =>
    intro i hx hy
    have h1 : ¬ x.n ≥ n := by
      have := hx x (List.mem_cons_self _ _)
      omega
    show (if x.n ≥ n then some i else firstAtLeast n (xs ++ y :: ys) (i + 1)) = _
    rw [if_neg h1, ih (i + 1) (fun e he => hx e (List.mem_cons_of_mem _ he)) hy,
      List.length_cons]
    congr 1
    omega

theorem lexLine_nest (U : UnicodeTables) (s : Lex) (pre : List String) (c : Nat) (t : String)
    (hroot : s.root = spine "" pre []) (hnode : s.node = List.replicate pre.length 0)
    (hlast : s.last < c) (hpre : ∀ t ∈ pre, plainName t = true) (ht : plainName t = true) :
    lexLine U s (indented c t) = .ok
      { root := spine "" (pre ++ [t]) [], node := List.replicate (pre.length + 1) 0,
        stk := s.stk ++ [⟨c, List.replicate (pre.length + 1) 0⟩], last := c, st := .sTag,
        tag := t, id := "", class_ := "", aname := "", avalue := "" } := by
  have hall := plainName_all t ht
  have hlen := plainName_length t ht
  obtain ⟨d⟩ := t
  cases d with
  | nil => simp at hlen
  | cons a as =>
    have ha : asciiLetter a = true := hall a (List.mem_cons_self _ _)
    unfold lexLine indented
    rw [lexLoop_spaces U _ c (a :: as) 0 _ rfl, lexLoop, step_neutral_letter U _ _ a _ rfl ha]
    dsimp only
    rw [resolve_deeper (0 + c) { s with
      st := .sTag, tag := addRune "" a, id := "", class_ := "", aname := "", avalue := "" }
      pre hroot hnode (by simpa using hlast) hpre]
    dsimp only [bind, Except.bind]
    rcases List.eq_nil_or_concat as with rfl | ⟨bs, z, rfl⟩
    · simp only [lexLoop, Nat.zero_add]
      rfl
    · rw [List.concat_eq_append,
        lexLoop_tag_mid U _ bs [z] _ _
          (fun x hx => hall x (List.mem_cons_of_mem _ (by simp [hx])))
          (by simp; omega) rfl (by
            intro h
            have := congrArg String.data h
            rw [addRune_data] at this
            simp at this)]
      rw [lexLoop_cons_ok U _ z [] _ _ _ (by
        have he : (0 + c + 1 + bs.length + 1 ==
            (List.replicate c ' ' ++ a :: (bs ++ [z])).length) = true := by
          simp; omega
        rw [he]
        exact step_tag_eol U _ z _ pre (addRune "" a) rfl rfl rfl)]
      simp only [lexLoop, Nat.zero_add, addRune_mk, addRune_data, pure, Except.pure]
      rfl

theorem foldlM_nest (U : UnicodeTables) (ls : List (Nat × String)) :
    ∀ (s : Lex) (pre : List String), s.root = spine "" pre [] →
      s.node = List.replicate pre.length 0 → (∀ t ∈ pre, plainName t = true) →
      (∀ p ∈ ls, plainName p.2 = true) → (ls.map Prod.fst).Pairwise (· < ·) →
      (∀ p ∈ ls, s.last < (p.1 : Int)) →
      ∃ s', (ls.map (fun p => indented p.1 p.2)).foldlM (lexLine U) s = .ok s' ∧
        s'.root = spine "" (pre ++ ls.map Prod.snd) [] ∧
        s'.stk = s.stk ++ nestStack pre.length ls ∧
        (∀ p ∈ ls.getLast?, s'.last = (p.1 : Int)) := by
  induction ls with
  | nil =>
    intro s pre hroot _ _ _ _ _
    exact ⟨s, rfl, by simpa using hroot, by simp [nestStack], by simp⟩
  | cons p ps ih =>
    intro s pre hroot hnode hpre hnames hcols hlast
    have h1 := lexLine_nest U s pre p.1 p.2 hroot hnode
      (hlast p (List.mem_cons_self _ _)) hpre (hnames p (List.mem_cons_self _ _))
    simp only [List.map_cons, List.pairwise_cons] at hcols
    obtain ⟨s', h5, h6, h7, h8⟩ := ih
      { root := spine "" (pre ++ [p.2]) [], node := List.replicate (pre.length + 1) 0,
        stk := s.stk ++ [⟨p.1, List.replicate (pre.length + 1) 0⟩], last := p.1, st := .sTag,
        tag := p.2, id := "", class_ := "", aname := "", avalue := "" }
      (pre ++ [p.2]) rfl (by simp)
      (by
        intro t ht
        rcases List.mem_append.1 ht with h | h
        · exact hpre t h
        · simp only [List.mem_singleton] at h
          subst h
          exact hnames p (List.mem_cons_self _ _))
      (fun q hq => hnames q (List.mem_cons_of_mem _ hq)) hcols.2
      (by
        intro q hq
        show ((p.1 : Nat) : Int) < (q.1 : Int)
        exact_mod_cast hcols.1 q.1 (List.mem_map_of_mem _ hq))
    refine ⟨s', ?_, ?_, ?_, ?_⟩
    · simp only [List.map_cons, List.foldlM_cons, h1]
      exact h5
    · rw [h6]; simp
    · rw [h7]
      simp only [nestStack, List.length_append, List.length_singleton, List.append_assoc,
        List.singleton_append]
    · intro q hq
      cases ps with
      | nil =>
        simp only [List.getLast?_singleton, Option.mem_def, Option.some.injEq] at hq
        subst hq
        simp only [List.map_nil, List.foldlM_nil, pure, Except.pure] at h5
        injection h5 with h5
        rw [← h5]
      | cons r rs =>
        rw [List.getLast?_cons_cons] at hq
        exact h8 q hq

theorem modify_last (g : Node → Node) (K : List Node) (x : Node) :
    (K ++ [x]).modify g K.length = K ++ [g x] := by
  induction K with
  | nil => rfl
  | cons k K ih =>
    show k :: (K ++ [x]).modify g K.length = _
    rw [ih]
    rfl

theorem getElem?_last (K : List Node) (x : Node) : (K ++ [x])[K.length]? = some x := by
  simp

theorem resolve_dedent (n : Nat) (s : Lex) (pre : List String) (K : List Node)
    (X : List stack) (e y : stack) (ys : List stack)
    (hroot : s.root = spine "" pre K) (hstk : s.stk = X ++ e :: y :: ys)
    (he : e.node = List.replicate pre.length 0) (hX : ∀ x ∈ X, x.n < n) (hen : e.n < n)
    (hy : n ≤ y.n) (hlast : (n : Int) < s.last) (hpre : ∀ t ∈ pre, plainName t = true) :
    resolve n s = .ok { s with
      last := n, root := spine "" pre (K ++ [⟨s.tag, "", [], [], "", "", []⟩]),
      node := List.replicate pre.length 0 ++ [K.length], stk := X ++ [e] } := by
  unfold resolve
  have h1 : ¬ (n : Int) > s.last := by omega
  have h2 : ¬ (n : Int) = s.last := by omega
  have hfa : firstAtLeast n (X ++ e :: y :: ys) 0 = some (X.length + 1) := by
    have := firstAtLeast_append n (X ++ [e]) y ys 0
      (by
        intro x hx
        rcases List.mem_append.1 hx with h | h
        · exact hX x h
        · simp only [List.mem_singleton] at h
          rw [h]
          exact hen)
      hy
    simpa using this
  have hidx : (X ++ e :: y :: ys)[X.length]? = some e := by
    rw [List.getElem?_append_right (Nat.le_refl _), Nat.sub_self]
    rfl
  have htake : (X ++ e :: y :: ys).take (X.length + 1) = X ++ [e] := by
    rw [show X ++ e :: y :: ys = (X ++ [e]) ++ y :: ys by simp]
    rw [List.take_left' (by simp)]
  have hc : endsColon (spine (pre.getLastD "") [] K).Name = false := endsColon_getLastD pre hpre
  have hnew : Node.update (fun x => { x with Children := x.Children ++ [Node.empty] })
      (List.replicate pre.length 0) (spine "" pre K) = spine "" pre (K ++ [Node.empty]) :=
    spine_update_last _ K (K ++ [Node.empty]) (fun _ => rfl) "" pre
  have hlen : (spine (pre.getLastD "") [] K).Children.length = K.length := rfl
  have hget : (spine "" pre (K ++ [Node.empty])).get? (List.replicate pre.length 0 ++ [K.length])
      = some Node.empty := by
    rw [get?_append, spine_get]
    show (match (K ++ [Node.empty])[K.length]? with
      | some c => c.get? []
      | none => none) = _
    rw [getElem?_last]
    rfl
  have hname : Node.update (fun x => { x with Name := s.tag })
      (List.replicate pre.length 0 ++ [K.length]) (spine "" pre (K ++ [Node.empty])) =
      spine "" pre (K ++ [⟨s.tag, "", [], [], "", "", []⟩]) := by
    rw [update_append]
    exact spine_update_last (Node.update (fun x => { x with Name := s.tag }) [K.length])
      (K ++ [Node.empty]) (K ++ [⟨s.tag, "", [], [], "", "", []⟩])
      (fun nm => by
        show (⟨nm, "", [], [], "", "",
          (K ++ [Node.empty]).modify (Node.update (fun x => { x with Name := s.tag }) [])
            K.length⟩ : Node) = _
        rw [modify_last]
        rfl) "" pre
  simp only [h1, h2, if_false, hstk, hfa, hidx, htake, load, NewChild, nameNode, store, hroot,
    he, spine_get, bind, Except.bind, pure, Except.pure, hc, Bool.false_eq_true, hnew, hlen,
    hget, hname]

theorem spine_store_last (pre : List String) (K : List Node) (m : Node) (g : Node → Node) :
    store (spine "" pre (K ++ [m])) (List.replicate pre.length 0 ++ [K.length]) g =
      .ok (spine "" pre (K ++ [g m])) := by
  have hget : (spine "" pre (K ++ [m])).get? (List.replicate pre.length 0 ++ [K.length])
      = some m := by
    rw [get?_append, spine_get]
    show (match (K ++ [m])[K.length]? with
      | some c => c.get? []
      | none => none) = _
    rw [getElem?_last]
    rfl
  have hupd : Node.update g (List.replicate pre.length 0 ++ [K.length])
      (spine "" pre (K ++ [m])) = spine "" pre (K ++ [g m]) := by
    rw [update_append]
    exact spine_update_last (Node.update g [K.length]) (K ++ [m]) (K ++ [g m])
      (fun nm => by
        show (⟨nm, "", [], [], "", "",
          (K ++ [m]).modify (Node.update g []) K.length⟩ : Node) = _
        rw [modify_last]
        rfl) "" pre
  simp only [store, hget, hupd]
  rfl

theorem step_tag_eol_last (U : UnicodeTables) (n : Nat) (a : Char) (s : Lex)
    (pre : List String) (K : List Node) (m : Node) (hst : s.st = .sTag)
    (hroot : s.root = spine "" pre (K ++ [m]))
    (hnode : s.node = List.replicate pre.length 0 ++ [K.length]) :
    step U true n a s = .ok { s with
      root := spine "" pre (K ++ [{ m with Name := addRune s.tag a }]),
      tag := addRune s.tag a } := by
  unfold step
  rw [hst]
  simp only [if_true, hroot, hnode, spine_store_last, bind, Except.bind, pure, Except.pure]

theorem lexLine_dedent (U : UnicodeTables) (s : Lex) (pre : List String) (K : List Node)
    (X : List stack) (e y : stack) (ys : List stack) (n : Nat) (t : String)
    (hroot : s.root = spine "" pre K) (hstk : s.stk = X ++ e :: y :: ys)
    (he : e.node = List.replicate pre.length 0) (hX : ∀ x ∈ X, x.n < n) (hen : e.n < n)
    (hy : n ≤ y.n) (hlast : (n : Int) < s.last) (hpre : ∀ t ∈ pre, plainName t = true)
    (ht : plainName t = true) :
    lexLine U s (indented n t) = .ok
      { root := spine "" pre (K ++ [tagNode t []]),
        node := List.replicate pre.length 0 ++ [K.length],
        stk := X ++ [e], last := n, st := .sTag,
        tag := t, id := "", class_ := "", aname := "", avalue := "" } := by
  have hall := plainName_all t ht
  have hlen := plainName_length t ht
  obtain ⟨d⟩ := t
  cases d with
  | nil => simp at hlen
  | cons a as =>
    have ha : asciiLetter a = true := hall a (List.mem_cons_self _ _)
    unfold lexLine indented
    rw [lexLoop_spaces U _ n (a :: as) 0 _ rfl, lexLoop, step_neutral_letter U _ _ a _ rfl ha]
    dsimp only
    rw [resolve_dedent (0 + n) { s with
      st := .sTag, tag := addRune "" a, id := "", class_ := "", aname := "", avalue := "" }
      pre K X e y ys hroot hstk he (by simpa using hX) (by simpa using hen)
      (by simpa using hy) (by simpa using hlast) hpre]
    dsimp only [bind, Except.bind]
    rcases List.eq_nil_or_concat as with rfl | ⟨bs, z, rfl⟩
    · simp only [lexLoop, Nat.zero_add]
      rfl
    · rw [List.concat_eq_append,
        lexLoop_tag_mid U _ bs [z] _ _
          (fun x hx => hall x (List.mem_cons_of_mem _ (by simp [hx])))
          (by simp; omega) rfl (by
            intro h
            have := congrArg String.data h
            rw [addRune_data] at this
            simp at this)]
      rw [lexLoop_cons_ok U _ z [] _ _ _ (by
        have he : (0 + n + 1 + bs.length + 1 ==
            (List.replicate n ' ' ++ a :: (bs ++ [z])).length) = true := by
          simp; omega
        rw [he]
        exact step_tag_eol_last U _ z _ pre K ⟨addRune "" a, "", [], [], "", "", []⟩
          rfl rfl rfl)]
      simp only [lexLoop, Nat.zero_add, addRune_mk, addRune_data, pure, Except.pure]
      rfl

theorem scanLines_snoc (U : UnicodeTables) (ls : List String) (l : String) (s0 s : Lex)
    (h0 : scanLines U ls = .ok s0) (h1 : lexLine U s0 l = .ok s) :
    scanLines U (ls ++ [l]) = .ok s := by
  unfold scanLines at h0 ⊢
  rw [List.foldlM_append, h0]
  show List.foldlM (lexLine U) s0 [l] = _
  rw [List.foldlM_cons, h1]
  rfl

/-- C13: for plain tag lines at strictly increasing columns, split as the
lines `A` (non-empty, producing `N1..Nj`) whose columns are below `n` and the
remaining lines `b :: Bs` whose columns are at least `n`, the last one above
`n`, followed by one more plain tag line `t` at column `n`: the scan of the
first lines gives the linear tree and a stack with one entry per line; `Parse`
of all lines succeeds; the new node is appended as the last child of `Nj`,
after `N(j+1)`, every other node keeps its children, and the stack is cut to
its first `j` entries. -/
theorem C13_dedent_to_inner_level {Val : Type} (U : UnicodeTables)
    (A : List (Nat × String)) (b : Nat × String) (Bs : List (Nat × String)) (n : Nat)
    (t : String) (hA : A ≠ []) (hnames : ∀ p ∈ A ++ b :: Bs, plainName p.2 = true)
    (ht : plainName t = true) (hcols : ((A ++ b :: Bs).map Prod.fst).Pairwise (· < ·))
    (hlt : ∀ p ∈ A, p.1 < n) (hge : n ≤ b.1) (hlast : ∀ p ∈ (b :: Bs).getLast?, n < p.1) :
    ∃ s0 s,
      scanLines U ((A ++ b :: Bs).map (fun p => indented p.1 p.2)) = .ok s0 ∧
      s0.root = spine "" (A.map Prod.snd) [spine b.2 (Bs.map Prod.snd) []] ∧
      s0.stk = nestStack 0 (A ++ b :: Bs) ∧
      s0.stk.length = A.length + 1 + Bs.length ∧
      scanLines U ((A ++ b :: Bs).map (fun p => indented p.1 p.2) ++ [indented n t]) = .ok s ∧
      s.root = spine "" (A.map Prod.snd) [spine b.2 (Bs.map Prod.snd) [], tagNode t []] ∧
      s.stk = s0.stk.take A.length ∧
      (Parse U ⟨(A ++ b :: Bs).map (fun p => indented p.1 p.2) ++ [indented n t], none⟩ :
        Except Fault (Template Val)) =
        .ok ⟨spine "" (A.map Prod.snd) [spine b.2 (Bs.map Prod.snd) [], tagNode t []], []⟩ := by
  obtain ⟨s0, h1, h2, h3, h4⟩ := foldlM_nest U (A ++ b :: Bs) Lex.init [] rfl rfl (by simp)
    hnames hcols
    (by
      intro p _
      show (-1 : Int) < (p.1 : Int)
      omega)
  rcases List.eq_nil_or_concat A with rfl | ⟨A', a', rfl⟩
  · exact absurd rfl hA
  rw [List.concat_eq_append] at *
  have hroot0 : s0.root = spine "" ((A' ++ [a']).map Prod.snd) [spine b.2 (Bs.map Prod.snd) []] := by
    rw [h2, List.nil_append, List.map_append, List.map_cons, spine_append]
  have hstk0 : s0.stk = nestStack 0 (A' ++ [a'] ++ b :: Bs) := by
    rw [h3]
    rfl
  have hstk1 : s0.stk = nestStack 0 A' ++ (⟨a'.1, List.replicate (A'.length + 1) 0⟩ : stack) ::
      (⟨b.1, List.replicate (A'.length + 1 + 1) 0⟩ : stack) ::
        nestStack (A'.length + 1 + 1) Bs := by
    rw [hstk0, List.append_assoc, nestStack_append]
    simp only [List.singleton_append, nestStack, Nat.zero_add]
  have hl : (n : Int) < s0.last := by
    have hgl : (A' ++ [a'] ++ b :: Bs).getLast? = (b :: Bs).getLast? := by
      rw [List.getLast?_append]
      cases h : (b :: Bs).getLast? with
      | none => simp at h
      | some q => rfl
    cases hq : (b :: Bs).getLast? with
    | none => simp at hq
    | some q =>
      rw [h4 q (by rw [hgl, hq]; rfl)]
      exact_mod_cast hlast q (by rw [hq]; rfl)
  have hline := lexLine_dedent U s0 ((A' ++ [a']).map Prod.snd) [spine b.2 (Bs.map Prod.snd) []]
    (nestStack 0 A') ⟨a'.1, List.replicate (A'.length + 1) 0⟩
    ⟨b.1, List.replicate (A'.length + 1 + 1) 0⟩ (nestStack (A'.length + 1 + 1) Bs) n t
    hroot0 hstk1 (by simp)
    (by
      intro x hx
      obtain ⟨p, hp, hpx⟩ := List.mem_map.1 (nestStack_col A' 0 x hx)
      rw [← hpx]
      exact hlt p (List.mem_append_left _ hp))
    (hlt a' (by simp)) hge hl
    (by
      intro u hu
      obtain ⟨p, hp, hpu⟩ := List.mem_map.1 hu
      rw [← hpu]
      exact hnames p (List.mem_append_left _ hp))
    ht
  have hscan := scanLines_snoc U _ _ s0 _ h1 hline
  refine ⟨s0, _, h1, hroot0, hstk0, ?_, hscan, rfl, ?_, ?_⟩
  · rw [hstk0, nestStack_length]
    simp only [List.length_append, List.length_cons, List.length_nil]
    omega
  · show nestStack 0 A' ++ [(⟨a'.1, List.replicate (A'.length + 1) 0⟩ : stack)] = _
    rw [hstk1, show nestStack 0 A' ++ (⟨a'.1, List.replicate (A'.length + 1) 0⟩ : stack) ::
      (⟨b.1, List.replicate (A'.length + 1 + 1) 0⟩ : stack) :: nestStack (A'.length + 1 + 1) Bs
      = (nestStack 0 A' ++ [(⟨a'.1, List.replicate (A'.length + 1) 0⟩ : stack)]) ++
        (⟨b.1, List.replicate (A'.length + 1 + 1) 0⟩ : stack) ::
          nestStack (A'.length + 1 + 1) Bs by simp]
    rw [List.take_left' (by simp [nestStack_length])]
  · rw [nest_of_scan U _ _ hscan]
    rfl

/-- C13 at the lines `a`, `  b`, `    c`, `      d` followed by `   e` (columns
0, 2, 4, 6 and then 3): `e` becomes the second child of `b`, after `c`. -/
theorem C13_dedent_to_inner_level_witness :
    ([(0, "a"), (2, "b")] : List (Nat × String)) ≠ [] ∧
    (∀ p ∈ ([(0, "a"), (2, "b")] : List (Nat × String)) ++ (4, "c") :: [(6, "d")],
      plainName p.2 = true) ∧
    plainName "e" = true ∧
    (∀ p ∈ ([(0, "a"), (2, "b")] : List (Nat × String)), p.1 < 3) ∧
    ∃ s0 s,
      scanLines noTables ((([(0, "a"), (2, "b")] : List (Nat × String)) ++ (4, "c") :: [(6, "d")]).map
        (fun p : Nat × String => indented p.1 p.2)) = .ok s0 ∧
      s0.root = spine "" (([(0, "a"), (2, "b")] : List (Nat × String)).map Prod.snd)
        [spine "c" (([(6, "d")] : List (Nat × String)).map Prod.snd) []] ∧
      s0.stk = nestStack 0 (([(0, "a"), (2, "b")] : List (Nat × String)) ++ (4, "c") :: [(6, "d")]) ∧
      s0.stk.length = ([(0, "a"), (2, "b")] : List (Nat × String)).length + 1 +
        ([(6, "d")] : List (Nat × String)).length ∧
      scanLines noTables ((([(0, "a"), (2, "b")] : List (Nat × String)) ++ (4, "c") :: [(6, "d")]).map
        (fun p : Nat × String => indented p.1 p.2) ++ [indented 3 "e"]) = .ok s ∧
      s.root = spine "" (([(0, "a"), (2, "b")] : List (Nat × String)).map Prod.snd)
        [spine "c" (([(6, "d")] : List (Nat × String)).map Prod.snd) [], tagNode "e" []] ∧
      s.stk = s0.stk.take ([(0, "a"), (2, "b")] : List (Nat × String)).length ∧
      (Parse noTables ⟨(([(0, "a"), (2, "b")] : List (Nat × String)) ++ (4, "c") :: [(6, "d")]).map
          (fun p : Nat × String => indented p.1 p.2) ++ [indented 3 "e"], none⟩ :
        Except Fault (Template Unit)) =
        .ok ⟨spine "" (([(0, "a"), (2, "b")] : List (Nat × String)).map Prod.snd)
          [spine "c" (([(6, "d")] : List (Nat × String)).map Prod.snd) [], tagNode "e" []],
          []⟩ :=
  ⟨by decide, by decide!, by decide!, by decide!,
    C13_dedent_to_inner_level noTables [(0, "a"), (2, "b")] (4, "c") [(6, "d")] 3 "e"
      (by decide) (by decide!) (by decide!) (by decide!) (by decide!) (by decide!)
      (by decide!)⟩

end Slim
